import Mathlib

/-!
# Ark: archive-type detection, listing segmentation and copy-on-write rewriting

A shallow embedding of the parts of `arch.cpp`, of
`plugins/libarchive/readwritelibarchiveplugin.cpp` and of
`plugins/libzipplugin/zipplugin.cpp` that the properties below are about,
followed by the theorems.

Conventions of the embedding:

* a `QString` / `QCString` is a list of characters; a `QString` output
  parameter that can be set to `QString::null` is an `Option QString`
  (`none` is the null string);
* library calls whose implementation is outside the repository (QRegExp,
  KMimeMagic, libarchive, the filesystem) are parameters of the functions that
  call them;
* signals and calls into the GUI are recorded in explicit lists.
-/

namespace Ark

/-! ## Strings -/

/-- A Qt string, as the list of its characters. -/
abbrev QString := List Char

/-- The rightmost `n` characters of the string, the whole string when it is
shorter (`QString::right`). -/
def QString.right (s : QString) (n : Nat) : QString :=
  s.drop (s.length - n)

/-! ## `arch.cpp`: archive type detection -/

/-- The archive types of `arch.h`. -/
inductive ArchType where
  | UNKNOWN_FORMAT
  | ZIP_FORMAT
  | TAR_FORMAT
  | AA_FORMAT
  | LHA_FORMAT
  | RAR_FORMAT
  | ZOO_FORMAT
  | COMPRESSED_FORMAT
  deriving DecidableEq, Repr

open ArchType

/-- `Arch::getArchTypeByExtension(archname, extension)`: the returned pair is
the function's result and the value of the in/out parameter `extension` after
the call. -/
def getArchTypeByExtension (archname : QString) (extension : Option QString) :
    ArchType × Option QString :=
  if archname.right 4 = ".tgz".toList ∨ archname.right 4 = ".tzo".toList
      ∨ archname.right 4 = ".taz".toList ∨ archname.right 4 = ".tar".toList then
    (TAR_FORMAT, some (archname.right 4))
  else if archname.right 6 = ".tar.Z".toList then
    (TAR_FORMAT, some ".tar.Z".toList)
  else if archname.right 7 = ".tar.gz".toList ∨ archname.right 7 = ".tar.bz".toList then
    (TAR_FORMAT, some (archname.right 7))
  else if archname.right 8 = ".tar.bz2".toList ∨ archname.right 8 = ".tar.lzo".toList then
    (TAR_FORMAT, some (archname.right 8))
  else if archname.right 4 = ".lha".toList ∨ archname.right 4 = ".lzh".toList then
    (LHA_FORMAT, some (archname.right 4))
  else if archname.right 4 = ".zip".toList ∨ archname.right 4 = ".xpi".toList
      ∨ archname.right 4 = ".exe".toList ∨ archname.right 4 = ".EXE".toList then
    (ZIP_FORMAT, some (archname.right 4))
  else if archname.right 3 = ".gz".toList ∨ archname.right 3 = ".bz".toList then
    (COMPRESSED_FORMAT, some (archname.right 3))
  else if archname.right 4 = ".bz2".toList ∨ archname.right 4 = ".lzo".toList then
    (COMPRESSED_FORMAT, some (archname.right 4))
  else if archname.right 2 = ".Z".toList then
    (COMPRESSED_FORMAT, some ".Z".toList)
  else if archname.right 4 = ".zoo".toList then
    (ZOO_FORMAT, some ".zoo".toList)
  else if archname.right 4 = ".rar".toList then
    (RAR_FORMAT, some ".rar".toList)
  else if archname.right 2 = ".a".toList then
    (AA_FORMAT, some ".a".toList)
  else
    (UNKNOWN_FORMAT, extension)

/-- The two observations `Arch::getArchType` makes of its `KURL` argument. -/
structure KURL where
  /-- Result of `KURL::isEmpty()`. -/
  isEmpty : Bool
  /-- Result of `KURL::fileName()`. -/
  fileName : QString

/-- `Arch::getArchType(archname, extension, realURL)`. The content sniffer
`KMimeMagic::self()->findFileType(_)->mimeType()` is the parameter
`findFileType`. -/
def getArchType (findFileType : QString → QString) (archname : QString)
    (extension : Option QString) (realURL : KURL) : ArchType × Option QString :=
  let fileName := if realURL.isEmpty then archname else realURL.fileName
  let byExt := getArchTypeByExtension fileName extension
  if byExt.1 = UNKNOWN_FORMAT then
    let mimetype := findFileType archname
    let extType := byExt.1
    let extType := if mimetype = "application/x-rar".toList then RAR_FORMAT else extType
    let extType := if mimetype = "application/x-lha".toList then LHA_FORMAT else extType
    let extType := if mimetype = "application/x-archive".toList then AA_FORMAT else extType
    let extType := if mimetype = "application/x-tar".toList then TAR_FORMAT else extType
    let extType := if mimetype = "application/x-zip".toList then ZIP_FORMAT else extType
    let extType := if mimetype = "application/x-jar".toList then ZIP_FORMAT else extType
    (extType, none)
  else
    byExt

/-- The extensions `getArchTypeByExtension` knows, each with the type it is
mapped to, in the order in which the code tests them. -/
def knownExtensions : List (QString × ArchType) :=
  [(".tgz".toList, TAR_FORMAT), (".tzo".toList, TAR_FORMAT), (".taz".toList, TAR_FORMAT),
   (".tar".toList, TAR_FORMAT), (".tar.Z".toList, TAR_FORMAT), (".tar.gz".toList, TAR_FORMAT),
   (".tar.bz".toList, TAR_FORMAT), (".tar.bz2".toList, TAR_FORMAT),
   (".tar.lzo".toList, TAR_FORMAT), (".lha".toList, LHA_FORMAT), (".lzh".toList, LHA_FORMAT),
   (".zip".toList, ZIP_FORMAT), (".xpi".toList, ZIP_FORMAT), (".exe".toList, ZIP_FORMAT),
   (".EXE".toList, ZIP_FORMAT), (".gz".toList, COMPRESSED_FORMAT),
   (".bz".toList, COMPRESSED_FORMAT), (".bz2".toList, COMPRESSED_FORMAT),
   (".lzo".toList, COMPRESSED_FORMAT), (".Z".toList, COMPRESSED_FORMAT),
   (".zoo".toList, ZOO_FORMAT), (".rar".toList, RAR_FORMAT), (".a".toList, AA_FORMAT)]

/-- The same table ordered longest extension first, as the specification words
the detector ("a fixed, longest-suffix-first ordered list of known
extensions"). -/
def longestFirstExtensions : List (QString × ArchType) :=
  [(".tar.bz2".toList, TAR_FORMAT), (".tar.lzo".toList, TAR_FORMAT),
   (".tar.gz".toList, TAR_FORMAT), (".tar.bz".toList, TAR_FORMAT),
   (".tar.Z".toList, TAR_FORMAT),
   (".tgz".toList, TAR_FORMAT), (".tzo".toList, TAR_FORMAT), (".taz".toList, TAR_FORMAT),
   (".tar".toList, TAR_FORMAT), (".lha".toList, LHA_FORMAT), (".lzh".toList, LHA_FORMAT),
   (".zip".toList, ZIP_FORMAT), (".xpi".toList, ZIP_FORMAT), (".exe".toList, ZIP_FORMAT),
   (".EXE".toList, ZIP_FORMAT), (".bz2".toList, COMPRESSED_FORMAT),
   (".lzo".toList, COMPRESSED_FORMAT), (".zoo".toList, ZOO_FORMAT), (".rar".toList, RAR_FORMAT),
   (".gz".toList, COMPRESSED_FORMAT), (".bz".toList, COMPRESSED_FORMAT),
   (".Z".toList, COMPRESSED_FORMAT), (".a".toList, AA_FORMAT)]

/-- The reference detector of the specification: the first extension of the
longest-first list that the file name ends with (case-sensitively), if any. -/
def referenceDetector (archname : QString) : Option (QString × ArchType) :=
  longestFirstExtensions.find? (fun e => decide (e.1 <:+ archname))

/-- What the reference detector's answer means for the caller: the type and
the extension output (left as it was when nothing matched). -/
def referenceResult (archname : QString) (extension : Option QString) :
    ArchType × Option QString :=
  match referenceDetector archname with
  | none => (UNKNOWN_FORMAT, extension)
  | some (e, t) => (t, some e)

/-! ## `arch.cpp`: parsing one line of a listing -/

/-- A `QCString`, as the list of its bytes. -/
abbrev QCString := List Char

/-- `QCString::mid(index, len)`. -/
def QCString.mid (s : QCString) (index len : Nat) : QCString :=
  (s.drop index).take len

/-- A `QRegExp`, seen through `search(line, pos)` followed by
`matchedLength()`: `none` when `search` returns `-1`, otherwise the position
of the match and its length. -/
abbrev QRegExp := QCString → Nat → Option (Nat × Nat)

/-- `Arch::ArchColumns`: one field extractor. -/
structure ArchColumns where
  colRef : Int
  pattern : QRegExp
  maxLength : Int
  optional : Bool

/-- The local array `QString columns[11]` of `processLine`, with a flag that is
raised as soon as an index outside the array is used (the C++ behaviour is
then undefined; the embedding reads an empty string and writes nothing). -/
structure ColumnArray where
  slots : List QString
  outOfBounds : Bool
  deriving DecidableEq, Repr

/-- Eleven empty strings. -/
def ColumnArray.new : ColumnArray :=
  { slots := List.replicate 11 [], outOfBounds := false }

/-- Whether `i` indexes the array. -/
def ColumnArray.inBounds (i : Int) : Bool :=
  decide (0 ≤ i) && decide (i < 11)

/-- The value `columns[i]`. -/
def ColumnArray.get (a : ColumnArray) (i : Int) : QString :=
  if ColumnArray.inBounds i then a.slots.getD i.toNat [] else []

/-- The array after `columns[i]` has been read. -/
def ColumnArray.touch (a : ColumnArray) (i : Int) : ColumnArray :=
  if ColumnArray.inBounds i then a else { a with outOfBounds := true }

/-- The array after `columns[i] = v`. -/
def ColumnArray.set (a : ColumnArray) (i : Int) (v : QString) : ColumnArray :=
  if ColumnArray.inBounds i then { a with slots := a.slots.set i.toNat v }
  else { a with outOfBounds := true }

/-- The library functions `processLine` calls to build the time stamp. -/
structure ArkUtils where
  /-- `ArkUtils::fixYear`. -/
  fixYear : QString → QString
  /-- `ArkUtils::getMonth`. -/
  getMonth : QString → Int
  /-- `QString("%1").arg(n)` for an `int`. -/
  number : Int → QString
  /-- `QString::arg(const QString &)`: the receiver, then the argument. -/
  arg : QString → QString → QString

/-- The members of `Arch` that `processLine` reads. -/
structure ArchConfig where
  m_archCols : List ArchColumns
  m_numCols : Int
  m_dateCol : Int
  m_fixYear : Int
  m_fixMonth : Int
  m_fixDay : Int
  m_fixTime : Int
  m_repairYear : Int
  m_repairMonth : Int

/-- The locals `pos` and `columns` of `processLine`. -/
structure ScanState where
  pos : Nat
  columns : ColumnArray
  deriving DecidableEq, Repr

/-- The test `-1 == strpos || len > curCol->maxLength`. -/
def ArchColumns.fails (curCol : ArchColumns) (line : QCString) (pos : Nat) : Bool :=
  match curCol.pattern line pos with
  | none => true
  | some (_, len) => decide ((len : Int) > curCol.maxLength)

/-- The `for` loop of `processLine` over the extractors still to be visited.
The flag is `false` for the `return false` inside the loop and `true` when the
loop is left at its end; the state is that of the locals at that point. -/
def extractColumns (line : QCString) : List ArchColumns → ScanState → Bool × ScanState
  | [], st => (true, st)
  | curCol :: rest, st =>
    match curCol.pattern line st.pos with
    | none =>
      if curCol.optional then extractColumns line rest st else (false, st)
    | some (strpos, len) =>
      if (len : Int) > curCol.maxLength then
        if curCol.optional then extractColumns line rest st else (false, st)
      else
        extractColumns line rest
          { pos := strpos + len,
            columns := st.columns.set curCol.colRef (line.mid strpos len) }

/-- The block `if (m_dateCol >= 0) { ... }` of `processLine`. -/
def composeTimestamp (cfg : ArchConfig) (lib : ArkUtils) (columns : ColumnArray) :
    ColumnArray :=
  if cfg.m_dateCol ≥ 0 then
    let year :=
      if cfg.m_repairYear ≥ 0 then lib.fixYear (columns.get cfg.m_repairYear)
      else columns.get cfg.m_fixYear
    let columns :=
      if cfg.m_repairYear ≥ 0 then columns.touch cfg.m_repairYear
      else columns.touch cfg.m_fixYear
    let month :=
      if cfg.m_repairMonth ≥ 0 then lib.number (lib.getMonth (columns.get cfg.m_repairMonth))
      else columns.get cfg.m_fixMonth
    let columns :=
      if cfg.m_repairMonth ≥ 0 then columns.touch cfg.m_repairMonth
      else columns.touch cfg.m_fixMonth
    let timestamp :=
      lib.arg (lib.arg (lib.arg (lib.arg "%1-%2-%3 %4".toList year) month)
        (columns.get cfg.m_fixDay)) (columns.get cfg.m_fixTime)
    let columns := (columns.touch cfg.m_fixDay).touch cfg.m_fixTime
    columns.set cfg.m_dateCol timestamp
  else
    columns

/-- The loop `for (int i = 0; i < m_numCols; ++i) list.append(columns[i])`:
the list built, and the array with its flag after the reads. -/
def collectColumns (numCols : Int) (columns : ColumnArray) : List QString × ColumnArray :=
  ((List.range numCols.toNat).map (fun (i : Nat) => columns.get (i : Int)),
   (List.range numCols.toNat).foldl (fun a (i : Nat) => a.touch (i : Int)) columns)

/-- What a call of `processLine` does. -/
structure ProcessLineResult where
  /-- The value returned. -/
  ret : Bool
  /-- The lists passed to `m_gui->listingAdd`, in order. -/
  listingAdd : List (List QString)
  /-- Whether an index outside `columns[11]` was used. -/
  outOfBounds : Bool
  deriving DecidableEq, Repr

/-- `Arch::processLine(line)`. -/
def processLine (cfg : ArchConfig) (lib : ArkUtils) (line : QCString) : ProcessLineResult :=
  match extractColumns line cfg.m_archCols { pos := 0, columns := ColumnArray.new } with
  | (false, st) => { ret := false, listingAdd := [], outOfBounds := st.columns.outOfBounds }
  | (true, st) =>
    let columns := composeTimestamp cfg lib st.columns
    let collected := collectColumns cfg.m_numCols columns
    { ret := true, listingAdd := [collected.1], outOfBounds := collected.2.outOfBounds }

/-- The walk the specification describes, one extractor at a time: an
extractor whose field fails leaves the scan state as it is, a match records the
matched substring in slot `colRef` and moves the scan position to the end of
the match. -/
def scanStep (line : QCString) (st : ScanState) (c : ArchColumns) : ScanState :=
  if c.fails line st.pos then st
  else
    match c.pattern line st.pos with
    | none => st
    | some (strpos, len) =>
      { pos := strpos + len, columns := st.columns.set c.colRef (line.mid strpos len) }

/-- The scan state after the extractors `cols` have been walked, none of them
rejecting the line. -/
def scanAfter (line : QCString) (cols : List ArchColumns) (st : ScanState) : ScanState :=
  cols.foldl (scanStep line) st

/-! ## `arch.cpp`: cutting the listing output into lines -/

/-- The C string that starts at the first of `bytes`, the byte after them
being NUL: it ends at the first NUL. -/
def cstr (bytes : List Char) : QCString :=
  bytes.takeWhile (fun c => c ≠ '\x00')

/-- A line completed by `slotReceivedTOC`, with whether it was handed to
`processLine`. -/
structure LineEvent where
  line : QCString
  dispatched : Bool
  deriving DecidableEq, Repr

/-- The members of `Arch` that `slotReceivedTOC` reads and writes, with two
records of what it did: `shellOutput` is the text appended with
`m_settings->appendShellOutputData`, `log` the lines completed so far, oldest
first. -/
structure TocState where
  m_buffer : QCString
  m_header_removed : Bool
  m_finished : Bool
  m_error : Bool
  shellOutput : QCString
  log : List LineEvent
  deriving DecidableEq, Repr

/-- The state the constructor `Arch::Arch` leaves (it does not initialise
`m_error`). -/
def TocState.initial (m_error : Bool) : TocState :=
  { m_buffer := [], m_header_removed := false, m_finished := false, m_error := m_error,
    shellOutput := [], log := [] }

/-- The body of the `while` loop of `slotReceivedTOC` from
`if(m_headerString.isEmpty())` to `m_buffer = ""`, `m_buffer` holding a
complete line. `processLine` is the value `Arch::processLine` returns. -/
def handleLine (m_headerString : QCString) (processLine : QCString → Bool)
    (st : TocState) : TocState :=
  let line := st.m_buffer
  let st :=
    if m_headerString.isEmpty then
      { st with log := st.log ++ [LineEvent.mk line true] }
    else if ¬ (m_headerString <:+: st.m_buffer) then
      if st.m_header_removed && !st.m_finished then
        if !processLine st.m_buffer then
          { st with m_header_removed := false, m_error := true,
                    log := st.log ++ [LineEvent.mk line true] }
        else
          { st with log := st.log ++ [LineEvent.mk line true] }
      else
        { st with log := st.log ++ [LineEvent.mk line false] }
    else if !st.m_header_removed then
      { st with m_header_removed := true, log := st.log ++ [LineEvent.mk line false] }
    else
      { st with m_finished := true, log := st.log ++ [LineEvent.mk line false] }
  { st with m_buffer := [] }

/-- `m_buffer.append(p)` for a pointer `p` to the C string `cstr bytes`. -/
def TocState.appendBuffer (st : TocState) (bytes : List Char) : TocState :=
  { st with m_buffer := st.m_buffer ++ cstr bytes }

/-- `m_settings->appendShellOutputData(_data)`. -/
def TocState.appendShellOutputData (st : TocState) (bytes : List Char) : TocState :=
  { st with shellOutput := st.shellOutput ++ cstr bytes }

/-- The `while(!m_finished)` loop of `slotReceivedTOC` followed by the final
`if(!m_finished) m_buffer.append(_data + startChar)`. `rest` is the part of
`_data` from `startChar` on; the `for` loop that looks for the next newline is
`List.span`; `fuel` bounds the number of iterations. -/
def tocLoop (m_headerString : QCString) (processLine : QCString → Bool) :
    Nat → List Char → TocState → TocState
  | 0, _, st => st
  | fuel + 1, rest, st =>
    if st.m_finished then st
    else
      match rest.span (fun c => c ≠ '\n') with
      | (seg, []) => st.appendBuffer seg
      | (seg, _ :: rest') =>
        tocLoop m_headerString processLine fuel rest'
          (handleLine m_headerString processLine (st.appendBuffer seg))

/-- `Arch::slotReceivedTOC(_, _data, _length)`, `data` being the `_length`
bytes of `_data`. Every iteration of the loop but the last consumes a newline,
so `_length + 1` iterations are enough. -/
def slotReceivedTOC (m_headerString : QCString) (processLine : QCString → Bool)
    (st : TocState) (data : List Char) : TocState :=
  tocLoop m_headerString processLine (data.length + 1) data (st.appendShellOutputData data)

/-- The chunks of the listing output delivered one after the other. -/
def feedChunks (m_headerString : QCString) (processLine : QCString → Bool)
    (st : TocState) (chunks : List (List Char)) : TocState :=
  chunks.foldl (slotReceivedTOC m_headerString processLine) st

/-- The scan of `slotReceivedTOC` one byte at a time: `seg` is the part of the
current line read so far from the chunk. The result is the state and the
segment with which the loop is left. -/
def scanBytes (m_headerString : QCString) (processLine : QCString → Bool) :
    TocState → List Char → List Char → TocState × List Char
  | st, seg, [] => (st, seg)
  | st, seg, c :: rest =>
    if st.m_finished then (st, seg)
    else if c = '\n' then
      scanBytes m_headerString processLine
        (handleLine m_headerString processLine (st.appendBuffer seg)) [] rest
    else
      scanBytes m_headerString processLine st (seg ++ [c]) rest

/-- The final `if(!m_finished) m_buffer.append(_data + startChar)`. -/
def appendRest (r : TocState × List Char) : TocState :=
  if r.1.m_finished then r.1 else r.1.appendBuffer r.2

/-- The newline-terminated lines of a text, without their newlines; `acc` is
the beginning of the first line. -/
def completeLines : List Char → List Char → List QCString
  | _, [] => []
  | acc, c :: rest =>
    if c = '\n' then acc :: completeLines [] rest
    else completeLines (acc ++ [c]) rest

/-- What follows the last newline of a text; `acc` is the beginning of the
first line. -/
def partialLine : List Char → List Char → QCString
  | acc, [] => acc
  | acc, c :: rest =>
    if c = '\n' then partialLine [] rest
    else partialLine (acc ++ [c]) rest

/-- A log in which every dispatched line is free of the header marker and
comes after a line that holds it. -/
def GatedLog (hdr : QCString) (log : List LineEvent) : Prop :=
  ∀ pre ev post, log = pre ++ ev :: post → ev.dispatched = true →
    ¬ hdr <:+: ev.line ∧ ∃ m ∈ pre, hdr <:+: m.line

/-- The invariant of the segmenter when a header marker is set. -/
def TocInv (hdr : QCString) (st : TocState) : Prop :=
  GatedLog hdr st.log ∧ (st.m_header_removed = true → ∃ m ∈ st.log, hdr <:+: m.line)

/-! ## `readwritelibarchiveplugin.cpp`: rewriting an archive

The libarchive and Qt calls are answered by a `LibarchiveEnv`; the effects of a
call of `addFiles` or `deleteFiles` are collected in an `Outcome`. -/

/-- The return codes of libarchive, with the values of its `archive.h`. -/
def ARCHIVE_EOF : Int := 1
def ARCHIVE_OK : Int := 0
def ARCHIVE_RETRY : Int := -10
def ARCHIVE_WARN : Int := -20
def ARCHIVE_FAILED : Int := -25
def ARCHIVE_FATAL : Int := -30

/-- The filter codes of libarchive, with the values of its `archive.h`. -/
def ARCHIVE_FILTER_NONE : Int := 0
def ARCHIVE_FILTER_GZIP : Int := 1
def ARCHIVE_FILTER_BZIP2 : Int := 2
def ARCHIVE_FILTER_COMPRESS : Int := 3
def ARCHIVE_FILTER_PROGRAM : Int := 4
def ARCHIVE_FILTER_LZMA : Int := 5
def ARCHIVE_FILTER_XZ : Int := 6
def ARCHIVE_FILTER_UU : Int := 7
def ARCHIVE_FILTER_RPM : Int := 8
def ARCHIVE_FILTER_LZIP : Int := 9
def ARCHIVE_FILTER_LRZIP : Int := 10
def ARCHIVE_FILTER_LZOP : Int := 11
def ARCHIVE_FILTER_GRZIP : Int := 12

/-- The filter added to the archive writer: which of the functions
`archive_write_add_filter_*` is called. -/
inductive WriteFilter where
  | gzip
  | bzip2
  | xz
  | lzma
  | compress
  | lzip
  | lzop
  | lrzip
  | none
  deriving DecidableEq, Repr

/-- An archive entry: its path name, and a token that stands for the rest of
its header and for its data. -/
structure ArchiveEntry where
  pathname : QString
  contents : Nat
  deriving DecidableEq, Repr

/-- One step of a `QDirIterator`: the path `it.next()` returns, `it.fileName()`
and the two tests made on `it.fileInfo()`. -/
structure DirItem where
  path : QString
  fileName : QString
  isDir : Bool
  isSymLink : Bool
  deriving DecidableEq, Repr

/-- The answers of libarchive, of Qt and of the file system to the calls made
by `addFiles` and `deleteFiles`. -/
structure LibarchiveEnv where
  /-- `filename()`, the path of the archive. -/
  filename : QString
  /-- `QFileInfo(filename()).exists()`. -/
  fileExists : Bool
  /-- Whether `archive_read_new()` returns a reader. -/
  readNew : Bool
  /-- `archive_read_support_filter_all`. -/
  readSupportFilterAll : Int
  /-- `archive_read_support_format_all`. -/
  readSupportFormatAll : Int
  /-- `archive_read_open_filename`. -/
  readOpenFilename : Int
  /-- `archive_filter_code(reader, 0)`. -/
  filterCode : Int
  /-- The results of the successive calls of `archive_read_next_header` on the
  archive, each with the entry it delivers; after them the call returns
  `ARCHIVE_EOF`. -/
  headers : List (Int × ArchiveEntry)
  /-- `QSaveFile::open`. -/
  tempFileOpen : Bool
  /-- Whether `archive_write_new()` returns a writer. -/
  writeNew : Bool
  /-- `archive_write_add_filter_*`. -/
  addFilter : WriteFilter → Int
  /-- `archive_write_open_fd`. -/
  writeOpenFd : Int
  /-- `archive_write_header`: the number of calls made before on the writer,
  and the entry. -/
  writeHeader : Nat → ArchiveEntry → Int
  /-- `m_workDir.relativeFilePath`. -/
  relativeFilePath : QString → QString
  /-- `QFileInfo(path).isDir()`. -/
  isDir : QString → Bool
  /-- The steps of `QDirIterator(path, ..., QDirIterator::Subdirectories)`. -/
  dirEntries : QString → List DirItem
  /-- What `archive_read_disk_entry_from_file` and `copyData` read of a file on
  disk. -/
  diskContents : QString → Nat

/-- A signal emitted by the plugin. -/
inductive Signal where
  | error
  | entryRemoved (name : QString)
  | entry (e : ArchiveEntry)
  deriving DecidableEq, Repr

/-- One call of `archive_write_header` that did not abort the operation: the
entry, the code returned, and whether the data was copied after it. -/
structure WrittenRecord where
  entry : ArchiveEntry
  headerCode : Int
  dataCopied : Bool
  deriving DecidableEq, Repr

/-- What is at the archive's real path `filename()`: nothing, the archive as it
was before the call, or the staging file committed by `QSaveFile::commit`. -/
inductive PathState where
  | absent
  | original
  | committed (filter : WriteFilter) (records : List WrittenRecord)
  deriving DecidableEq, Repr

/-- The state of the archive's real path before the call. -/
def LibarchiveEnv.initialPath (env : LibarchiveEnv) : PathState :=
  if env.fileExists then PathState.original else PathState.absent

/-- The staging archive being written, the signals emitted and
`m_writtenFiles`; `headerCodes` lists the codes returned by all the calls of
`archive_write_header` so far. -/
structure RewriteState where
  records : List WrittenRecord
  headerCodes : List Int
  signals : List Signal
  m_writtenFiles : List QString
  deriving DecidableEq, Repr

/-- The effects of a call of `addFiles` or `deleteFiles`. -/
structure Outcome where
  /-- The value returned. -/
  ret : Bool
  /-- What is at `filename()` after the call. -/
  realPath : PathState
  /-- The signals emitted, in order. -/
  signals : List Signal
  /-- The codes returned by the calls of `archive_write_header`, in order. -/
  headerCodes : List Int
  deriving DecidableEq, Repr

/-- A `return false` that leaves the archive's path alone: the `QSaveFile`, if
already open, is destroyed without `commit` and discards its temporary file. -/
def Outcome.failed (env : LibarchiveEnv) (st : RewriteState) : Outcome :=
  { ret := false, realPath := env.initialPath, signals := st.signals,
    headerCodes := st.headerCodes }

/-- `QSaveFile::fileName()`: the name given to the constructor, which is the
path of the archive and not that of the temporary file behind the
`QSaveFile`. -/
def QSaveFile.fileName (env : LibarchiveEnv) : QString :=
  env.filename

/-- `QFile::remove(path)`, as far as the archive's path is concerned. -/
def QFile.remove (env : LibarchiveEnv) (path : QString) (realPath : PathState) : PathState :=
  if path = env.filename then PathState.absent else realPath

/-- The state at the start of a call. -/
def RewriteState.empty : RewriteState :=
  { records := [], headerCodes := [], signals := [], m_writtenFiles := [] }

/-- The state after `emit error(...)`. -/
def RewriteState.emitError (st : RewriteState) : RewriteState :=
  { st with signals := st.signals ++ [Signal.error] }

/-- The `switch (archive_filter_code(arch_reader.data(), 0))` of `deleteFiles`:
the filter added to the writer, `none` for the `default:` branch. -/
def deleteFilesFilter (code : Int) : Option WriteFilter :=
  if code = ARCHIVE_FILTER_GZIP then some WriteFilter.gzip
  else if code = ARCHIVE_FILTER_BZIP2 then some WriteFilter.bzip2
  else if code = ARCHIVE_FILTER_XZ then some WriteFilter.xz
  else if code = ARCHIVE_FILTER_LZMA then some WriteFilter.lzma
  else if code = ARCHIVE_FILTER_NONE then some WriteFilter.none
  else none

/-- The `switch (archive_filter_code(arch_reader.data(), 0))` of `addFiles`:
the filter added to the writer, `none` for the `default:` branch. -/
def addFilesFilter (code : Int) : Option WriteFilter :=
  if code = ARCHIVE_FILTER_GZIP then some WriteFilter.gzip
  else if code = ARCHIVE_FILTER_BZIP2 then some WriteFilter.bzip2
  else if code = ARCHIVE_FILTER_XZ then some WriteFilter.xz
  else if code = ARCHIVE_FILTER_LZMA then some WriteFilter.lzma
  else if code = ARCHIVE_FILTER_COMPRESS then some WriteFilter.compress
  else if code = ARCHIVE_FILTER_LZIP then some WriteFilter.lzip
  else if code = ARCHIVE_FILTER_LZOP then some WriteFilter.lzop
  else if code = ARCHIVE_FILTER_LRZIP then some WriteFilter.lrzip
  else if code = ARCHIVE_FILTER_NONE then some WriteFilter.none
  else none

/-- `QString::toUpper`, on the letters `a` to `z`. -/
def QString.toUpper (s : QString) : QString :=
  s.map Char.toUpper

/-- The filter `addFiles` adds to the writer of a new archive
(`creatingNewFile`), from the end of its file name. -/
def newFileFilter (filename : QString) : WriteFilter :=
  if (filename.right 2).toUpper = "GZ".toList then WriteFilter.gzip
  else if (filename.right 3).toUpper = "BZ2".toList then WriteFilter.bzip2
  else if (filename.right 2).toUpper = "XZ".toList then WriteFilter.xz
  else if (filename.right 4).toUpper = "LZMA".toList then WriteFilter.lzma
  else if (filename.right 2).toUpper = ".Z".toList then WriteFilter.compress
  else if (filename.right 2).toUpper = "LZ".toList then WriteFilter.lzip
  else if (filename.right 3).toUpper = "LZO".toList then WriteFilter.lzop
  else if (filename.right 3).toUpper = "LRZ".toList then WriteFilter.lrzip
  else if (filename.right 3).toUpper = "TAR".toList then WriteFilter.none
  else WriteFilter.gzip

/-- The loop `while (archive_read_next_header(...) == ARCHIVE_OK)` of
`deleteFiles` over the results still to come from the reader. The flag is
false when the loop is left by `return false`. -/
def deleteLoop (env : LibarchiveEnv) (files : List QString) :
    List (Int × ArchiveEntry) → RewriteState → Bool × RewriteState
  | [], st => (true, st)
  | (rc, entry) :: rest, st =>
    if rc ≠ ARCHIVE_OK then (true, st)
    else if files.contains entry.pathname then
      deleteLoop env files rest
        { st with signals := st.signals ++ [Signal.entryRemoved entry.pathname] }
    else
      let returnCode := env.writeHeader st.headerCodes.length entry
      let st := { st with headerCodes := st.headerCodes ++ [returnCode] }
      if returnCode = ARCHIVE_OK then
        deleteLoop env files rest
          { st with records := st.records ++ [⟨entry, returnCode, true⟩] }
      else if returnCode = ARCHIVE_FAILED ∨ returnCode = ARCHIVE_FATAL then
        (false, st.emitError)
      else
        deleteLoop env files rest
          { st with records := st.records ++ [⟨entry, returnCode, false⟩] }

/-- `ReadWriteLibarchivePlugin::deleteFiles(files)`. -/
def deleteFiles (env : LibarchiveEnv) (files : List QString) : Outcome :=
  let st := RewriteState.empty
  if !env.readNew then Outcome.failed env st.emitError
  else if env.readSupportFilterAll ≠ ARCHIVE_OK then Outcome.failed env st
  else if env.readSupportFormatAll ≠ ARCHIVE_OK then Outcome.failed env st
  else if env.readOpenFilename ≠ ARCHIVE_OK then Outcome.failed env st.emitError
  else if !env.tempFileOpen then Outcome.failed env st.emitError
  else if !env.writeNew then Outcome.failed env st.emitError
  else
    match deleteFilesFilter env.filterCode with
    | none => Outcome.failed env st.emitError
    | some filter =>
      if env.addFilter filter ≠ ARCHIVE_OK then Outcome.failed env st.emitError
      else if env.writeOpenFd ≠ ARCHIVE_OK then Outcome.failed env st.emitError
      else
        match deleteLoop env files env.headers st with
        | (false, st) => Outcome.failed env st
        | (true, st) =>
          { ret := true, realPath := PathState.committed filter st.records,
            signals := st.signals, headerCodes := st.headerCodes }

/-- `ReadWriteLibarchivePlugin::writeFile(fileName, arch_writer)`. -/
def writeFile (env : LibarchiveEnv) (fileName : QString) (st : RewriteState) :
    Bool × RewriteState :=
  let trailingSlash := decide (fileName.getLast? = some '/')
  let relativeName := env.relativeFilePath fileName ++ (if trailingSlash then ['/'] else [])
  let entry : ArchiveEntry := ⟨relativeName, env.diskContents fileName⟩
  let header_response := env.writeHeader st.headerCodes.length entry
  let st := { st with headerCodes := st.headerCodes ++ [header_response] }
  if header_response = ARCHIVE_OK then
    (true, { st with records := st.records ++ [⟨entry, header_response, true⟩],
                     m_writtenFiles := st.m_writtenFiles ++ [relativeName],
                     signals := st.signals ++ [Signal.entry entry] })
  else
    (false, st.emitError)

/-- The loop `while (it.hasNext())` of `addFiles` over the steps still to come
from the `QDirIterator`. The flag is false when it is left by `return false`. -/
def writeDirectory (env : LibarchiveEnv) : List DirItem → RewriteState → Bool × RewriteState
  | [], st => (true, st)
  | it :: rest, st =>
    if it.fileName = "..".toList ∨ it.fileName = ".".toList then
      writeDirectory env rest st
    else
      let isRealDir := it.isDir && !it.isSymLink
      let path := if isRealDir then it.path ++ ['/'] else it.path
      match writeFile env path st with
      | (false, st) => (false, st)
      | (true, st) => writeDirectory env rest st

/-- The loop `foreach(const QString& selectedFile, files)` of `addFiles`. The
flag is false when it is left by `return false`. -/
def writeFiles (env : LibarchiveEnv) : List QString → RewriteState → Bool × RewriteState
  | [], st => (true, st)
  | selectedFile :: rest, st =>
    match writeFile env selectedFile st with
    | (false, st) => (false, st)
    | (true, st) =>
      if env.isDir selectedFile then
        match writeDirectory env (env.dirEntries selectedFile) st with
        | (false, st) => (false, st)
        | (true, st) => writeFiles env rest st
      else
        writeFiles env rest st

/-- The loop `while (archive_read_next_header(...) == ARCHIVE_OK)` of
`addFiles` over the results still to come from the reader. The flag is false
when the loop is left by `return false`, which `QFile::remove` precedes. -/
def copyOldEntries (env : LibarchiveEnv) :
    List (Int × ArchiveEntry) → RewriteState → Bool × RewriteState
  | [], st => (true, st)
  | (rc, entry) :: rest, st =>
    if rc ≠ ARCHIVE_OK then (true, st)
    else if st.m_writtenFiles.contains entry.pathname then
      copyOldEntries env rest st
    else
      let returnCode := env.writeHeader st.headerCodes.length entry
      let st := { st with headerCodes := st.headerCodes ++ [returnCode] }
      if returnCode = ARCHIVE_OK then
        copyOldEntries env rest
          { st with records := st.records ++ [⟨entry, returnCode, true⟩] }
      else if returnCode = ARCHIVE_FAILED ∨ returnCode = ARCHIVE_FATAL then
        (false, st.emitError)
      else
        copyOldEntries env rest
          { st with records := st.records ++ [⟨entry, returnCode, false⟩] }

/-- The part of `addFiles` from `archive_write_open_fd` on, `filter` being the
filter added to the writer. -/
def addFilesWrite (env : LibarchiveEnv) (files : List QString) (filter : WriteFilter)
    (st : RewriteState) : Outcome :=
  if env.writeOpenFd ≠ ARCHIVE_OK then Outcome.failed env st.emitError
  else
    match writeFiles env files st with
    | (false, st) => Outcome.failed env st
    | (true, st) =>
      if env.fileExists then
        match copyOldEntries env env.headers st with
        | (false, st) =>
          { ret := false,
            realPath := QFile.remove env (QSaveFile.fileName env) env.initialPath,
            signals := st.signals, headerCodes := st.headerCodes }
        | (true, st) =>
          { ret := true, realPath := PathState.committed filter st.records,
            signals := st.signals, headerCodes := st.headerCodes }
      else
        { ret := true, realPath := PathState.committed filter st.records,
          signals := st.signals, headerCodes := st.headerCodes }

/-- `ReadWriteLibarchivePlugin::addFiles(files, options)`; the option
`GlobalWorkDir` acts through `relativeFilePath`. -/
def addFiles (env : LibarchiveEnv) (files : List QString) : Outcome :=
  let creatingNewFile := !env.fileExists
  let st := RewriteState.empty
  if !creatingNewFile && !env.readNew then Outcome.failed env st.emitError
  else if !creatingNewFile && decide (env.readSupportFilterAll ≠ ARCHIVE_OK) then
    Outcome.failed env st
  else if !creatingNewFile && decide (env.readSupportFormatAll ≠ ARCHIVE_OK) then
    Outcome.failed env st
  else if !creatingNewFile && decide (env.readOpenFilename ≠ ARCHIVE_OK) then
    Outcome.failed env st.emitError
  else if !env.tempFileOpen then Outcome.failed env st.emitError
  else if !env.writeNew then Outcome.failed env st.emitError
  else if creatingNewFile then
    if env.addFilter (newFileFilter env.filename) ≠ ARCHIVE_OK then
      Outcome.failed env st.emitError
    else addFilesWrite env files (newFileFilter env.filename) st
  else
    match addFilesFilter env.filterCode with
    | none => Outcome.failed env st.emitError
    | some filter =>
      if env.addFilter filter ≠ ARCHIVE_OK then Outcome.failed env st.emitError
      else addFilesWrite env files filter st

/-- The path written for a step of a directory iterator: a real directory
gets a `/` appended. -/
def DirItem.writtenPath (it : DirItem) : QString :=
  if it.isDir && !it.isSymLink then it.path ++ ['/'] else it.path

/-- The paths written for the steps of a directory iterator, `.` and `..`
left out. -/
def dirPaths : List DirItem → List QString
  | [] => []
  | it :: rest =>
    if it.fileName = "..".toList ∨ it.fileName = ".".toList then dirPaths rest
    else it.writtenPath :: dirPaths rest

/-- The paths `addFiles` writes for one input: the input itself, then, for a
directory, its descendants in the order of the iterator. -/
def inputPaths (env : LibarchiveEnv) (selectedFile : QString) : List QString :=
  selectedFile :: (if env.isDir selectedFile then dirPaths (env.dirEntries selectedFile) else [])

/-- The entry `writeFile` builds for a path. -/
def entryOfPath (env : LibarchiveEnv) (fileName : QString) : ArchiveEntry :=
  ⟨env.relativeFilePath fileName
      ++ (if decide (fileName.getLast? = some '/') then ['/'] else []),
    env.diskContents fileName⟩

/-- The entries written for a list of inputs. -/
def newEntries (env : LibarchiveEnv) (files : List QString) : List ArchiveEntry :=
  (files.flatMap (inputPaths env)).map (entryOfPath env)

/-- The record of an entry whose header was written with `ARCHIVE_OK` and
whose data was copied. -/
def WrittenRecord.ok (e : ArchiveEntry) : WrittenRecord :=
  ⟨e, ARCHIVE_OK, true⟩

/-- The entries of the archive before the call, none when there is no
archive. -/
def LibarchiveEnv.oldEntries (env : LibarchiveEnv) : List ArchiveEntry :=
  if env.fileExists then env.headers.map (fun h => h.2) else []

/-- The steps of `deleteFiles` before the loop all succeed. -/
def LibarchiveEnv.deleteSetupOk (env : LibarchiveEnv) (filter : WriteFilter) : Prop :=
  env.readNew = true ∧ env.readSupportFilterAll = ARCHIVE_OK
    ∧ env.readSupportFormatAll = ARCHIVE_OK ∧ env.readOpenFilename = ARCHIVE_OK
    ∧ env.tempFileOpen = true ∧ env.writeNew = true
    ∧ env.addFilter filter = ARCHIVE_OK ∧ env.writeOpenFd = ARCHIVE_OK

/-- The filter `addFiles` selects, `none` when the old archive's filter is not
one of its `switch`. -/
def LibarchiveEnv.addFilter? (env : LibarchiveEnv) : Option WriteFilter :=
  if env.fileExists then addFilesFilter env.filterCode else some (newFileFilter env.filename)

/-- The steps of `addFiles` before the write phase all succeed. -/
def LibarchiveEnv.addSetupOk (env : LibarchiveEnv) (filter : WriteFilter) : Prop :=
  (env.fileExists = true →
      env.readNew = true ∧ env.readSupportFilterAll = ARCHIVE_OK
        ∧ env.readSupportFormatAll = ARCHIVE_OK ∧ env.readOpenFilename = ARCHIVE_OK)
    ∧ env.tempFileOpen = true ∧ env.writeNew = true
    ∧ env.addFilter filter = ARCHIVE_OK ∧ env.writeOpenFd = ARCHIVE_OK

/-- The state after the entries `es` have been written by `writeFile`, every
header with `ARCHIVE_OK`. -/
def RewriteState.wrote (st : RewriteState) (es : List ArchiveEntry) : RewriteState :=
  { records := st.records ++ es.map WrittenRecord.ok,
    headerCodes := st.headerCodes ++ es.map (fun _ => ARCHIVE_OK),
    signals := st.signals ++ es.map Signal.entry,
    m_writtenFiles := st.m_writtenFiles ++ es.map (fun e => e.pathname) }

/-- The state after the old entries `es` have been carried forward, every
header with `ARCHIVE_OK`. -/
def RewriteState.copied (st : RewriteState) (es : List ArchiveEntry) : RewriteState :=
  { st with records := st.records ++ es.map WrittenRecord.ok,
            headerCodes := st.headerCodes ++ es.map (fun _ => ARCHIVE_OK) }

/-- A sample environment: a gzip archive with the entries `a`, `b`, `c`, every
call succeeding; on disk `b` is a file and `d` a directory that holds `d/e`. -/
def sampleEnv : LibarchiveEnv :=
  { filename := "x.tar.gz".toList, fileExists := true, readNew := true,
    readSupportFilterAll := ARCHIVE_OK, readSupportFormatAll := ARCHIVE_OK,
    readOpenFilename := ARCHIVE_OK, filterCode := ARCHIVE_FILTER_GZIP,
    headers := [(ARCHIVE_OK, ⟨"a".toList, 1⟩), (ARCHIVE_OK, ⟨"b".toList, 2⟩),
                (ARCHIVE_OK, ⟨"c".toList, 3⟩)],
    tempFileOpen := true, writeNew := true, addFilter := fun _ => ARCHIVE_OK,
    writeOpenFd := ARCHIVE_OK, writeHeader := fun _ _ => ARCHIVE_OK,
    relativeFilePath := id, isDir := fun p => decide (p = "d".toList),
    dirEntries := fun p =>
      if p = "d".toList then [⟨"d/.".toList, ".".toList, true, false⟩,
                              ⟨"d/e".toList, "e".toList, false, false⟩]
      else [],
    diskContents := fun _ => 7 }

/-! ## `arch.cpp`: the end of the external tool -/

/-- What the slots read of the `KProcess` that has exited. -/
structure KProcess where
  /-- `normalExit()`. -/
  normalExit : Bool
  /-- `exitStatus()`. -/
  exitStatus : Int
  deriving DecidableEq, Repr

/-- The capabilities announced by `sigOpen` (`Arch::Extract`, `Arch::Delete`,
`Arch::Add`, `Arch::View`). -/
inductive Capability where
  | Extract
  | Delete
  | Add
  | View
  deriving DecidableEq, Repr

/-- What a slot does that can be seen from outside, in order: the dialogs it
opens and the signal it emits. The file name of `sigOpen` is `none` for
`QString::null`, and its last argument is the set of flags or-ed together. -/
inductive ArchEvent where
  | restoreOverrideCursor
  | messageBoxError
  | messageBoxSorry
  | warningYesNo
  | viewShellOutput
  | sigOpen (success : Bool) (filename : Option QString) (flags : List Capability)
  | sigDelete (success : Bool)
  | sigExtract (success : Bool)
  | sigAdd (success : Bool)
  deriving DecidableEq, Repr

/-- Whether the event is one of the four signals. -/
def ArchEvent.isSignal : ArchEvent → Bool
  | ArchEvent.sigOpen _ _ _ => true
  | ArchEvent.sigDelete _ => true
  | ArchEvent.sigExtract _ => true
  | ArchEvent.sigAdd _ => true
  | _ => false

/-- `Arch::stderrIsError()`: `m_shellErrorData.find(QString("eror")) != -1`. -/
def stderrIsError (m_shellErrorData : QString) : Bool :=
  decide ("eror".toList <:+: m_shellErrorData)

/-- `Arch::slotOpenExited(_kp)`. -/
def slotOpenExited (m_filename : QString) (_kp : KProcess) : List ArchEvent :=
  let bNormalExit := _kp.normalExit
  let exitStatus : Int := 100
  let exitStatus := if bNormalExit then _kp.exitStatus else exitStatus
  let exitStatus := if 1 = exitStatus then 0 else exitStatus
  if exitStatus = 0 then
    [ArchEvent.sigOpen true (some m_filename)
      [Capability.Extract, Capability.Delete, Capability.Add, Capability.View]]
  else
    [ArchEvent.sigOpen false none []]

/-- `Arch::slotDeleteExited(_kp)`. -/
def slotDeleteExited (m_shellErrorData : QString) (m_bNotifyWhenDeleteFails : Bool)
    (_kp : KProcess) : List ArchEvent :=
  if _kp.normalExit && decide (_kp.exitStatus = 0) then
    if stderrIsError m_shellErrorData then
      [ArchEvent.restoreOverrideCursor, ArchEvent.messageBoxError, ArchEvent.sigDelete false]
    else
      [ArchEvent.sigDelete true]
  else
    if m_bNotifyWhenDeleteFails then
      [ArchEvent.restoreOverrideCursor, ArchEvent.messageBoxSorry, ArchEvent.sigDelete false]
    else
      [ArchEvent.sigDelete true]

/-- `Arch::slotExtractExited(_kp)`; `answerYes` is whether the user answers
`KMessageBox::Yes` to the question asked. -/
def slotExtractExited (m_shellErrorData : QString) (answerYes : Bool) (_kp : KProcess) :
    List ArchEvent :=
  if _kp.normalExit && decide (_kp.exitStatus = 0) then
    if stderrIsError m_shellErrorData then
      [ArchEvent.restoreOverrideCursor, ArchEvent.warningYesNo]
        ++ (if answerYes then [ArchEvent.viewShellOutput] else [])
        ++ [ArchEvent.sigExtract false]
    else
      [ArchEvent.sigExtract true]
  else
    [ArchEvent.sigExtract false]

/-- `Arch::slotAddExited(_kp)`; `answerYes` is whether the user answers
`KMessageBox::Yes` to the question asked. -/
def slotAddExited (m_shellErrorData : QString) (answerYes : Bool) (_kp : KProcess) :
    List ArchEvent :=
  if _kp.normalExit && decide (_kp.exitStatus = 0) then
    if stderrIsError m_shellErrorData then
      [ArchEvent.restoreOverrideCursor, ArchEvent.messageBoxError, ArchEvent.sigAdd false]
    else
      [ArchEvent.sigAdd true]
  else
    [ArchEvent.restoreOverrideCursor, ArchEvent.warningYesNo]
      ++ (if answerYes then [ArchEvent.viewShellOutput] else [])
      ++ [ArchEvent.sigAdd false]

/-! ## `plugins/libzipplugin/zipplugin.cpp` -/

/-- The fields of `struct zip_stat` that `emitEntryForIndex` reads; `name` is
the name as the plugin sees it,
`QDir::fromNativeSeparators(QFile::decodeName(stat.name))`. -/
structure ZipStat where
  name : QString
  crc : Nat
  size : Nat
  mtime : Int
  comp_size : Nat
  comp_method : Nat
  encryption_method : Nat
  deriving DecidableEq, Repr

/-- One index of an open zip archive: what `zip_stat_index` delivers for it
(`none` when the call fails), and whether `zip_delete` has marked it. -/
structure ZipSlot where
  stat : Option ZipStat
  deleted : Bool
  deriving DecidableEq, Repr

/-- An open archive (`struct zip`), as the list of its indices. -/
abbrev ZipArchive := List ZipSlot

/-- The `ArchiveEntry` built by `emitEntryForIndex`. -/
structure ZipArchiveEntry where
  FileName : QString
  InternalID : QString
  CRC : Nat
  Size : Nat
  Timestamp : Int
  CompressedSize : Nat
  Method : Nat
  IsPasswordProtected : Bool
  IsDirectory : Bool
  deriving DecidableEq, Repr

/-- The signals of the zip plugin; `progress n d` stands for
`progress(n * 1.0 / d)`. -/
inductive ZipSignal where
  | error
  | entry (e : ZipArchiveEntry)
  | entryRemoved (name : QString)
  | progress (n : Int) (d : Int)
  deriving DecidableEq, Repr

/-- The answers of libzip, of Qt and of the file system to the calls made by
the zip plugin. -/
structure ZipEnv where
  /-- `zip_open(filename(), ZIP_CREATE, &errorCode)`, `none` for a null
  pointer. -/
  zipOpen : Option ZipArchive
  /-- `zip_name_locate(m_archive, name, 0)`. -/
  nameLocate : Option ZipArchive → QString → Int
  /-- `expandDirectories`. -/
  expandDirectories : List QString → List QString
  /-- `QDir::current().relativeFilePath`. -/
  relativeFilePath : QString → QString
  /-- `QFileInfo(path).isDir()`. -/
  isDir : QString → Bool
  /-- Whether `zip_source_file(m_archive, file, 0, -1)` returns a source. -/
  sourceFile : QString → Bool
  /-- `zip_add(m_archive, name, source)` for the source of `file`: `none` when
  it fails and returns `-1`, otherwise the entry it appends to the archive. -/
  zipAdd : ZipArchive → QString → QString → Option ZipSlot

/-- The member `m_archive` (`none` for a null pointer), the signals emitted so
far and the archives handed to `zip_close`, which writes them to disk. -/
structure ZipState where
  m_archive : Option ZipArchive
  signals : List ZipSignal
  zipClosed : List ZipArchive
  deriving DecidableEq, Repr

/-- The state after a signal has been emitted. -/
def ZipState.emit (st : ZipState) (s : ZipSignal) : ZipState :=
  { st with signals := st.signals ++ [s] }

/-- `zip_get_num_files(m_archive)`. -/
def zip_get_num_files (m_archive : Option ZipArchive) : Int :=
  match m_archive with
  | some a => (a.length : Int)
  | none => -1

/-- `zip_stat_index(m_archive, index, 0, &stat)`: `none` when it does not
return 0. -/
def zip_stat_index (m_archive : Option ZipArchive) (index : Int) : Option ZipStat :=
  match m_archive with
  | some a => if 0 ≤ index then (a.get? index.toNat).bind (fun slot => slot.stat) else none
  | none => none

/-- `zip_delete(m_archive, index)`. -/
def zip_delete (a : ZipArchive) (index : Int) : ZipArchive :=
  if 0 ≤ index then a.modify (fun slot => { slot with deleted := true }) index.toNat else a

/-- `zip_add(m_archive, name, source)` for the source of `file`: the index
returned, `-1` on failure, and the archive after the call. -/
def zip_add (env : ZipEnv) (m_archive : Option ZipArchive) (file name : QString) :
    Int × Option ZipArchive :=
  match m_archive with
  | none => (-1, none)
  | some a =>
    match env.zipAdd a file name with
    | none => (-1, some a)
    | some slot => ((a.length : Int), some (a ++ [slot]))

/-- `LibZipInterface::open()`. -/
def LibZipInterface.open (env : ZipEnv) (st : ZipState) : Bool × ZipState :=
  match env.zipOpen with
  | none => (false, { st with m_archive := none }.emit ZipSignal.error)
  | some a => (true, { st with m_archive := some a })

/-- `LibZipInterface::close()`. -/
def LibZipInterface.close (st : ZipState) : ZipState :=
  match st.m_archive with
  | some a => { st with m_archive := none, zipClosed := st.zipClosed ++ [a] }
  | none => st

/-- The `ArchiveEntry` that `emitEntryForIndex` fills from a `zip_stat`. -/
def ZipArchiveEntry.ofStat (stat : ZipStat) : ZipArchiveEntry :=
  { FileName := stat.name,
    InternalID := stat.name,
    CRC := stat.crc,
    Size := stat.size,
    Timestamp := stat.mtime,
    CompressedSize := stat.comp_size,
    Method := stat.comp_method,
    IsPasswordProtected := if stat.encryption_method ≠ 0 then true else false,
    IsDirectory := decide (stat.name.right 1 = "/".toList) }

/-- `LibZipInterface::emitEntryForIndex(index)`. -/
def LibZipInterface.emitEntryForIndex (st : ZipState) (index : Int) : ZipState :=
  match zip_stat_index st.m_archive index with
  | none => st.emit ZipSignal.error
  | some stat => st.emit (ZipSignal.entry (ZipArchiveEntry.ofStat stat))

/-- The loop of `LibZipInterface::list()` for the indices `index`,
`index + 1`, ..., `count` of them being left. -/
def LibZipInterface.listLoop : Nat → Int → ZipState → ZipState
  | 0, _, st => st
  | count + 1, index, st =>
    if index < zip_get_num_files st.m_archive then
      let st := LibZipInterface.emitEntryForIndex st index
      let st := st.emit (ZipSignal.progress (index + 1) (zip_get_num_files st.m_archive))
      LibZipInterface.listLoop count (index + 1) st
    else st

/-- `LibZipInterface::list()`. The loop runs at most `zip_get_num_files` times,
the archive not changing in it. -/
def LibZipInterface.list (env : ZipEnv) (st : ZipState) : Bool × ZipState :=
  match LibZipInterface.open env st with
  | (false, st) => (false, st)
  | (true, st) =>
    let st := LibZipInterface.listLoop (zip_get_num_files st.m_archive).toNat 0 st
    (true, LibZipInterface.close st)

/-- The `foreach` loop of `LibZipInterface::addFiles` over the files still to
be added; `count` is `expandedFiles.count()` and `processed` the counter of the
same name. The flag is false when the loop is left by `return false`. -/
def LibZipInterface.addLoop (env : ZipEnv) (count : Int) :
    List QString → Int → ZipState → Bool × ZipState
  | [], _, st => (true, st)
  | file :: rest, processed, st =>
    let relativeName := env.relativeFilePath file
    if relativeName.isEmpty then
      LibZipInterface.addLoop env count rest processed st
    else
      let relativeName :=
        if env.isDir relativeName then
          if relativeName.right 1 ≠ "/".toList then relativeName ++ "/".toList
          else relativeName
        else relativeName
      if !env.sourceFile file then
        (false, st.emit ZipSignal.error)
      else
        let added := zip_add env st.m_archive file relativeName
        let index := added.1
        let st := { st with m_archive := added.2 }
        let st := if index < 0 then st.emit ZipSignal.error else st
        let st := LibZipInterface.emitEntryForIndex st index
        let st := st.emit (ZipSignal.progress (processed + 1) count)
        LibZipInterface.addLoop env count rest (processed + 1) st

/-- `LibZipInterface::addFiles(files, options)`; the option `GlobalWorkDir`
acts through `relativeFilePath`. -/
def LibZipInterface.addFiles (env : ZipEnv) (files : List QString) (st : ZipState) :
    Bool × ZipState :=
  let opened :=
    match st.m_archive with
    | none => LibZipInterface.open env st
    | some _ => (true, st)
  match opened with
  | (false, st) => (false, st)
  | (true, st) =>
    let expandedFiles := env.expandDirectories files
    match LibZipInterface.addLoop env (expandedFiles.length : Int) expandedFiles 0 st with
    | (false, st) => (false, st)
    | (true, st) => (true, LibZipInterface.close st)

/-- The `foreach` loop of `LibZipInterface::deleteFiles` over the names still
to be deleted. The flag is false when the loop is left by `return false`. -/
def LibZipInterface.deleteLoop (env : ZipEnv) : List QString → ZipState → Bool × ZipState
  | [], st => (true, st)
  | file :: rest, st =>
    let index := env.nameLocate st.m_archive file
    if index < 0 then
      (false, st.emit ZipSignal.error)
    else
      LibZipInterface.deleteLoop env rest
        ({ st with m_archive := st.m_archive.map (fun a => zip_delete a index) }.emit
          (ZipSignal.entryRemoved file))

/-- `LibZipInterface::deleteFiles(files)`. -/
def LibZipInterface.deleteFiles (env : ZipEnv) (files : List QString) (st : ZipState) :
    Bool × ZipState :=
  match LibZipInterface.deleteLoop env files st with
  | (false, st) => (false, st)
  | (true, st) => (true, LibZipInterface.close st)

/-- The entry events among the signals. -/
def ZipSignal.entries (signals : List ZipSignal) : List ZipArchiveEntry :=
  signals.filterMap (fun s => match s with
    | ZipSignal.entry e => some e
    | _ => none)

/-- The names announced with `entryRemoved` among the signals. -/
def ZipSignal.removed (signals : List ZipSignal) : List QString :=
  signals.filterMap (fun s => match s with
    | ZipSignal.entryRemoved n => some n
    | _ => none)

/-- A `zip_stat` with the given name and encryption method. -/
def sampleStat (name : QString) (encryption_method : Nat) : ZipStat :=
  { name := name, crc := 0, size := 0, mtime := 0, comp_size := 0, comp_method := 8,
    encryption_method := encryption_method }

/-- The index of the first entry of the archive that bears the name and is not
marked deleted, `-1` when there is none or the archive is null: a sample
`zip_name_locate`. -/
def sampleLocate (m_archive : Option ZipArchive) (name : QString) : Int :=
  match m_archive with
  | none => -1
  | some a =>
    match a.findIdx? (fun slot =>
        !slot.deleted && decide (slot.stat.map (fun s => s.name) = some name)) with
    | some i => (i : Int)
    | none => -1

/-- A sample environment for the zip plugin: an archive with the entries `a`,
`dir/` and the encrypted `b`; every file can be read; `zip_add` fails for the
file `bad` and appends an entry for any other file. -/
def sampleZipEnv : ZipEnv :=
  { zipOpen := some [⟨some (sampleStat "a".toList 0), false⟩,
                     ⟨some (sampleStat "dir/".toList 0), false⟩,
                     ⟨some (sampleStat "b".toList 1), false⟩],
    nameLocate := sampleLocate,
    expandDirectories := id,
    relativeFilePath := id,
    isDir := fun _ => false,
    sourceFile := fun _ => true,
    zipAdd := fun _ file name =>
      if file = "bad".toList then none else some ⟨some (sampleStat name 0), false⟩ }

/-- The state of a plugin object that has not opened its archive. -/
def ZipState.initial : ZipState :=
  { m_archive := none, signals := [], zipClosed := [] }

/-- The archive after the names `names` have been located and marked for
deletion one after the other. -/
def markDeleted (env : ZipEnv) (m_archive : Option ZipArchive) (names : List QString) :
    Option ZipArchive :=
  names.foldl (fun a n => a.map (fun z => zip_delete z (env.nameLocate a n))) m_archive

/-- The signal `emitEntryForIndex` emits for an index of the archive. -/
def ZipSlot.signal (slot : ZipSlot) : ZipSignal :=
  match slot.stat with
  | none => ZipSignal.error
  | some stat => ZipSignal.entry (ZipArchiveEntry.ofStat stat)

/-- The signals of a listing of the indices `k`, `k + 1`, ... that hold
`slots`, in an archive of `n` entries: for each index the entry (or the error)
and the progress. -/
def listSignals (n : Int) : Nat → List ZipSlot → List ZipSignal
  | _, [] => []
  | k, slot :: rest =>
    slot.signal :: ZipSignal.progress ((k : Int) + 1) n :: listSignals n (k + 1) rest

/-- Every name of the list is found by `zip_name_locate` when its turn comes,
the names before it having been marked for deletion. -/
def allLocated (env : ZipEnv) : Option ZipArchive → List QString → Prop
  | _, [] => True
  | a, n :: rest =>
    0 ≤ env.nameLocate a n
      ∧ allLocated env (a.map (fun z => zip_delete z (env.nameLocate a n))) rest

/-- The state of the sample zip plugin with its archive open. -/
def sampleZipState : ZipState :=
  { m_archive := sampleZipEnv.zipOpen, signals := [], zipClosed := [] }

/-! ## `readwritelibarchiveplugin.cpp`: what the carry-forward loops write -/

/-- The entries `archive_read_next_header` delivers before its first result
other than `ARCHIVE_OK`: those the carry-forward loops get to see. -/
def readEntries (headers : List (Int × ArchiveEntry)) : List ArchiveEntry :=
  (headers.takeWhile (fun h => decide (h.1 = ARCHIVE_OK))).map (fun h => h.2)

/-- What carrying the entries `es` forward writes as long as no header aborts
the operation: an entry whose name satisfies `skip` is left out; every other
one gets a call of `archive_write_header`, `n` calls having been made on the
writer before, and its data is copied only if that call returned
`ARCHIVE_OK`. -/
def carryForward (env : LibarchiveEnv) (skip : QString → Bool) :
    Nat → List ArchiveEntry → List WrittenRecord
  | _, [] => []
  | n, e :: rest =>
    if skip e.pathname then carryForward env skip n rest
    else
      ⟨e, env.writeHeader n e, decide (env.writeHeader n e = ARCHIVE_OK)⟩
        :: carryForward env skip (n + 1) rest

/-- The results of `archive_read_next_header` on the old archive, none when
there is no old archive (`creatingNewFile`). -/
def LibarchiveEnv.oldHeaders (env : LibarchiveEnv) : List (Int × ArchiveEntry) :=
  if env.fileExists then env.headers else []

/-- A sample environment for the carry-forward: the archive `a`, `b`, `c`, `d`
whose third header is read with `ARCHIVE_FATAL`, and a writer that answers
`ARCHIVE_WARN` to the header of `b`. -/
def carryEnv : LibarchiveEnv :=
  { sampleEnv with
    headers := [(ARCHIVE_OK, ⟨"a".toList, 1⟩), (ARCHIVE_OK, ⟨"b".toList, 2⟩),
                (ARCHIVE_FATAL, ⟨"c".toList, 3⟩), (ARCHIVE_OK, ⟨"d".toList, 4⟩)],
    writeHeader := fun _ e => if e.pathname = "b".toList then ARCHIVE_WARN else ARCHIVE_OK,
    isDir := fun _ => false }

/-! ## `arch.cpp`: the matches of a line and its time stamp -/

/-- One assignment `columns[curCol->colRef] = line.mid(strpos, len)` of the
loop of `processLine`: the slot, and the position and length of the match. -/
structure FieldMatch where
  colRef : Int
  strpos : Nat
  len : Nat
  deriving DecidableEq, Repr

/-- The matches the loop of `processLine` records, in the order of the
extractors, from scan position `pos` until the loop is left. -/
def matchTrace (line : QCString) : List ArchColumns → Nat → List FieldMatch
  | [], _ => []
  | curCol :: rest, pos =>
    match curCol.pattern line pos with
    | none =>
      if curCol.optional then matchTrace line rest pos else []
    | some (strpos, len) =>
      if (len : Int) > curCol.maxLength then
        if curCol.optional then matchTrace line rest pos else []
      else
        ⟨curCol.colRef, strpos, len⟩ :: matchTrace line rest (strpos + len)

/-- The array after the assignments of the matches `ms`. -/
def recordMatches (line : QCString) (ms : List FieldMatch) (a : ColumnArray) : ColumnArray :=
  ms.foldl (fun a m => a.set m.colRef (line.mid m.strpos m.len)) a

/-- The scan position after the matches `ms`. -/
def traceEnd (pos : Nat) (ms : List FieldMatch) : Nat :=
  ms.foldl (fun _ m => m.strpos + m.len) pos

/-- The local `year` of `processLine`. -/
def yearOf (cfg : ArchConfig) (lib : ArkUtils) (columns : ColumnArray) : QString :=
  if cfg.m_repairYear ≥ 0 then lib.fixYear (columns.get cfg.m_repairYear)
  else columns.get cfg.m_fixYear

/-- The local `month` of `processLine`. -/
def monthOf (cfg : ArchConfig) (lib : ArkUtils) (columns : ColumnArray) : QString :=
  if cfg.m_repairMonth ≥ 0 then lib.number (lib.getMonth (columns.get cfg.m_repairMonth))
  else columns.get cfg.m_fixMonth

/-- The local `timestamp` of `processLine`. -/
def timestampOf (cfg : ArchConfig) (lib : ArkUtils) (columns : ColumnArray) : QString :=
  lib.arg (lib.arg (lib.arg (lib.arg "%1-%2-%3 %4".toList (yearOf cfg lib columns))
    (monthOf cfg lib columns)) (columns.get cfg.m_fixDay)) (columns.get cfg.m_fixTime)

/-! ## Qt: `QString::arg`

`QString::arg` belongs to Qt and not to the repository; `processLine` takes it
as a parameter (`ArkUtils.arg`), and the definitions below are the function the
Qt documentation describes, for the statements that depend on what `arg` does
with place markers inside its arguments. -/

/-- `QChar::digitValue()` for the digits `0` to `9`, `none` standing for
`-1`. -/
def digitValue (c : Char) : Option Nat :=
  if c.isDigit then some (c.toNat - '0'.toNat) else none

/-- The digits of a place marker of `QString::arg`, one or two, at the start of
`s`: the number they denote and how many characters they take. -/
def markerDigits : List Char → Option (Nat × Nat)
  | [] => none
  | d1 :: rest =>
    match digitValue d1 with
    | none => none
    | some v1 =>
      match rest with
      | [] => some (v1, 1)
      | d2 :: _ =>
        match digitValue d2 with
        | none => some (v1, 1)
        | some v2 => some (10 * v1 + v2, 2)

/-- The place marker `%N` or `%LN` of `QString::arg` whose `%` stands right
before `s`: its number and how many characters follow the `%`. -/
def markerAfterPercent : List Char → Option (Nat × Nat)
  | 'L' :: rest => (markerDigits rest).map (fun m => (m.1, m.2 + 1))
  | s => markerDigits s

/-- The lowest number of a place marker in `s`, if there is a marker. -/
def lowestMarker : List Char → Option Nat
  | [] => none
  | c :: rest =>
    if c = '%' then
      match markerAfterPercent rest, lowestMarker rest with
      | some (n, _), some k => some (min n k)
      | some (n, _), none => some n
      | none, m => m
    else lowestMarker rest

/-- The string `s` with every place marker of number `n` replaced by `a`; the
first `skip` characters of `s` belong to a marker already replaced. -/
def replaceMarkers (n : Nat) (a : List Char) : Nat → List Char → List Char
  | _, [] => []
  | skip + 1, _ :: rest => replaceMarkers n a skip rest
  | 0, c :: rest =>
    if c = '%' then
      match markerAfterPercent rest with
      | some (k, len) =>
        if k = n then a ++ replaceMarkers n a len rest
        else c :: replaceMarkers n a 0 rest
      | none => c :: replaceMarkers n a 0 rest
    else c :: replaceMarkers n a 0 rest

/-- Qt's `QString::arg(const QString &a)` as its documentation describes it:
the result is the receiver with every occurrence of its lowest-numbered place
marker (`%1` to `%99`, also written `%L1` to `%L99`) replaced by `a`; a
receiver without a place marker is returned as it is. -/
def QString.arg (s a : QString) : QString :=
  match lowestMarker s with
  | none => s
  | some n => replaceMarkers n a 0 s

/-- Qt's `QString("%1").arg(n)` for an `int`: `n` in decimal. -/
def QString.number (n : Int) : QString :=
  if n < 0 then '-' :: Nat.toDigits 10 n.natAbs else Nat.toDigits 10 n.toNat

/-! ## Sample patterns, configurations and lines -/

/-- A sample pattern, `[^ ]+`: the first run of characters other than a space
at or after `pos`. -/
def nonSpaceRun : QRegExp := fun line pos =>
  let strpos := pos + ((line.drop pos).takeWhile (fun c => c = ' ')).length
  let len := ((line.drop strpos).takeWhile (fun c => c ≠ ' ')).length
  if len = 0 then none else some (strpos, len)

/-- A sample pattern, `[0-9]*`: the digits at `pos`, possibly none. -/
def digitRun : QRegExp := fun line pos =>
  if pos ≤ line.length then some (pos, ((line.drop pos).takeWhile Char.isDigit).length)
  else none

/-- A sample of the library functions: Qt's `arg`, a `fixYear` that answers
`2024` and a `getMonth` that knows `Jan`. -/
def sampleLib : ArkUtils :=
  { fixYear := fun _ => "2024".toList,
    getMonth := fun s => if s = "Jan".toList then 1 else 0,
    number := QString.number,
    arg := QString.arg }

/-- A sample configuration for the lines of `ls -l`: permissions, links,
owner, group, size, month, day, time and name, the owner and the group being
optional; the date column is that of the month, the year is repaired from the
time column and the month from its name. -/
def sampleConfig : ArchConfig :=
  { m_archCols :=
      [⟨0, nonSpaceRun, 10, false⟩, ⟨1, nonSpaceRun, 64, false⟩, ⟨2, nonSpaceRun, 64, true⟩,
       ⟨3, nonSpaceRun, 64, true⟩, ⟨4, nonSpaceRun, 64, false⟩, ⟨5, nonSpaceRun, 3, false⟩,
       ⟨6, nonSpaceRun, 2, false⟩, ⟨7, nonSpaceRun, 5, false⟩, ⟨8, nonSpaceRun, 4096, false⟩],
    m_numCols := 9, m_dateCol := 5, m_fixYear := -1, m_fixMonth := -1, m_fixDay := 6,
    m_fixTime := 7, m_repairYear := 7, m_repairMonth := 5 }

/-- The sample line of `ls -l`. -/
def sampleLine : QCString :=
  "-rw-r--r--  1 user group     1234 Jan 15 10:30 file.txt".toList

/-- A sample configuration with raw year and month: four fields year, month,
day and time, and the date in a fifth column. -/
def rawDateConfig : ArchConfig :=
  { m_archCols :=
      [⟨0, nonSpaceRun, 64, false⟩, ⟨1, nonSpaceRun, 64, false⟩, ⟨2, nonSpaceRun, 64, false⟩,
       ⟨3, nonSpaceRun, 64, false⟩],
    m_numCols := 5, m_dateCol := 4, m_fixYear := 0, m_fixMonth := 1, m_fixDay := 2,
    m_fixTime := 3, m_repairYear := -1, m_repairMonth := -1 }

/-- A sample configuration of two numeric fields that may be empty. -/
def digitsConfig : ArchConfig :=
  { m_archCols := [⟨0, digitRun, 10, false⟩, ⟨1, digitRun, 10, false⟩],
    m_numCols := 2, m_dateCol := -1, m_fixYear := -1, m_fixMonth := -1, m_fixDay := -1,
    m_fixTime := -1, m_repairYear := -1, m_repairMonth := -1 }

/-- The array `columns` of `processLine` when its loop is left. -/
def scannedColumns (cfg : ArchConfig) (line : QCString) : ColumnArray :=
  (extractColumns line cfg.m_archCols { pos := 0, columns := ColumnArray.new }).2.columns

/-- What `QRegExp::search(str, offset)` promises about the position it
returns: a match is looked for at or after `offset`. -/
def QRegExp.searchesFrom (p : QRegExp) : Prop :=
  ∀ (line : QCString) (pos strpos len : Nat), p line pos = some (strpos, len) → pos ≤ strpos

/-! ## Theorems -/

/-! ### String helpers -/

theorem QString.right_eq_iff_suffix (s e : QString) (n : Nat) (hn : e.length = n) :
    s.right n = e ↔ e <:+ s := by
  constructor
  · intro h
    rw [← h]
    exact List.drop_suffix _ _
  · rintro ⟨p, rfl⟩
    simp [QString.right, hn]

theorem QString.suffix_append_iff (e p s : QString) (h : s <:+ e → s = e) :
    e <:+ p ++ s ↔ e <:+ s := by
  constructor
  · intro he
    rcases List.suffix_or_suffix_of_suffix he (List.suffix_append p s) with h1 | h1
    · exact h1
    · rw [h h1]
  · intro he
    exact he.trans (List.suffix_append p s)

/-! ### Archive type detection -/

/-- The if-chain of `getArchTypeByExtension` is a first-match search through
`knownExtensions` with the test "the name ends with the extension". -/
theorem getArchTypeByExtension_eq_find (archname : QString) (extension : Option QString) :
    getArchTypeByExtension archname extension =
      match knownExtensions.find? (fun e => decide (e.1 <:+ archname)) with
      | none => (UNKNOWN_FORMAT, extension)
      | some (e, t) => (t, some e) := by
  have key : ∀ (e : QString) (n : Nat), e.length = n →
      (decide (e <:+ archname) = decide (archname.right n = e)) := by
    intro e n hn
    simp [QString.right_eq_iff_suffix archname e n hn]
  unfold getArchTypeByExtension knownExtensions
  simp only [List.find?_cons, List.find?_nil,
    key ".tgz".toList 4 rfl,
    key ".tzo".toList 4 rfl,
    key ".taz".toList 4 rfl,
    key ".tar".toList 4 rfl,
    key ".tar.Z".toList 6 rfl,
    key ".tar.gz".toList 7 rfl,
    key ".tar.bz".toList 7 rfl,
    key ".tar.bz2".toList 8 rfl,
    key ".tar.lzo".toList 8 rfl,
    key ".lha".toList 4 rfl,
    key ".lzh".toList 4 rfl,
    key ".zip".toList 4 rfl,
    key ".xpi".toList 4 rfl,
    key ".exe".toList 4 rfl,
    key ".EXE".toList 4 rfl,
    key ".gz".toList 3 rfl,
    key ".bz".toList 3 rfl,
    key ".bz2".toList 4 rfl,
    key ".lzo".toList 4 rfl,
    key ".Z".toList 2 rfl,
    key ".zoo".toList 4 rfl,
    key ".rar".toList 4 rfl,
    key ".a".toList 2 rfl]
  generalize archname.right 2 = r2
  generalize archname.right 3 = r3
  generalize archname.right 4 = r4
  generalize archname.right 6 = r6
  generalize archname.right 7 = r7
  generalize archname.right 8 = r8
  by_cases h : r4 = ".tgz".toList
  · subst h; simp
  simp only [h, false_or, or_false, if_false, decide_False]
  clear h
  by_cases h : r4 = ".tzo".toList
  · subst h; simp
  simp only [h, false_or, or_false, if_false, decide_False]
  clear h
  by_cases h : r4 = ".taz".toList
  · subst h; simp
  simp only [h, false_or, or_false, if_false, decide_False]
  clear h
  by_cases h : r4 = ".tar".toList
  · subst h; simp
  simp only [h, false_or, or_false, if_false, decide_False]
  clear h
  by_cases h : r6 = ".tar.Z".toList
  · subst h; simp
  simp only [h, false_or, or_false, if_false, decide_False]
  clear h
  by_cases h : r7 = ".tar.gz".toList
  · subst h; simp
  simp only [h, false_or, or_false, if_false, decide_False]
  clear h
  by_cases h : r7 = ".tar.bz".toList
  · subst h; simp
  simp only [h, false_or, or_false, if_false, decide_False]
  clear h
  by_cases h : r8 = ".tar.bz2".toList
  · subst h; simp
  simp only [h, false_or, or_false, if_false, decide_False]
  clear h
  by_cases h : r8 = ".tar.lzo".toList
  · subst h; simp
  simp only [h, false_or, or_false, if_false, decide_False]
  clear h
  by_cases h : r4 = ".lha".toList
  · subst h; simp
  simp only [h, false_or, or_false, if_false, decide_False]
  clear h
  by_cases h : r4 = ".lzh".toList
  · subst h; simp
  simp only [h, false_or, or_false, if_false, decide_False]
  clear h
  by_cases h : r4 = ".zip".toList
  · subst h; simp
  simp only [h, false_or, or_false, if_false, decide_False]
  clear h
  by_cases h : r4 = ".xpi".toList
  · subst h; simp
  simp only [h, false_or, or_false, if_false, decide_False]
  clear h
  by_cases h : r4 = ".exe".toList
  · subst h; simp
  simp only [h, false_or, or_false, if_false, decide_False]
  clear h
  by_cases h : r4 = ".EXE".toList
  · subst h; simp
  simp only [h, false_or, or_false, if_false, decide_False]
  clear h
  by_cases h : r3 = ".gz".toList
  · subst h; simp
  simp only [h, false_or, or_false, if_false, decide_False]
  clear h
  by_cases h : r3 = ".bz".toList
  · subst h; simp
  simp only [h, false_or, or_false, if_false, decide_False]
  clear h
  by_cases h : r4 = ".bz2".toList
  · subst h; simp
  simp only [h, false_or, or_false, if_false, decide_False]
  clear h
  by_cases h : r4 = ".lzo".toList
  · subst h; simp
  simp only [h, false_or, or_false, if_false, decide_False]
  clear h
  by_cases h : r2 = ".Z".toList
  · subst h; simp
  simp only [h, false_or, or_false, if_false, decide_False]
  clear h
  by_cases h : r4 = ".zoo".toList
  · subst h; simp
  simp only [h, false_or, or_false, if_false, decide_False]
  clear h
  by_cases h : r4 = ".rar".toList
  · subst h; simp
  simp only [h, false_or, or_false, if_false, decide_False]
  clear h
  by_cases h : r2 = ".a".toList
  · subst h; simp
  simp only [h, false_or, or_false, if_false, decide_False]

/-- In a table in which no entry is a suffix of a later one, the first entry
that the name ends with is the longest one. -/
theorem find_suffix_longest (T : List (QString × ArchType)) (name : QString)
    (hT : T.Pairwise (fun x y => ¬ x.1 <:+ y.1)) (x : QString × ArchType)
    (hx : T.find? (fun e => decide (e.1 <:+ name)) = some x) :
    x ∈ T ∧ x.1 <:+ name ∧ ∀ y ∈ T, y.1 <:+ name → y.1.length ≤ x.1.length := by
  induction T with
  | nil => simp at hx
  | cons a T ih =>
    rw [List.pairwise_cons] at hT
    by_cases ha : a.1 <:+ name
    · rw [List.find?_cons_of_pos _ (by simpa using ha)] at hx
      cases hx
      refine ⟨List.mem_cons_self _ _, ha, ?_⟩
      intro y hy hyn
      rcases List.mem_cons.mp hy with rfl | hy
      · exact le_rfl
      · rcases List.suffix_or_suffix_of_suffix ha hyn with h | h
        · exact absurd h (hT.1 y hy)
        · exact h.length_le
    · rw [List.find?_cons_of_neg _ (by simpa using ha)] at hx
      obtain ⟨h1, h2, h3⟩ := ih hT.2 hx
      refine ⟨List.mem_cons_of_mem _ h1, h2, ?_⟩
      intro y hy hyn
      rcases List.mem_cons.mp hy with rfl | hy
      · exact absurd hyn ha
      · exact h3 y hy hyn

/-- Two orderings of one table, neither testing an extension before a longer
one that ends with it, find the same entry. -/
theorem find_suffix_order_irrelevant (T₁ T₂ : List (QString × ArchType)) (name : QString)
    (h₁ : T₁.Pairwise (fun x y => ¬ x.1 <:+ y.1))
    (h₂ : T₂.Pairwise (fun x y => ¬ x.1 <:+ y.1))
    (hmem : ∀ e, e ∈ T₁ ↔ e ∈ T₂)
    (hinj : ∀ a ∈ T₁, ∀ b ∈ T₁, a.1 = b.1 → a = b) :
    T₁.find? (fun e => decide (e.1 <:+ name)) = T₂.find? (fun e => decide (e.1 <:+ name)) := by
  cases hx : T₁.find? (fun e => decide (e.1 <:+ name)) with
  | none =>
    symm
    rw [List.find?_eq_none] at hx ⊢
    intro e he
    exact hx e ((hmem e).mpr he)
  | some x =>
    obtain ⟨x1, x2, x3⟩ := find_suffix_longest T₁ name h₁ x hx
    cases hy : T₂.find? (fun e => decide (e.1 <:+ name)) with
    | none =>
      rw [List.find?_eq_none] at hy
      exact absurd (decide_eq_true x2) (hy x ((hmem x).mp x1))
    | some y =>
      obtain ⟨y1, y2, y3⟩ := find_suffix_longest T₂ name h₂ y hy
      have hlen : x.1.length = y.1.length :=
        le_antisymm (y3 x ((hmem x).mp x1) x2) (x3 y ((hmem y).mpr y1) y2)
      have hxy : x.1 = y.1 := by
        rcases List.suffix_or_suffix_of_suffix x2 y2 with h | h
        · exact h.eq_of_length hlen
        · exact (h.eq_of_length hlen.symm).symm
      rw [hinj x x1 y ((hmem y).mpr y1) hxy]

/-- Appending to the front of a name does not change the search, when the name
is not a proper suffix of a table entry. -/
theorem find_suffix_append (T : List (QString × ArchType)) (p s : QString)
    (h : ∀ e ∈ T, s <:+ e.1 → s = e.1) :
    T.find? (fun e => decide (e.1 <:+ p ++ s)) = T.find? (fun e => decide (e.1 <:+ s)) := by
  induction T with
  | nil => rfl
  | cons a T ih =>
    have ha : (a.1 <:+ p ++ s) ↔ (a.1 <:+ s) :=
      QString.suffix_append_iff a.1 p s (h a (List.mem_cons_self _ _))
    simp only [List.find?_cons, ha]
    rw [ih (fun e he => h e (List.mem_cons_of_mem _ he))]

theorem knownExtensions_pairwise :
    knownExtensions.Pairwise (fun x y => ¬ x.1 <:+ y.1) := by
  decide

theorem longestFirstExtensions_pairwise :
    longestFirstExtensions.Pairwise (fun x y => ¬ x.1 <:+ y.1) := by
  decide

theorem longestFirstExtensions_mem (e : QString × ArchType) :
    e ∈ knownExtensions ↔ e ∈ longestFirstExtensions := by
  have h₁ : ∀ x ∈ knownExtensions, x ∈ longestFirstExtensions := by decide
  have h₂ : ∀ x ∈ longestFirstExtensions, x ∈ knownExtensions := by decide
  exact ⟨h₁ e, h₂ e⟩

theorem knownExtensions_injective :
    ∀ a ∈ knownExtensions, ∀ b ∈ knownExtensions, a.1 = b.1 → a = b := by
  decide

theorem getArchTypeByExtension_eq_referenceResult (archname : QString)
    (extension : Option QString) :
    getArchTypeByExtension archname extension = referenceResult archname extension := by
  rw [getArchTypeByExtension_eq_find, referenceResult, referenceDetector,
    find_suffix_order_irrelevant knownExtensions longestFirstExtensions archname
      knownExtensions_pairwise longestFirstExtensions_pairwise longestFirstExtensions_mem
      knownExtensions_injective]

/-- `getArchTypeByExtension` answers `UNKNOWN_FORMAT` exactly when the name
ends with no known extension. -/
theorem getArchTypeByExtension_unknown_iff (archname : QString) (extension : Option QString) :
    (getArchTypeByExtension archname extension).1 = UNKNOWN_FORMAT
      ↔ ∀ e ∈ knownExtensions, ¬ e.1 <:+ archname := by
  have hnone : ∀ e ∈ knownExtensions, e.2 ≠ UNKNOWN_FORMAT := by decide
  rw [getArchTypeByExtension_eq_find]
  cases hx : knownExtensions.find? (fun e => decide (e.1 <:+ archname)) with
  | none =>
    rw [List.find?_eq_none] at hx
    constructor
    · intro _ e he hs
      exact hx e he (decide_eq_true hs)
    · intro _
      rfl
  | some x =>
    obtain ⟨x1, x2, -⟩ := find_suffix_longest _ _ knownExtensions_pairwise x hx
    constructor
    · intro h
      exact absurd h (hnone x x1)
    · intro h
      exact absurd x2 (h x x1)

/-- C5. Suffix-length precedence: every file name ending in `.tar.gz` is a
`TAR_FORMAT` archive with extension `.tar.gz` (hence never `COMPRESSED_FORMAT`
with `.gz`), likewise for `.tar.bz`, `.tar.bz2`, `.tar.lzo` and `.tar.Z`; every
file name ending in `.xpi` is a `ZIP_FORMAT` archive. The last two conjuncts
are the two sample names. -/
theorem getArchTypeByExtension_suffix_precedence (p : QString) (extension : Option QString) :
    getArchTypeByExtension (p ++ ".tar.gz".toList) extension
        = (TAR_FORMAT, some ".tar.gz".toList)
    ∧ getArchTypeByExtension (p ++ ".tar.bz".toList) extension
        = (TAR_FORMAT, some ".tar.bz".toList)
    ∧ getArchTypeByExtension (p ++ ".tar.bz2".toList) extension
        = (TAR_FORMAT, some ".tar.bz2".toList)
    ∧ getArchTypeByExtension (p ++ ".tar.lzo".toList) extension
        = (TAR_FORMAT, some ".tar.lzo".toList)
    ∧ getArchTypeByExtension (p ++ ".tar.Z".toList) extension
        = (TAR_FORMAT, some ".tar.Z".toList)
    ∧ (getArchTypeByExtension (p ++ ".xpi".toList) extension).1 = ZIP_FORMAT
    ∧ getArchTypeByExtension "archive.tar.gz".toList extension
        = (TAR_FORMAT, some ".tar.gz".toList)
    ∧ (getArchTypeByExtension "archive.xpi".toList extension).1 = ZIP_FORMAT := by
  have key : ∀ (s : QString) (q : QString),
      (∀ e ∈ knownExtensions, s <:+ e.1 → s = e.1) →
      getArchTypeByExtension (q ++ s) extension =
        match knownExtensions.find? (fun e => decide (e.1 <:+ s)) with
        | none => (UNKNOWN_FORMAT, extension)
        | some (e, t) => (t, some e) := by
    intro s q h
    rw [getArchTypeByExtension_eq_find, find_suffix_append knownExtensions q s h]
  have h1 : knownExtensions.find? (fun e => decide (e.1 <:+ ".tar.gz".toList))
      = some (".tar.gz".toList, TAR_FORMAT) := by decide
  have h2 : knownExtensions.find? (fun e => decide (e.1 <:+ ".tar.bz".toList))
      = some (".tar.bz".toList, TAR_FORMAT) := by decide
  have h3 : knownExtensions.find? (fun e => decide (e.1 <:+ ".tar.bz2".toList))
      = some (".tar.bz2".toList, TAR_FORMAT) := by decide
  have h4 : knownExtensions.find? (fun e => decide (e.1 <:+ ".tar.lzo".toList))
      = some (".tar.lzo".toList, TAR_FORMAT) := by decide
  have h5 : knownExtensions.find? (fun e => decide (e.1 <:+ ".tar.Z".toList))
      = some (".tar.Z".toList, TAR_FORMAT) := by decide
  have h6 : knownExtensions.find? (fun e => decide (e.1 <:+ ".xpi".toList))
      = some (".xpi".toList, ZIP_FORMAT) := by decide
  refine ⟨?_, ?_, ?_, ?_, ?_, ?_, ?_, ?_⟩
  · rw [key _ p (by decide), h1]
  · rw [key _ p (by decide), h2]
  · rw [key _ p (by decide), h3]
  · rw [key _ p (by decide), h4]
  · rw [key _ p (by decide), h5]
  · rw [key _ p (by decide), h6]
  · exact (key ".tar.gz".toList "archive".toList (by decide)).trans (by rw [h1])
  · have := key ".xpi".toList "archive".toList (by decide)
    rw [h6] at this
    exact congrArg Prod.fst this

/-- C6. `getArchTypeByExtension` computes the longest-suffix-first reference
detector of the specification. It answers `UNKNOWN_FORMAT` exactly when the
name ends with none of the 23 known extensions, and then leaves the extension
output as it was; otherwise the extension it returns is a known extension the
name ends with, no known extension the name ends with is longer, and the type
is the one the table gives to that extension. -/
theorem getArchTypeByExtension_refines_reference (archname : QString)
    (extension : Option QString) :
    getArchTypeByExtension archname extension = referenceResult archname extension
    ∧ knownExtensions.length = 23
    ∧ ((getArchTypeByExtension archname extension).1 = UNKNOWN_FORMAT
        ↔ ∀ e ∈ knownExtensions, ¬ e.1 <:+ archname)
    ∧ ((∀ e ∈ knownExtensions, ¬ e.1 <:+ archname) →
        getArchTypeByExtension archname extension = (UNKNOWN_FORMAT, extension))
    ∧ ((∃ e ∈ knownExtensions, e.1 <:+ archname) →
        ∃ e t, getArchTypeByExtension archname extension = (t, some e)
          ∧ (e, t) ∈ knownExtensions ∧ e <:+ archname
          ∧ ∀ y ∈ knownExtensions, y.1 <:+ archname → y.1.length ≤ e.length) := by
  refine ⟨getArchTypeByExtension_eq_referenceResult archname extension, rfl,
    getArchTypeByExtension_unknown_iff archname extension, ?_, ?_⟩
  · intro h
    rw [getArchTypeByExtension_eq_find]
    have hx : knownExtensions.find? (fun e => decide (e.1 <:+ archname)) = none := by
      rw [List.find?_eq_none]
      intro e he hs
      exact h e he (of_decide_eq_true hs)
    rw [hx]
  · rintro ⟨e, he, hs⟩
    rw [getArchTypeByExtension_eq_find]
    cases hx : knownExtensions.find? (fun e => decide (e.1 <:+ archname)) with
    | none =>
      rw [List.find?_eq_none] at hx
      exact absurd (decide_eq_true hs) (hx e he)
    | some x =>
      obtain ⟨x1, x2, x3⟩ := find_suffix_longest _ _ knownExtensions_pairwise x hx
      exact ⟨x.1, x.2, rfl, x1, x2, x3⟩

/-- C6, at a sample name: `backup.tar.bz2` ends with the known extension
`.bz2`, and the answer is the longer `.tar.bz2`. -/
theorem getArchTypeByExtension_refines_reference_witness :
    (∃ e ∈ knownExtensions, e.1 <:+ "backup.tar.bz2".toList)
    ∧ ∃ e t, getArchTypeByExtension "backup.tar.bz2".toList none = (t, some e)
          ∧ (e, t) ∈ knownExtensions ∧ e <:+ "backup.tar.bz2".toList
          ∧ ∀ y ∈ knownExtensions, y.1 <:+ "backup.tar.bz2".toList →
              y.1.length ≤ e.length :=
  ⟨⟨(".bz2".toList, COMPRESSED_FORMAT), by decide, by decide⟩,
   (getArchTypeByExtension_refines_reference "backup.tar.bz2".toList none).2.2.2.2
     ⟨(".bz2".toList, COMPRESSED_FORMAT), by decide, by decide⟩⟩

/-- C7. `getArchType` examines `realURL`'s file name when `realURL` is not
empty and `archname` otherwise. When that name ends with a known extension the
answer is the one of `getArchTypeByExtension`, whatever the content sniffer
says; otherwise the extension output is null and the type is the one the table
of six sniffed content types gives, `UNKNOWN_FORMAT` for any other sniffed
type. Being a total function, it has an answer for every input. -/
theorem getArchType_spec (findFileType : QString → QString) (archname : QString)
    (extension : Option QString) (realURL : KURL) :
    ((∃ e ∈ knownExtensions,
        e.1 <:+ (if realURL.isEmpty then archname else realURL.fileName)) →
      getArchType findFileType archname extension realURL
          = getArchTypeByExtension (if realURL.isEmpty then archname else realURL.fileName)
              extension
        ∧ ∀ otherSniffer : QString → QString,
            getArchType otherSniffer archname extension realURL
              = getArchType findFileType archname extension realURL)
    ∧ ((∀ e ∈ knownExtensions,
          ¬ e.1 <:+ (if realURL.isEmpty then archname else realURL.fileName)) →
      getArchType findFileType archname extension realURL =
        (if findFileType archname = "application/x-rar".toList then RAR_FORMAT
         else if findFileType archname = "application/x-lha".toList then LHA_FORMAT
         else if findFileType archname = "application/x-archive".toList then AA_FORMAT
         else if findFileType archname = "application/x-tar".toList then TAR_FORMAT
         else if findFileType archname = "application/x-zip".toList then ZIP_FORMAT
         else if findFileType archname = "application/x-jar".toList then ZIP_FORMAT
         else UNKNOWN_FORMAT, none)) := by
  have hiff := getArchTypeByExtension_unknown_iff
    (if realURL.isEmpty then archname else realURL.fileName) extension
  constructor
  · intro h
    have hne : (getArchTypeByExtension
        (if realURL.isEmpty then archname else realURL.fileName) extension).1
        ≠ UNKNOWN_FORMAT := by
      intro hu
      obtain ⟨e, he, hs⟩ := h
      exact (hiff.mp hu) e he hs
    constructor
    · simp only [getArchType, hne, if_false]
    · intro g
      simp only [getArchType, hne, if_false]
  · intro h
    have hu := hiff.mpr h
    simp only [getArchType, hu, if_true]
    generalize findFileType archname = m
    by_cases h1 : m = "application/x-rar".toList
    · subst h1; simp
    by_cases h2 : m = "application/x-lha".toList
    · subst h2; simp
    by_cases h3 : m = "application/x-archive".toList
    · subst h3; simp
    by_cases h4 : m = "application/x-tar".toList
    · subst h4; simp
    by_cases h5 : m = "application/x-zip".toList
    · subst h5; simp
    by_cases h6 : m = "application/x-jar".toList
    · subst h6; simp
    simp only [h1, h2, h3, h4, h5, h6, if_false]

/-- C7, at sample inputs: with an empty `realURL` the name `notes.zip` is
recognised by its extension whatever the sniffer says, and the extension-less
name `notes` sniffed as `application/x-jar` is a zip archive with a null
extension. -/
theorem getArchType_spec_witness :
    (getArchType (fun _ => "application/x-rar".toList) "notes.zip".toList none
        ⟨true, []⟩ = (ZIP_FORMAT, some ".zip".toList))
    ∧ getArchType (fun _ => "application/x-jar".toList) "notes".toList
        (some ".old".toList) ⟨true, []⟩ = (ZIP_FORMAT, none) := by
  constructor
  · have h := ((getArchType_spec (fun _ => "application/x-rar".toList) "notes.zip".toList
      none ⟨true, []⟩).1 ⟨(".zip".toList, ZIP_FORMAT), by decide, by decide⟩).1
    rw [h]
    decide
  · have h := (getArchType_spec (fun _ => "application/x-jar".toList) "notes".toList
      (some ".old".toList) ⟨true, []⟩).2 (by decide)
    rw [h]
    decide

/-! ### Parsing one line -/

theorem ArchColumns.fails_iff (c : ArchColumns) (line : QCString) (pos : Nat) :
    c.fails line pos = true ↔
      c.pattern line pos = none
        ∨ ∃ strpos len, c.pattern line pos = some (strpos, len) ∧ (len : Int) > c.maxLength := by
  unfold ArchColumns.fails
  cases h : c.pattern line pos with
  | none => simp
  | some m =>
    obtain ⟨strpos, len⟩ := m
    simp only [decide_eq_true_eq]
    constructor
    · intro hl
      exact Or.inr ⟨strpos, len, rfl, hl⟩
    · rintro (h0 | ⟨a, b, hab, hl⟩)
      · cases h0
      · cases hab
        exact hl

theorem extractColumns_cons (line : QCString) (c : ArchColumns) (rest : List ArchColumns)
    (st : ScanState) :
    extractColumns line (c :: rest) st =
      if c.fails line st.pos then
        (if c.optional then extractColumns line rest st else (false, st))
      else extractColumns line rest (scanStep line st c) := by
  unfold scanStep ArchColumns.fails
  rw [extractColumns]
  cases h : c.pattern line st.pos with
  | none => simp
  | some m =>
    obtain ⟨strpos, len⟩ := m
    by_cases hl : (len : Int) > c.maxLength
    · simp [hl]
    · simp [hl]

theorem extractColumns_rejects_iff (line : QCString) (cols : List ArchColumns)
    (st : ScanState) :
    (extractColumns line cols st).1 = false ↔
      ∃ pre c post, cols = pre ++ c :: post ∧ c.optional = false
        ∧ c.fails line (scanAfter line pre st).pos = true := by
  induction cols generalizing st with
  | nil =>
    constructor
    · intro h
      simp [extractColumns] at h
    · rintro ⟨pre, c, post, h, -⟩
      simp at h
  | cons a rest ih =>
    rw [extractColumns_cons]
    by_cases hf : a.fails line st.pos = true
    · have hstep : scanStep line st a = st := by simp [scanStep, hf]
      rw [if_pos hf]
      by_cases ho : a.optional = true
      · rw [if_pos ho, ih]
        constructor
        · rintro ⟨pre, c, post, h1, h2, h3⟩
          refine ⟨a :: pre, c, post, by rw [h1]; rfl, h2, ?_⟩
          simpa [scanAfter, hstep] using h3
        · rintro ⟨pre, c, post, h1, h2, h3⟩
          cases pre with
          | nil =>
            simp only [List.nil_append, List.cons.injEq] at h1
            rw [← h1.1, ho] at h2
            cases h2
          | cons b pre =>
            simp only [List.cons_append, List.cons.injEq] at h1
            refine ⟨pre, c, post, h1.2, h2, ?_⟩
            rw [← h1.1] at h3
            simpa [scanAfter, hstep] using h3
      · rw [if_neg ho]
        simp only [true_iff]
        exact ⟨[], a, rest, rfl, by simpa using ho, hf⟩
    · rw [if_neg hf, ih]
      constructor
      · rintro ⟨pre, c, post, h1, h2, h3⟩
        exact ⟨a :: pre, c, post, by rw [h1]; rfl, h2, by simpa [scanAfter] using h3⟩
      · rintro ⟨pre, c, post, h1, h2, h3⟩
        cases pre with
        | nil =>
          simp only [List.nil_append, List.cons.injEq] at h1
          rw [← h1.1] at h3
          exact absurd h3 hf
        | cons b pre =>
          simp only [List.cons_append, List.cons.injEq] at h1
          refine ⟨pre, c, post, h1.2, h2, ?_⟩
          rw [← h1.1] at h3
          simpa [scanAfter] using h3

theorem extractColumns_accepts (line : QCString) (cols : List ArchColumns) (st : ScanState)
    (h : (extractColumns line cols st).1 = true) :
    (extractColumns line cols st).2 = scanAfter line cols st := by
  induction cols generalizing st with
  | nil => simp [extractColumns, scanAfter]
  | cons a rest ih =>
    rw [extractColumns_cons] at h ⊢
    by_cases hf : a.fails line st.pos = true
    · have hstep : scanStep line st a = st := by simp [scanStep, hf]
      rw [if_pos hf] at h ⊢
      by_cases ho : a.optional = true
      · rw [if_pos ho] at h ⊢
        simpa [scanAfter, hstep] using ih st h
      · rw [if_neg ho] at h
        cases h
    · rw [if_neg hf] at h ⊢
      simpa [scanAfter] using ih _ h

/-- Wherever the loop is left, the locals are those the walk gives after some
initial part of the extractors. -/
theorem extractColumns_state (line : QCString) (cols : List ArchColumns) (st : ScanState) :
    ∃ pre post, cols = pre ++ post ∧ (extractColumns line cols st).2 = scanAfter line pre st := by
  induction cols generalizing st with
  | nil => exact ⟨[], [], rfl, by simp [extractColumns, scanAfter]⟩
  | cons a rest ih =>
    rw [extractColumns_cons]
    by_cases hf : a.fails line st.pos = true
    · have hstep : scanStep line st a = st := by simp [scanStep, hf]
      rw [if_pos hf]
      by_cases ho : a.optional = true
      · rw [if_pos ho]
        obtain ⟨pre, post, h1, h2⟩ := ih st
        exact ⟨a :: pre, post, by rw [h1]; rfl, by simpa [scanAfter, hstep] using h2⟩
      · rw [if_neg ho]
        exact ⟨[], a :: rest, rfl, by simp [scanAfter]⟩
    · rw [if_neg hf]
      obtain ⟨pre, post, h1, h2⟩ := ih (scanStep line st a)
      exact ⟨a :: pre, post, by rw [h1]; rfl, by simpa [scanAfter] using h2⟩

theorem ColumnArray.get_set (a : ColumnArray) (i : Int) (v : QString)
    (hi : ColumnArray.inBounds i = true) (ha : a.slots.length = 11) :
    (a.set i v).get i = v := by
  have h := hi
  simp only [ColumnArray.inBounds, Bool.and_eq_true, decide_eq_true_eq] at h
  have hlt : i.toNat < a.slots.length := by omega
  simp [ColumnArray.set, ColumnArray.get, hi, List.getD_eq_getElem?_getD, hlt]

/-- C8. `processLine` returns false exactly when, walking the extractors in
order from scan position 0, a non-optional extractor is reached whose pattern
has no match from the current scan position or whose match is longer than its
`maxLength`; nothing is then sent to the listing. An optional extractor that
fails so is passed over with the scan state unchanged, a failing required one
ends the loop with `return false`, and a match of acceptable length puts the
matched substring in slot `colRef` and moves the scan position to the end of
the match. -/
theorem processLine_rejects_iff (cfg : ArchConfig) (lib : ArkUtils) (line : QCString) :
    ((processLine cfg lib line).ret = false ↔
        ∃ pre c post, cfg.m_archCols = pre ++ c :: post ∧ c.optional = false
          ∧ c.fails line (scanAfter line pre { pos := 0, columns := ColumnArray.new }).pos
              = true)
    ∧ ((processLine cfg lib line).ret = false → (processLine cfg lib line).listingAdd = [])
    ∧ (∀ (c : ArchColumns) (pos : Nat), c.fails line pos = true ↔
        c.pattern line pos = none
          ∨ ∃ strpos len, c.pattern line pos = some (strpos, len)
              ∧ (len : Int) > c.maxLength)
    ∧ (∀ (c : ArchColumns) (rest : List ArchColumns) (st : ScanState),
        c.fails line st.pos = true → c.optional = true →
          extractColumns line (c :: rest) st = extractColumns line rest st)
    ∧ (∀ (c : ArchColumns) (rest : List ArchColumns) (st : ScanState),
        c.fails line st.pos = true → c.optional = false →
          extractColumns line (c :: rest) st = (false, st))
    ∧ (∀ (c : ArchColumns) (rest : List ArchColumns) (st : ScanState) (strpos len : Nat),
        c.pattern line st.pos = some (strpos, len) → (len : Int) ≤ c.maxLength →
          extractColumns line (c :: rest) st =
            extractColumns line rest
              { pos := strpos + len,
                columns := st.columns.set c.colRef (line.mid strpos len) })
    ∧ (∀ (a : ColumnArray) (i : Int) (v : QString),
        ColumnArray.inBounds i = true → a.slots.length = 11 → (a.set i v).get i = v) := by
  refine ⟨?_, ?_, fun c pos => ArchColumns.fails_iff c line pos, ?_, ?_, ?_,
    ColumnArray.get_set⟩
  · rw [← extractColumns_rejects_iff]
    unfold processLine
    rcases h : extractColumns line cfg.m_archCols { pos := 0, columns := ColumnArray.new } with
      ⟨b, s⟩
    cases b <;> simp
  · unfold processLine
    rcases h : extractColumns line cfg.m_archCols { pos := 0, columns := ColumnArray.new } with
      ⟨b, s⟩
    cases b <;> simp
  · intro c rest st hf ho
    rw [extractColumns_cons, if_pos hf, if_pos ho]
  · intro c rest st hf ho
    rw [extractColumns_cons, if_pos hf, ho]
    rfl
  · intro c rest st strpos len hm hl
    rw [extractColumns, hm]
    simp only
    rw [if_neg (not_lt.mpr hl)]

/-- C8, at a sample input: a single required extractor that matches one
character rejects the empty line, and nothing is sent to the listing. -/
theorem processLine_rejects_iff_witness :
    (processLine
        { m_archCols :=
            [{ colRef := 0,
               pattern := fun line pos => if pos < line.length then some (pos, 1) else none,
               maxLength := 1, optional := false }],
          m_numCols := 1, m_dateCol := -1, m_fixYear := -1, m_fixMonth := -1,
          m_fixDay := -1, m_fixTime := -1, m_repairYear := -1, m_repairMonth := -1 }
        { fixYear := id, getMonth := fun _ => 0, number := fun _ => [], arg := fun s _ => s }
        []).ret = false :=
  (processLine_rejects_iff _ _ []).1.mpr ⟨[], _, [], rfl, rfl, by decide⟩

/-! ### Cutting the listing output into lines -/

theorem dropWhile_head_not {α : Type} (p : α → Bool) (l : List α) (c : α) (r : List α)
    (h : l.dropWhile p = c :: r) : p c = false := by
  induction l with
  | nil => simp at h
  | cons a l ih =>
    rw [List.dropWhile_cons] at h
    by_cases ha : p a = true
    · rw [if_pos ha] at h
      exact ih h
    · rw [if_neg ha] at h
      cases h
      simpa using ha

theorem cstr_append_of_nul_free (s x : List Char) (h : ∀ c ∈ s, c ≠ '\x00') :
    cstr (s ++ x) = s ++ cstr x := by
  induction s with
  | nil => rfl
  | cons a s ih =>
    have ha : a ≠ '\x00' := h a (List.mem_cons_self _ _)
    have := ih (fun c hc => h c (List.mem_cons_of_mem _ hc))
    unfold cstr at this ⊢
    rw [List.cons_append, List.takeWhile_cons_of_pos (by simpa using ha), this]
    rfl

theorem cstr_of_nul_free (s : List Char) (h : ∀ c ∈ s, c ≠ '\x00') : cstr s = s := by
  have := cstr_append_of_nul_free s [] h
  simpa [cstr] using this

@[simp] theorem TocState.appendBuffer_m_finished (st : TocState) (b : List Char) :
    (st.appendBuffer b).m_finished = st.m_finished := rfl

@[simp] theorem TocState.appendShellOutputData_m_finished (st : TocState) (b : List Char) :
    (st.appendShellOutputData b).m_finished = st.m_finished := rfl

theorem TocState.appendBuffer_appendShellOutputData (st : TocState) (b d : List Char) :
    (st.appendShellOutputData d).appendBuffer b = (st.appendBuffer b).appendShellOutputData d :=
  rfl

theorem scanBytes_finished (hdr : QCString) (pl : QCString → Bool) (st : TocState)
    (seg r : List Char) (h : st.m_finished = true) :
    scanBytes hdr pl st seg r = (st, seg) := by
  cases r with
  | nil => rfl
  | cons c r => rw [scanBytes, if_pos h]

theorem scanBytes_cons_newline (hdr : QCString) (pl : QCString → Bool) (st : TocState)
    (seg r : List Char) (h : st.m_finished = false) :
    scanBytes hdr pl st seg ('\n' :: r) =
      scanBytes hdr pl (handleLine hdr pl (st.appendBuffer seg)) [] r := by
  rw [scanBytes, if_neg (by simp [h]), if_pos rfl]

theorem scanBytes_cons_other (hdr : QCString) (pl : QCString → Bool) (st : TocState)
    (seg r : List Char) (c : Char) (h : st.m_finished = false) (hc : c ≠ '\n') :
    scanBytes hdr pl st seg (c :: r) = scanBytes hdr pl st (seg ++ [c]) r := by
  rw [scanBytes, if_neg (by simp [h]), if_neg hc]

theorem scanBytes_append (hdr : QCString) (pl : QCString → Bool) (a b : List Char)
    (st : TocState) (seg : List Char) :
    scanBytes hdr pl st seg (a ++ b) =
      scanBytes hdr pl (scanBytes hdr pl st seg a).1 (scanBytes hdr pl st seg a).2 b := by
  induction a generalizing st seg with
  | nil => rfl
  | cons c a ih =>
    cases hf : st.m_finished with
    | true =>
      rw [scanBytes_finished _ _ _ _ _ hf, scanBytes_finished _ _ _ _ _ hf,
        scanBytes_finished _ _ _ _ _ hf]
    | false =>
      by_cases hc : c = '\n'
      · subst hc
        rw [List.cons_append, scanBytes_cons_newline _ _ _ _ _ hf,
          scanBytes_cons_newline _ _ _ _ _ hf]
        exact ih _ _
      · rw [List.cons_append, scanBytes_cons_other _ _ _ _ _ _ hf hc,
          scanBytes_cons_other _ _ _ _ _ _ hf hc]
        exact ih _ _

theorem scanBytes_no_newline (hdr : QCString) (pl : QCString → Bool) (seg : List Char)
    (st : TocState) (seg0 tail : List Char) (h : ∀ c ∈ seg, c ≠ '\n')
    (hf : st.m_finished = false) :
    scanBytes hdr pl st seg0 (seg ++ tail) = scanBytes hdr pl st (seg0 ++ seg) tail := by
  induction seg generalizing seg0 with
  | nil => simp
  | cons c seg ih =>
    have hc : c ≠ '\n' := h c (List.mem_cons_self _ _)
    rw [List.cons_append, scanBytes_cons_other _ _ _ _ _ _ hf hc,
      ih _ (fun x hx => h x (List.mem_cons_of_mem _ hx))]
    simp

theorem tocLoop_eq_scanBytes (hdr : QCString) (pl : QCString → Bool) (fuel : Nat)
    (rest : List Char) (st : TocState) (h : rest.length < fuel) :
    tocLoop hdr pl fuel rest st = appendRest (scanBytes hdr pl st [] rest) := by
  induction fuel generalizing rest st with
  | zero => omega
  | succ fuel ih =>
    rw [tocLoop]
    cases hf : st.m_finished with
    | true =>
      rw [scanBytes_finished _ _ _ _ _ hf]
      simp [appendRest, hf]
    | false =>
      rw [if_neg (by simp)]
      have hspan := List.span_eq_take_drop (fun c => decide (c ≠ '\n')) rest
      have hcat := List.takeWhile_append_dropWhile (fun c => decide (c ≠ '\n')) rest
      have hseg : ∀ c ∈ rest.takeWhile (fun c => decide (c ≠ '\n')), c ≠ '\n' := by
        intro c hc
        simpa using List.mem_takeWhile_imp hc
      rw [hspan]
      cases hd : rest.dropWhile (fun c => decide (c ≠ '\n')) with
      | nil =>
        rw [hd, List.append_nil] at hcat
        simp only
        rw [hcat]
        have := scanBytes_no_newline hdr pl rest st [] [] (by rw [← hcat]; exact hseg) hf
        rw [List.append_nil] at this
        rw [this]
        simp [scanBytes, appendRest, hf]
      | cons c rest' =>
        simp only
        have hc : c = '\n' := by
          have := dropWhile_head_not (fun c => decide (c ≠ '\n')) rest c rest' hd
          simpa using this
        rw [hd] at hcat
        have hlen : rest'.length < fuel := by
          have := congrArg List.length hcat
          simp at this
          omega
        rw [ih rest' _ hlen]
        conv_rhs => rw [← hcat]
        rw [scanBytes_no_newline hdr pl _ st [] _ hseg hf, hc,
          scanBytes_cons_newline _ _ _ _ _ hf]
        simp

theorem handleLine_appendShellOutputData (hdr : QCString) (pl : QCString → Bool)
    (st : TocState) (d : List Char) :
    handleLine hdr pl (st.appendShellOutputData d) =
      (handleLine hdr pl st).appendShellOutputData d := by
  unfold handleLine TocState.appendShellOutputData
  simp only
  split_ifs <;> rfl

theorem scanBytes_appendShellOutputData (hdr : QCString) (pl : QCString → Bool)
    (r : List Char) (st : TocState) (seg : List Char) (d : List Char) :
    scanBytes hdr pl (st.appendShellOutputData d) seg r =
      ((scanBytes hdr pl st seg r).1.appendShellOutputData d,
        (scanBytes hdr pl st seg r).2) := by
  induction r generalizing st seg with
  | nil => rfl
  | cons c r ih =>
    cases hf : st.m_finished with
    | true =>
      rw [scanBytes_finished _ _ _ _ _ hf, scanBytes_finished _ _ _ _ _ (by simpa using hf)]
    | false =>
      have hf' : (st.appendShellOutputData d).m_finished = false := by simpa using hf
      by_cases hc : c = '\n'
      · subst hc
        rw [scanBytes_cons_newline _ _ _ _ _ hf, scanBytes_cons_newline _ _ _ _ _ hf',
          TocState.appendBuffer_appendShellOutputData, handleLine_appendShellOutputData]
        exact ih _ _
      · rw [scanBytes_cons_other _ _ _ _ _ _ hf hc, scanBytes_cons_other _ _ _ _ _ _ hf' hc]
        exact ih _ _

theorem TocState.appendBuffer_append (st : TocState) (a b : List Char)
    (ha : ∀ c ∈ a, c ≠ '\x00') :
    st.appendBuffer (a ++ b) = (st.appendBuffer a).appendBuffer b := by
  simp [TocState.appendBuffer, cstr_append_of_nul_free a b ha, cstr_of_nul_free a ha]

theorem scanBytes_merge (hdr : QCString) (pl : QCString → Bool) (b : List Char)
    (st : TocState) (seg₁ seg₂ : List Char) (hf : st.m_finished = false)
    (h₁ : ∀ c ∈ seg₁, c ≠ '\x00') :
    appendRest (scanBytes hdr pl (st.appendBuffer seg₁) seg₂ b) =
      appendRest (scanBytes hdr pl st (seg₁ ++ seg₂) b) := by
  have hf' : (st.appendBuffer seg₁).m_finished = false := by simpa using hf
  induction b generalizing seg₂ with
  | nil =>
    simp [scanBytes, appendRest, hf, TocState.appendBuffer_append st seg₁ seg₂ h₁]
  | cons c b ih =>
    by_cases hc : c = '\n'
    · subst hc
      rw [scanBytes_cons_newline _ _ _ _ _ hf, scanBytes_cons_newline _ _ _ _ _ hf',
        TocState.appendBuffer_append st seg₁ seg₂ h₁]
    · rw [scanBytes_cons_other _ _ _ _ _ _ hf hc, scanBytes_cons_other _ _ _ _ _ _ hf' hc,
        ih (seg₂ ++ [c]), List.append_assoc]

theorem scanBytes_segment_mem (hdr : QCString) (pl : QCString → Bool) (r : List Char)
    (st : TocState) (seg : List Char) :
    ∀ c ∈ (scanBytes hdr pl st seg r).2, c ∈ seg ∨ c ∈ r := by
  induction r generalizing st seg with
  | nil =>
    intro c hc
    exact Or.inl hc
  | cons a r ih =>
    intro c hc
    cases hf : st.m_finished with
    | true =>
      rw [scanBytes_finished _ _ _ _ _ hf] at hc
      exact Or.inl hc
    | false =>
      by_cases ha : a = '\n'
      · subst ha
        rw [scanBytes_cons_newline _ _ _ _ _ hf] at hc
        rcases ih _ _ c hc with h | h
        · simp at h
        · exact Or.inr (List.mem_cons_of_mem _ h)
      · rw [scanBytes_cons_other _ _ _ _ _ _ hf ha] at hc
        rcases ih _ _ c hc with h | h
        · rcases List.mem_append.mp h with h | h
          · exact Or.inl h
          · simp only [List.mem_singleton] at h
            exact Or.inr (h ▸ List.mem_cons_self _ _)
        · exact Or.inr (List.mem_cons_of_mem _ h)

theorem appendRest_appendShellOutputData (r : TocState × List Char) (d : List Char) :
    appendRest (r.1.appendShellOutputData d, r.2) = (appendRest r).appendShellOutputData d := by
  unfold appendRest
  simp only [TocState.appendShellOutputData_m_finished]
  split_ifs <;> rfl

theorem slotReceivedTOC_eq (hdr : QCString) (pl : QCString → Bool) (st : TocState)
    (data : List Char) :
    slotReceivedTOC hdr pl st data =
      (appendRest (scanBytes hdr pl st [] data)).appendShellOutputData data := by
  unfold slotReceivedTOC
  rw [tocLoop_eq_scanBytes _ _ _ _ _ (Nat.lt_succ_self _), scanBytes_appendShellOutputData,
    appendRest_appendShellOutputData]

theorem TocState.appendShellOutputData_append (st : TocState) (a b : List Char)
    (ha : ∀ c ∈ a, c ≠ '\x00') :
    st.appendShellOutputData (a ++ b) =
      (st.appendShellOutputData a).appendShellOutputData b := by
  simp [TocState.appendShellOutputData, cstr_append_of_nul_free a b ha, cstr_of_nul_free a ha]

theorem slotReceivedTOC_append (hdr : QCString) (pl : QCString → Bool) (st : TocState)
    (a b : List Char) (ha : ∀ c ∈ a, c ≠ '\x00') :
    slotReceivedTOC hdr pl (slotReceivedTOC hdr pl st a) b =
      slotReceivedTOC hdr pl st (a ++ b) := by
  rw [slotReceivedTOC_eq hdr pl st (a ++ b), slotReceivedTOC_eq hdr pl _ b,
    slotReceivedTOC_eq hdr pl st a, scanBytes_append, scanBytes_appendShellOutputData,
    appendRest_appendShellOutputData, TocState.appendShellOutputData_append _ a b ha]
  congr 2
  cases hf : (scanBytes hdr pl st [] a).1.m_finished with
  | true =>
    have h1 : appendRest (scanBytes hdr pl st [] a) = (scanBytes hdr pl st [] a).1 := by
      simp [appendRest, hf]
    rw [h1, scanBytes_finished _ _ _ _ _ hf, scanBytes_finished _ _ _ _ _ hf]
    simp [appendRest, hf]
  | false =>
    have hseg : ∀ c ∈ (scanBytes hdr pl st [] a).2, c ≠ '\x00' := by
      intro c hc
      rcases scanBytes_segment_mem hdr pl a st [] c hc with h | h
      · simp at h
      · exact ha c h
    have h1 : appendRest (scanBytes hdr pl st [] a) =
        (scanBytes hdr pl st [] a).1.appendBuffer (scanBytes hdr pl st [] a).2 := by
      simp [appendRest, hf]
    rw [h1, scanBytes_merge hdr pl b _ _ [] hf hseg, List.append_nil]

theorem slotReceivedTOC_nil (hdr : QCString) (pl : QCString → Bool) (st : TocState) :
    slotReceivedTOC hdr pl st [] = st := by
  rw [slotReceivedTOC_eq]
  simp only [scanBytes, appendRest, TocState.appendBuffer, TocState.appendShellOutputData, cstr,
    List.takeWhile_nil, List.append_nil]
  split_ifs <;> rfl

theorem feedChunks_eq_join (hdr : QCString) (pl : QCString → Bool) (chunks : List (List Char))
    (st : TocState) (h : ∀ c ∈ chunks, ∀ x ∈ c, x ≠ '\x00') :
    feedChunks hdr pl st chunks = slotReceivedTOC hdr pl st chunks.flatten := by
  induction chunks generalizing st with
  | nil => simp [feedChunks, slotReceivedTOC_nil]
  | cons c cs ih =>
    have hc := h c (List.mem_cons_self _ _)
    have hcs : ∀ d ∈ cs, ∀ x ∈ d, x ≠ '\x00' := fun d hd => h d (List.mem_cons_of_mem _ hd)
    have := ih (slotReceivedTOC hdr pl st c) hcs
    unfold feedChunks at this ⊢
    rw [List.foldl_cons, this, List.flatten_cons, slotReceivedTOC_append _ _ _ _ _ hc]
theorem handleLine_log (hdr : QCString) (pl : QCString → Bool) (st : TocState) :
    ∃ d, (handleLine hdr pl st).log = st.log ++ [LineEvent.mk st.m_buffer d] := by
  unfold handleLine
  simp only
  split_ifs <;> exact ⟨_, rfl⟩

theorem handleLine_m_buffer (hdr : QCString) (pl : QCString → Bool) (st : TocState) :
    (handleLine hdr pl st).m_buffer = [] := rfl

/-- The lines completed by a scan are the first newline-terminated lines of
the text scanned, the first of them beginning with what was pending. -/
theorem scanBytes_log (hdr : QCString) (pl : QCString → Bool) (r : List Char)
    (st : TocState) (seg : List Char) (hseg : ∀ c ∈ seg, c ≠ '\x00')
    (hr : ∀ c ∈ r, c ≠ '\x00') :
    ∃ new, (scanBytes hdr pl st seg r).1.log = st.log ++ new
      ∧ new.map (fun e => e.line) <+: completeLines (st.m_buffer ++ seg) r
      ∧ ((scanBytes hdr pl st seg r).1.m_finished = false →
          new.map (fun e => e.line) = completeLines (st.m_buffer ++ seg) r
          ∧ (appendRest (scanBytes hdr pl st seg r)).m_buffer
              = partialLine (st.m_buffer ++ seg) r) := by
  induction r generalizing st seg with
  | nil =>
    refine ⟨[], by simp [scanBytes], by simp [completeLines], ?_⟩
    intro hf
    simp only [scanBytes] at hf
    simp [scanBytes, completeLines, partialLine, appendRest, hf, TocState.appendBuffer,
      cstr_of_nul_free seg hseg]
  | cons c r ih =>
    have hr' : ∀ x ∈ r, x ≠ '\x00' := fun x hx => hr x (List.mem_cons_of_mem _ hx)
    cases hf : st.m_finished with
    | true =>
      rw [scanBytes_finished _ _ _ _ _ hf]
      refine ⟨[], by simp, List.nil_prefix, ?_⟩
      intro h
      simp only at h
      rw [hf] at h
      cases h
    | false =>
      by_cases hc : c = '\n'
      · subst hc
        rw [scanBytes_cons_newline _ _ _ _ _ hf]
        obtain ⟨d, hd⟩ := handleLine_log hdr pl (st.appendBuffer seg)
        obtain ⟨new, h1, h2, h3⟩ :=
          ih (handleLine hdr pl (st.appendBuffer seg)) [] (by simp)  hr'
        have hbuf : (st.appendBuffer seg).m_buffer = st.m_buffer ++ seg := by
          simp [TocState.appendBuffer, cstr_of_nul_free seg hseg]
        rw [handleLine_m_buffer, List.append_nil] at h2 h3
        rw [hd, hbuf] at h1
        refine ⟨LineEvent.mk (st.m_buffer ++ seg) d :: new, ?_, ?_, ?_⟩
        · rw [h1]
          simp [TocState.appendBuffer]
        · simp only [List.map_cons, completeLines, if_true]
          exact (List.prefix_cons_inj _).mpr h2
        · intro hfin
          obtain ⟨h4, h5⟩ := h3 hfin
          simp only [List.map_cons, completeLines, partialLine, if_true, h4, h5, and_self]
      · rw [scanBytes_cons_other _ _ _ _ _ _ hf hc]
        have hseg' : ∀ x ∈ seg ++ [c], x ≠ '\x00' := by
          intro x hx
          rcases List.mem_append.mp hx with h | h
          · exact hseg x h
          · simp only [List.mem_singleton] at h
            exact h ▸ hr c (List.mem_cons_self _ _)
        obtain ⟨new, h1, h2, h3⟩ := ih st (seg ++ [c]) hseg' hr'
        refine ⟨new, h1, ?_, ?_⟩
        · simpa [completeLines, hc, List.append_assoc] using h2
        · intro hfin
          simpa [completeLines, partialLine, hc, List.append_assoc] using h3 hfin

theorem slotReceivedTOC_log (hdr : QCString) (pl : QCString → Bool) (st : TocState)
    (data : List Char) (hd : ∀ c ∈ data, c ≠ '\x00') :
    ∃ new, (slotReceivedTOC hdr pl st data).log = st.log ++ new
      ∧ new.map (fun e => e.line) <+: completeLines st.m_buffer data
      ∧ ((slotReceivedTOC hdr pl st data).m_finished = false →
          new.map (fun e => e.line) = completeLines st.m_buffer data
          ∧ (slotReceivedTOC hdr pl st data).m_buffer = partialLine st.m_buffer data) := by
  obtain ⟨new, h1, h2, h3⟩ := scanBytes_log hdr pl data st [] (by simp) hd
  rw [List.append_nil] at h2 h3
  have hlog : (slotReceivedTOC hdr pl st data).log = (scanBytes hdr pl st [] data).1.log := by
    rw [slotReceivedTOC_eq]
    unfold appendRest TocState.appendShellOutputData TocState.appendBuffer
    simp only
    split_ifs <;> rfl
  have hfin : (slotReceivedTOC hdr pl st data).m_finished
      = (scanBytes hdr pl st [] data).1.m_finished := by
    rw [slotReceivedTOC_eq]
    unfold appendRest TocState.appendShellOutputData TocState.appendBuffer
    simp only
    split_ifs <;> rfl
  have hbuf : (slotReceivedTOC hdr pl st data).m_buffer
      = (appendRest (scanBytes hdr pl st [] data)).m_buffer := by
    rw [slotReceivedTOC_eq]
    rfl
  refine ⟨new, by rw [hlog, h1], h2, ?_⟩
  intro hf
  rw [hfin] at hf
  rw [hbuf]
  exact h3 hf
theorem scanBytes_empty_header (pl : QCString → Bool) (r : List Char)
    (st : TocState) (seg : List Char) (hf : st.m_finished = false)
    (hseg : ∀ c ∈ seg, c ≠ '\x00') (hr : ∀ c ∈ r, c ≠ '\x00') :
    (scanBytes [] pl st seg r).1.log =
        st.log ++ (completeLines (st.m_buffer ++ seg) r).map (fun l => LineEvent.mk l true)
      ∧ (scanBytes [] pl st seg r).1.m_finished = false := by
  induction r generalizing st seg with
  | nil => simp [scanBytes, completeLines, hf]
  | cons c r ih =>
    have hr' : ∀ x ∈ r, x ≠ '\x00' := fun x hx => hr x (List.mem_cons_of_mem _ hx)
    by_cases hc : c = '\n'
    · subst hc
      rw [scanBytes_cons_newline _ _ _ _ _ hf]
      have hfin : (handleLine [] pl (st.appendBuffer seg)).m_finished = false := by
        simp [handleLine, hf]
      have hlog : (handleLine [] pl (st.appendBuffer seg)).log
          = st.log ++ [LineEvent.mk (st.m_buffer ++ seg) true] := by
        simp [handleLine, TocState.appendBuffer, cstr_of_nul_free seg hseg]
      obtain ⟨h1, h2⟩ := ih (handleLine [] pl (st.appendBuffer seg)) [] hfin (by simp) hr'
      refine ⟨?_, h2⟩
      rw [h1, hlog, handleLine_m_buffer]
      simp [completeLines]
    · rw [scanBytes_cons_other _ _ _ _ _ _ hf hc]
      have hseg' : ∀ x ∈ seg ++ [c], x ≠ '\x00' := by
        intro x hx
        rcases List.mem_append.mp hx with h | h
        · exact hseg x h
        · simp only [List.mem_singleton] at h
          exact h ▸ hr c (List.mem_cons_self _ _)
      obtain ⟨h1, h2⟩ := ih st (seg ++ [c]) hf hseg' hr'
      refine ⟨?_, h2⟩
      rw [h1]
      simp [completeLines, hc, List.append_assoc]

theorem slotReceivedTOC_log_eq (hdr : QCString) (pl : QCString → Bool) (st : TocState)
    (data : List Char) :
    (slotReceivedTOC hdr pl st data).log = (scanBytes hdr pl st [] data).1.log := by
  rw [slotReceivedTOC_eq]
  unfold appendRest TocState.appendShellOutputData TocState.appendBuffer
  simp only
  split_ifs <;> rfl

theorem slotReceivedTOC_m_finished_eq (hdr : QCString) (pl : QCString → Bool) (st : TocState)
    (data : List Char) :
    (slotReceivedTOC hdr pl st data).m_finished = (scanBytes hdr pl st [] data).1.m_finished := by
  rw [slotReceivedTOC_eq]
  unfold appendRest TocState.appendShellOutputData TocState.appendBuffer
  simp only
  split_ifs <;> rfl

theorem slotReceivedTOC_m_header_removed_eq (hdr : QCString) (pl : QCString → Bool)
    (st : TocState) (data : List Char) :
    (slotReceivedTOC hdr pl st data).m_header_removed
      = (scanBytes hdr pl st [] data).1.m_header_removed := by
  rw [slotReceivedTOC_eq]
  unfold appendRest TocState.appendShellOutputData TocState.appendBuffer
  simp only
  split_ifs <;> rfl

theorem GatedLog.concat (hdr : QCString) (log : List LineEvent) (ev : LineEvent)
    (h : GatedLog hdr log)
    (hev : ev.dispatched = true → ¬ hdr <:+: ev.line ∧ ∃ m ∈ log, hdr <:+: m.line) :
    GatedLog hdr (log ++ [ev]) := by
  intro pre e post hsplit hd
  rcases List.eq_nil_or_concat post with hp | ⟨post', x, hp⟩
  · subst hp
    have := List.append_inj' hsplit (by simp)
    obtain ⟨h1, h2⟩ := this
    simp only [List.cons.injEq, and_true] at h2
    subst h1 h2
    exact hev hd
  · subst hp
    have h' : log ++ [ev] = (pre ++ e :: post') ++ [x] := by
      rw [hsplit]
      simp
    obtain ⟨h1, -⟩ := List.append_inj' h' (by simp)
    exact h pre e post' h1 hd

theorem handleLine_inv (hdr : QCString) (pl : QCString → Bool) (st : TocState)
    (hne : hdr ≠ []) (h : TocInv hdr st) : TocInv hdr (handleLine hdr pl st) := by
  obtain ⟨hg, hh⟩ := h
  have hemp : hdr.isEmpty = false := by
    cases hdr with
    | nil => exact absurd rfl hne
    | cons a l => rfl
  unfold handleLine
  simp only [hemp, Bool.false_eq_true, if_false]
  by_cases hm : hdr <:+: st.m_buffer
  · simp only [hm, not_true_eq_false, if_false]
    cases hr : st.m_header_removed with
    | false =>
      simp only [Bool.not_false, if_true]
      refine ⟨GatedLog.concat hdr _ _ hg (fun hd => by cases hd), fun _ => ?_⟩
      exact ⟨_, List.mem_append_right _ (List.mem_singleton_self _), hm⟩
    | true =>
      simp only [Bool.not_true, Bool.false_eq_true, if_false]
      refine ⟨GatedLog.concat hdr _ _ hg (fun hd => by cases hd), fun _ => ?_⟩
      exact ⟨_, List.mem_append_right _ (List.mem_singleton_self _), hm⟩
  · simp only [hm, not_false_eq_true, if_true]
    by_cases hc : (st.m_header_removed && !st.m_finished) = true
    · simp only [hc, if_true]
      have hrem : st.m_header_removed = true := by
        simp only [Bool.and_eq_true] at hc
        exact hc.1
      by_cases hp : (!pl st.m_buffer) = true
      · simp only [hp, if_true]
        refine ⟨GatedLog.concat hdr _ _ hg (fun _ => ⟨hm, hh hrem⟩), fun hx => ?_⟩
        cases hx
      · simp only [hp, if_false]
        refine ⟨GatedLog.concat hdr _ _ hg (fun _ => ⟨hm, hh hrem⟩), fun hx => ?_⟩
        obtain ⟨m, hm1, hm2⟩ := hh hx
        exact ⟨m, List.mem_append_left _ hm1, hm2⟩
    · simp only [hc, if_false]
      refine ⟨GatedLog.concat hdr _ _ hg (fun hd => by cases hd), fun hx => ?_⟩
      obtain ⟨m, hm1, hm2⟩ := hh hx
      exact ⟨m, List.mem_append_left _ hm1, hm2⟩

theorem scanBytes_inv (hdr : QCString) (pl : QCString → Bool) (r : List Char)
    (st : TocState) (seg : List Char) (hne : hdr ≠ []) (h : TocInv hdr st) :
    TocInv hdr (scanBytes hdr pl st seg r).1 := by
  induction r generalizing st seg with
  | nil => exact h
  | cons c r ih =>
    cases hf : st.m_finished with
    | true =>
      rw [scanBytes_finished _ _ _ _ _ hf]
      exact h
    | false =>
      by_cases hc : c = '\n'
      · subst hc
        rw [scanBytes_cons_newline _ _ _ _ _ hf]
        exact ih _ _ (handleLine_inv hdr pl _ hne h)
      · rw [scanBytes_cons_other _ _ _ _ _ _ hf hc]
        exact ih _ _ h

theorem slotReceivedTOC_inv (hdr : QCString) (pl : QCString → Bool) (st : TocState)
    (data : List Char) (hne : hdr ≠ []) (h : TocInv hdr st) :
    TocInv hdr (slotReceivedTOC hdr pl st data) := by
  have := scanBytes_inv hdr pl data st [] hne h
  unfold TocInv at this ⊢
  rw [slotReceivedTOC_log_eq, slotReceivedTOC_m_header_removed_eq]
  exact this

theorem feedChunks_inv (hdr : QCString) (pl : QCString → Bool) (chunks : List (List Char))
    (st : TocState) (hne : hdr ≠ []) (h : TocInv hdr st) :
    TocInv hdr (feedChunks hdr pl st chunks) := by
  induction chunks generalizing st with
  | nil => exact h
  | cons c cs ih => exact ih _ (slotReceivedTOC_inv hdr pl st c hne h)

theorem slotReceivedTOC_finished (hdr : QCString) (pl : QCString → Bool) (st : TocState)
    (data : List Char) (hf : st.m_finished = true) :
    slotReceivedTOC hdr pl st data = st.appendShellOutputData data := by
  rw [slotReceivedTOC_eq, scanBytes_finished _ _ _ _ _ hf]
  simp [appendRest, hf]

theorem feedChunks_finished (hdr : QCString) (pl : QCString → Bool) (chunks : List (List Char))
    (st : TocState) (hf : st.m_finished = true) :
    (feedChunks hdr pl st chunks).log = st.log
      ∧ (feedChunks hdr pl st chunks).m_finished = true := by
  induction chunks generalizing st with
  | nil => exact ⟨rfl, hf⟩
  | cons c cs ih =>
    have := ih (slotReceivedTOC hdr pl st c)
      (by rw [slotReceivedTOC_finished _ _ _ _ hf]; exact hf)
    rw [slotReceivedTOC_finished _ _ _ _ hf] at this
    show (feedChunks hdr pl (slotReceivedTOC hdr pl st c) cs).log = st.log
      ∧ (feedChunks hdr pl (slotReceivedTOC hdr pl st c) cs).m_finished = true
    rw [slotReceivedTOC_finished _ _ _ _ hf]
    exact this

theorem feedChunks_log (hdr : QCString) (pl : QCString → Bool) (chunks : List (List Char))
    (st : TocState) (h : ∀ c ∈ chunks, ∀ x ∈ c, x ≠ '\x00') :
    ∃ new, (feedChunks hdr pl st chunks).log = st.log ++ new
      ∧ new.map (fun e => e.line) <+: completeLines st.m_buffer chunks.flatten
      ∧ ((feedChunks hdr pl st chunks).m_finished = false →
          new.map (fun e => e.line) = completeLines st.m_buffer chunks.flatten
          ∧ (feedChunks hdr pl st chunks).m_buffer
              = partialLine st.m_buffer chunks.flatten) := by
  rw [feedChunks_eq_join hdr pl chunks st h]
  exact slotReceivedTOC_log hdr pl st chunks.flatten (by
    intro c hc
    obtain ⟨l, hl, hcl⟩ := List.mem_flatten.mp hc
    exact h l hl c hcl)
/-- C9. Chunk-boundary independence: for a listing output without NUL bytes,
delivering it to `slotReceivedTOC` in any sequence of chunks (empty ones
included) leaves the same state, with the same lines completed and dispatched
in the same order, as delivering it as one chunk. The lines completed are the
first newline-terminated lines of the pending text followed by the output,
without their newlines, and while the listing is not finished what remains
pending is the text after the last newline. With no header marker every
newline-terminated line is dispatched, once. -/
theorem slotReceivedTOC_chunk_independent (hdr : QCString) (pl : QCString → Bool)
    (st : TocState) (chunks : List (List Char))
    (hnul : ∀ c ∈ chunks, ∀ x ∈ c, x ≠ '\x00') :
    feedChunks hdr pl st chunks = slotReceivedTOC hdr pl st chunks.flatten
    ∧ (∃ new, (feedChunks hdr pl st chunks).log = st.log ++ new
        ∧ new.map (fun e => e.line) <+: completeLines st.m_buffer chunks.flatten
        ∧ ((feedChunks hdr pl st chunks).m_finished = false →
            new.map (fun e => e.line) = completeLines st.m_buffer chunks.flatten
            ∧ (feedChunks hdr pl st chunks).m_buffer
                = partialLine st.m_buffer chunks.flatten))
    ∧ (hdr = [] → st.m_finished = false →
        (feedChunks hdr pl st chunks).log =
          st.log ++ (completeLines st.m_buffer chunks.flatten).map
            (fun l => LineEvent.mk l true)) := by
  refine ⟨feedChunks_eq_join hdr pl chunks st hnul, feedChunks_log hdr pl chunks st hnul, ?_⟩
  intro hh hf
  subst hh
  have hflat : ∀ c ∈ chunks.flatten, c ≠ '\x00' := by
    intro c hc
    obtain ⟨l, hl, hcl⟩ := List.mem_flatten.mp hc
    exact hnul l hl c hcl
  rw [feedChunks_eq_join [] pl chunks st hnul, slotReceivedTOC_log_eq]
  have := (scanBytes_empty_header pl chunks.flatten st [] hf (by simp) hflat).1
  rw [List.append_nil] at this
  exact this

/-- C9, at the sample input: with no header marker, the chunks `abc` and
`def` followed by a newline dispatch the single line `abcdef`, once. -/
theorem slotReceivedTOC_chunk_independent_witness :
    (∀ c ∈ ["abc".toList, "def\n".toList], ∀ x ∈ c, x ≠ '\x00')
    ∧ (feedChunks [] (fun _ => true) (TocState.initial false)
        ["abc".toList, "def\n".toList]).log = [LineEvent.mk "abcdef".toList true] :=
  ⟨by decide,
   ((slotReceivedTOC_chunk_independent [] (fun _ => true) (TocState.initial false)
      ["abc".toList, "def\n".toList] (by decide)).2.2 rfl rfl).trans (by decide)⟩

/-- C10. Header gating, for a non-empty header marker and any sequence of
chunks delivered to a fresh `Arch`: a line is handed to `processLine` only if
it does not hold the marker and an earlier completed line did; for an output
without NUL bytes the completed lines are newline-terminated lines of the
output. Once `m_finished` is set no later chunk adds a line, and a line holding
the marker that is completed while `m_header_removed` is set sets `m_finished`
without being dispatched, so that nothing of the rest of its chunk or of later
chunks is dispatched. -/
theorem slotReceivedTOC_header_gating (hdr : QCString) (hne : hdr ≠ [])
    (pl : QCString → Bool) (m_error : Bool) (chunks : List (List Char)) :
    (∀ pre ev post,
        (feedChunks hdr pl (TocState.initial m_error) chunks).log = pre ++ ev :: post →
        ev.dispatched = true →
          ¬ hdr <:+: ev.line ∧ ∃ m ∈ pre, hdr <:+: m.line)
    ∧ ((∀ c ∈ chunks, ∀ x ∈ c, x ≠ '\x00') →
        (feedChunks hdr pl (TocState.initial m_error) chunks).log.map (fun e => e.line)
          <+: completeLines [] chunks.flatten)
    ∧ (∀ (st : TocState) (later : List (List Char)), st.m_finished = true →
        (feedChunks hdr pl st later).log = st.log)
    ∧ (∀ (st : TocState) (line rest : List Char) (later : List (List Char)),
        st.m_finished = false → st.m_header_removed = true →
        (∀ c ∈ line, c ≠ '\n') → hdr <:+: st.m_buffer ++ cstr line →
          (feedChunks hdr pl st ((line ++ '\n' :: rest) :: later)).log
              = st.log ++ [LineEvent.mk (st.m_buffer ++ cstr line) false]
            ∧ (feedChunks hdr pl st ((line ++ '\n' :: rest) :: later)).m_finished = true) := by
  refine ⟨?_, ?_, ?_, ?_⟩
  · have hinit : TocInv hdr (TocState.initial m_error) := by
      refine ⟨?_, fun h => by cases h⟩
      intro pre ev post h
      simp [TocState.initial] at h
    exact (feedChunks_inv hdr pl chunks _ hne hinit).1
  · intro hnul
    obtain ⟨new, h1, h2, -⟩ := feedChunks_log hdr pl chunks (TocState.initial m_error) hnul
    rw [h1]
    simpa [TocState.initial] using h2
  · intro st later hf
    exact (feedChunks_finished hdr pl later st hf).1
  · intro st line rest later hf hr hline hm
    have hemp : hdr.isEmpty = false := by
      cases hdr with
      | nil => exact absurd rfl hne
      | cons a l => rfl
    have hscan : scanBytes hdr pl st [] (line ++ '\n' :: rest)
        = (handleLine hdr pl (st.appendBuffer line), []) := by
      rw [scanBytes_no_newline hdr pl line st [] _ hline hf, List.nil_append,
        scanBytes_cons_newline _ _ _ _ _ hf]
      apply scanBytes_finished
      simp [handleLine, hemp, TocState.appendBuffer, hm, hr]
    have hlog : (slotReceivedTOC hdr pl st (line ++ '\n' :: rest)).log
        = st.log ++ [LineEvent.mk (st.m_buffer ++ cstr line) false] := by
      rw [slotReceivedTOC_log_eq, hscan]
      simp [handleLine, hemp, TocState.appendBuffer, hm, hr]
    have hfin : (slotReceivedTOC hdr pl st (line ++ '\n' :: rest)).m_finished = true := by
      rw [slotReceivedTOC_m_finished_eq, hscan]
      simp [handleLine, hemp, TocState.appendBuffer, hm, hr]
    have := feedChunks_finished hdr pl later _ hfin
    rw [hlog] at this
    exact this

/-- C10, at a sample input: with the marker `--`, the line before the first
marker line and the line after the second one are not dispatched; the line
between them is. -/
theorem slotReceivedTOC_header_gating_witness :
    "--".toList ≠ []
    ∧ (feedChunks "--".toList (fun _ => true) (TocState.initial false)
        ["x\n--\n".toList, "a\n--".toList, "\nb\n".toList]).log
        = [LineEvent.mk "x".toList false, LineEvent.mk "--".toList false,
           LineEvent.mk "a".toList true, LineEvent.mk "--".toList false]
    ∧ ∀ pre ev post,
        (feedChunks "--".toList (fun _ => true) (TocState.initial false)
          ["x\n--\n".toList, "a\n--".toList, "\nb\n".toList]).log = pre ++ ev :: post →
        ev.dispatched = true →
          ¬ "--".toList <:+: ev.line ∧ ∃ m ∈ pre, "--".toList <:+: m.line :=
  ⟨by decide, by decide,
   (slotReceivedTOC_header_gating "--".toList (by decide) (fun _ => true) false
      ["x\n--\n".toList, "a\n--".toList, "\nb\n".toList]).1⟩

/-! ### Rewriting an archive -/

theorem deleteLoop_headerCodes_mono (env : LibarchiveEnv) (files : List QString)
    (hs : List (Int × ArchiveEntry)) (st : RewriteState) :
    ∀ c ∈ st.headerCodes, c ∈ (deleteLoop env files hs st).2.headerCodes := by
  induction hs generalizing st with
  | nil => intro c hc; exact hc
  | cons h rest ih =>
    obtain ⟨rc, entry⟩ := h
    intro c hc
    rw [deleteLoop]
    dsimp only
    split_ifs
    all_goals first
      | exact hc
      | exact List.mem_append_left _ hc
      | (apply ih
         first
           | exact hc
           | exact List.mem_append_left _ hc)

theorem deleteLoop_ok (env : LibarchiveEnv) (files : List QString)
    (hs : List (Int × ArchiveEntry)) (st : RewriteState)
    (hread : ∀ h ∈ hs, h.1 = ARCHIVE_OK)
    (hcodes : ∀ c ∈ (deleteLoop env files hs st).2.headerCodes, c = ARCHIVE_OK) :
    (deleteLoop env files hs st).1 = true
    ∧ (deleteLoop env files hs st).2.records =
        st.records ++ ((hs.map (fun h => h.2)).filter
          (fun e => decide (e.pathname ∉ files))).map WrittenRecord.ok
    ∧ (deleteLoop env files hs st).2.signals =
        st.signals ++ ((hs.map (fun h => h.2)).filter
          (fun e => decide (e.pathname ∈ files))).map
            (fun e => Signal.entryRemoved e.pathname) := by
  induction hs generalizing st with
  | nil => simp [deleteLoop]
  | cons h rest ih =>
    obtain ⟨rc, entry⟩ := h
    have hrc : rc = ARCHIVE_OK := hread (rc, entry) (List.mem_cons_self _ _)
    have hrest : ∀ h ∈ rest, h.1 = ARCHIVE_OK := fun h hh => hread h (List.mem_cons_of_mem _ hh)
    rw [deleteLoop] at hcodes ⊢
    simp only [hrc, ne_eq, not_true_eq_false, if_false] at hcodes ⊢
    by_cases hmem : entry.pathname ∈ files
    · have hc : files.contains entry.pathname = true := by simpa using hmem
      simp only [hc, if_true] at hcodes ⊢
      obtain ⟨h1, h2, h3⟩ := ih _ hrest hcodes
      refine ⟨h1, ?_, ?_⟩
      · rw [h2]
        simp [hmem]
      · rw [h3]
        simp [hmem]
    · have hc : files.contains entry.pathname = false := by simpa using hmem
      simp only [hc, Bool.false_eq_true, if_false] at hcodes ⊢
      have hcode : env.writeHeader st.headerCodes.length entry = ARCHIVE_OK := by
        apply hcodes
        split_ifs
        · exact deleteLoop_headerCodes_mono _ _ _ _ _ (List.mem_append_right _ (List.mem_singleton_self _))
        · exact List.mem_append_right _ (List.mem_singleton_self _)
        · exact deleteLoop_headerCodes_mono _ _ _ _ _ (List.mem_append_right _ (List.mem_singleton_self _))
      simp only [hcode, if_true] at hcodes ⊢
      obtain ⟨h1, h2, h3⟩ := ih _ hrest hcodes
      refine ⟨h1, ?_, ?_⟩
      · rw [h2]
        simp [hmem, WrittenRecord.ok]
      · rw [h3]
        simp [hmem]

theorem deleteLoop_congr (env : LibarchiveEnv) (files files' : List QString)
    (hs : List (Int × ArchiveEntry)) (st : RewriteState)
    (h : ∀ x ∈ hs, files.contains x.2.pathname = files'.contains x.2.pathname) :
    deleteLoop env files hs st = deleteLoop env files' hs st := by
  induction hs generalizing st with
  | nil => rfl
  | cons x rest ih =>
    obtain ⟨rc, entry⟩ := x
    have hx := h (rc, entry) (List.mem_cons_self _ _)
    have hrest : ∀ x ∈ rest, files.contains x.2.pathname = files'.contains x.2.pathname :=
      fun x hx => h x (List.mem_cons_of_mem _ hx)
    rw [deleteLoop, deleteLoop]
    simp only at hx
    simp only [hx, ih _ hrest]

theorem deleteFiles_congr (env : LibarchiveEnv) (files files' : List QString)
    (h : ∀ x ∈ env.headers, files.contains x.2.pathname = files'.contains x.2.pathname) :
    deleteFiles env files = deleteFiles env files' := by
  unfold deleteFiles
  simp only [deleteLoop_congr env files files' env.headers _ h]

/-- C1. `deleteFiles` on an existing archive whose headers are all read with
`ARCHIVE_OK` and whose filter is one of its `switch`, the steps before the loop
succeeding: if every call of `archive_write_header` returns `ARCHIVE_OK`, it
returns true and commits an archive whose entries are the old ones, in their
order, without those whose name is in the request; `entryRemoved` is emitted
once for each removed entry, in archive order, and nothing else is emitted;
the names of the request that are not in the archive change nothing. -/
theorem deleteFiles_removes_exactly (env : LibarchiveEnv) (files : List QString)
    (filter : WriteFilter)
    (hfilter : deleteFilesFilter env.filterCode = some filter)
    (hsetup : env.deleteSetupOk filter)
    (hread : ∀ h ∈ env.headers, h.1 = ARCHIVE_OK)
    (hcodes : ∀ c ∈ (deleteFiles env files).headerCodes, c = ARCHIVE_OK) :
    (deleteFiles env files).ret = true
    ∧ (deleteFiles env files).realPath =
        PathState.committed filter
          (((env.headers.map (fun h => h.2)).filter
            (fun e => decide (e.pathname ∉ files))).map WrittenRecord.ok)
    ∧ (deleteFiles env files).signals =
        ((env.headers.map (fun h => h.2)).filter
          (fun e => decide (e.pathname ∈ files))).map
            (fun e => Signal.entryRemoved e.pathname)
    ∧ deleteFiles env
        (files.filter (fun n => decide (n ∈ env.headers.map (fun h => h.2.pathname))))
        = deleteFiles env files := by
  obtain ⟨s1, s2, s3, s4, s5, s6, s7, s8⟩ := hsetup
  have hunfold : deleteFiles env files =
      match deleteLoop env files env.headers RewriteState.empty with
      | (false, st) => Outcome.failed env st
      | (true, st) =>
        { ret := true, realPath := PathState.committed filter st.records,
          signals := st.signals, headerCodes := st.headerCodes } := by
    unfold deleteFiles
    simp only [s1, s2, s3, s4, s5, s6, s7, s8, hfilter, Bool.not_true, Bool.false_eq_true,
      if_false, ne_eq, not_true_eq_false]
  have hc2 : ∀ c ∈ (deleteLoop env files env.headers RewriteState.empty).2.headerCodes,
      c = ARCHIVE_OK := by
    intro c hc
    apply hcodes
    rw [hunfold]
    rcases hl : deleteLoop env files env.headers RewriteState.empty with ⟨b, st⟩
    rw [hl] at hc
    cases b <;> exact hc
  obtain ⟨h1, h2, h3⟩ := deleteLoop_ok env files env.headers RewriteState.empty hread hc2
  refine ⟨?_, ?_, ?_, ?_⟩
  · rw [hunfold]
    rcases hl : deleteLoop env files env.headers RewriteState.empty with ⟨b, st⟩
    rw [hl] at h1
    simp only at h1
    subst h1
    rfl
  · rw [hunfold]
    rcases hl : deleteLoop env files env.headers RewriteState.empty with ⟨b, st⟩
    rw [hl] at h1 h2
    simp only at h1 h2
    subst h1
    simp [h2, RewriteState.empty]
  · rw [hunfold]
    rcases hl : deleteLoop env files env.headers RewriteState.empty with ⟨b, st⟩
    rw [hl] at h1 h3
    simp only at h1 h3
    subst h1
    simp [h3, RewriteState.empty]
  · apply deleteFiles_congr
    intro x hx
    have hmem : x.2.pathname ∈ env.headers.map (fun h => h.2.pathname) :=
      List.mem_map.mpr ⟨x, hx, rfl⟩
    rw [Bool.eq_iff_iff]
    simp [List.mem_filter, hmem]

/-- C1, at a sample input: deleting `b` and the absent `z` from the archive
`a`, `b`, `c` commits `a`, `c` and emits `entryRemoved` for `b` only. -/
theorem deleteFiles_removes_exactly_witness :
    (deleteFiles sampleEnv ["b".toList, "z".toList]).ret = true
    ∧ (deleteFiles sampleEnv ["b".toList, "z".toList]).realPath =
        PathState.committed WriteFilter.gzip
          [WrittenRecord.ok ⟨"a".toList, 1⟩, WrittenRecord.ok ⟨"c".toList, 3⟩]
    ∧ (deleteFiles sampleEnv ["b".toList, "z".toList]).signals =
        [Signal.entryRemoved "b".toList] := by
  have h := deleteFiles_removes_exactly sampleEnv ["b".toList, "z".toList] WriteFilter.gzip
    (by decide) ⟨rfl, rfl, rfl, rfl, rfl, rfl, rfl, rfl⟩ (by decide) (by decide)
  exact ⟨h.1, h.2.1.trans (by decide), h.2.2.1.trans (by decide)⟩

theorem RewriteState.wrote_nil (st : RewriteState) : st.wrote [] = st := by
  simp [RewriteState.wrote]

theorem RewriteState.wrote_wrote (st : RewriteState) (a b : List ArchiveEntry) :
    (st.wrote a).wrote b = st.wrote (a ++ b) := by
  simp [RewriteState.wrote]

theorem RewriteState.copied_nil (st : RewriteState) : st.copied [] = st := by
  simp [RewriteState.copied]

theorem writeFile_eq (env : LibarchiveEnv) (f : QString) (st : RewriteState) :
    writeFile env f st =
      if env.writeHeader st.headerCodes.length (entryOfPath env f) = ARCHIVE_OK then
        (true,
          { records := st.records ++
              [⟨entryOfPath env f,
                env.writeHeader st.headerCodes.length (entryOfPath env f), true⟩],
            headerCodes := st.headerCodes ++
              [env.writeHeader st.headerCodes.length (entryOfPath env f)],
            signals := st.signals ++ [Signal.entry (entryOfPath env f)],
            m_writtenFiles := st.m_writtenFiles ++ [(entryOfPath env f).pathname] })
      else
        (false,
          { records := st.records,
            headerCodes := st.headerCodes ++
              [env.writeHeader st.headerCodes.length (entryOfPath env f)],
            signals := st.signals ++ [Signal.error],
            m_writtenFiles := st.m_writtenFiles }) := rfl

theorem writeFile_headerCodes (env : LibarchiveEnv) (f : QString) (st : RewriteState) :
    (writeFile env f st).2.headerCodes =
      st.headerCodes ++ [env.writeHeader st.headerCodes.length (entryOfPath env f)] := by
  rw [writeFile_eq]
  split_ifs <;> rfl

theorem writeFile_ok (env : LibarchiveEnv) (f : QString) (st : RewriteState)
    (hcodes : ∀ c ∈ (writeFile env f st).2.headerCodes, c = ARCHIVE_OK) :
    writeFile env f st = (true, st.wrote [entryOfPath env f]) := by
  have hc : env.writeHeader st.headerCodes.length (entryOfPath env f) = ARCHIVE_OK := by
    apply hcodes
    rw [writeFile_headerCodes]
    exact List.mem_append_right _ (List.mem_singleton_self _)
  rw [writeFile_eq, if_pos hc, hc]
  rfl

theorem writeDirectory_cons (env : LibarchiveEnv) (it : DirItem) (rest : List DirItem)
    (st : RewriteState) :
    writeDirectory env (it :: rest) st =
      if it.fileName = "..".toList ∨ it.fileName = ".".toList then
        writeDirectory env rest st
      else if (writeFile env it.writtenPath st).1 = true then
        writeDirectory env rest (writeFile env it.writtenPath st).2
      else (false, (writeFile env it.writtenPath st).2) := by
  rw [writeDirectory]
  by_cases h1 : it.fileName = "..".toList ∨ it.fileName = ".".toList
  · rw [if_pos h1, if_pos h1]
  · rw [if_neg h1, if_neg h1]
    show (match writeFile env it.writtenPath st with
      | (false, st) => (false, st)
      | (true, st) => writeDirectory env rest st) = _
    rcases writeFile env it.writtenPath st with ⟨b, st'⟩
    cases b <;> simp

theorem writeDirectory_headerCodes_mono (env : LibarchiveEnv) (items : List DirItem)
    (st : RewriteState) :
    ∀ c ∈ st.headerCodes, c ∈ (writeDirectory env items st).2.headerCodes := by
  induction items generalizing st with
  | nil => intro c hc; exact hc
  | cons it rest ih =>
    intro c hc
    have hw : c ∈ (writeFile env it.writtenPath st).2.headerCodes := by
      rw [writeFile_headerCodes]
      exact List.mem_append_left _ hc
    rw [writeDirectory_cons]
    split_ifs with h1 h2
    · exact ih _ c hc
    · exact ih _ c hw
    · exact hw

theorem writeDirectory_ok (env : LibarchiveEnv) (items : List DirItem) (st : RewriteState)
    (hcodes : ∀ c ∈ (writeDirectory env items st).2.headerCodes, c = ARCHIVE_OK) :
    writeDirectory env items st = (true, st.wrote ((dirPaths items).map (entryOfPath env))) := by
  induction items generalizing st with
  | nil => simp [writeDirectory, dirPaths, RewriteState.wrote_nil]
  | cons it rest ih =>
    rw [writeDirectory_cons] at hcodes ⊢
    by_cases h1 : it.fileName = "..".toList ∨ it.fileName = ".".toList
    · rw [if_pos h1] at hcodes ⊢
      rw [ih st hcodes, dirPaths, if_pos h1]
    · rw [if_neg h1] at hcodes ⊢
      have hw : ∀ c ∈ (writeFile env it.writtenPath st).2.headerCodes, c = ARCHIVE_OK := by
        intro c hc
        apply hcodes
        split_ifs
        · exact writeDirectory_headerCodes_mono env rest _ c hc
        · exact hc
      rw [writeFile_ok env _ st hw] at hcodes ⊢
      rw [if_pos rfl] at hcodes ⊢
      rw [ih _ hcodes, RewriteState.wrote_wrote, dirPaths, if_neg h1]
      rfl

theorem writeFiles_cons (env : LibarchiveEnv) (f : QString) (rest : List QString)
    (st : RewriteState) :
    writeFiles env (f :: rest) st =
      if (writeFile env f st).1 = true then
        if env.isDir f = true then
          if (writeDirectory env (env.dirEntries f) (writeFile env f st).2).1 = true then
            writeFiles env rest (writeDirectory env (env.dirEntries f) (writeFile env f st).2).2
          else (false, (writeDirectory env (env.dirEntries f) (writeFile env f st).2).2)
        else writeFiles env rest (writeFile env f st).2
      else (false, (writeFile env f st).2) := by
  rw [writeFiles]
  rcases writeFile env f st with ⟨b, st'⟩
  cases b
  · simp
  · by_cases hd : env.isDir f = true
    · simp only [hd, if_true]
      rcases writeDirectory env (env.dirEntries f) st' with ⟨b2, st2⟩
      cases b2 <;> simp
    · simp [hd]

theorem writeFiles_headerCodes_mono (env : LibarchiveEnv) (files : List QString)
    (st : RewriteState) :
    ∀ c ∈ st.headerCodes, c ∈ (writeFiles env files st).2.headerCodes := by
  induction files generalizing st with
  | nil => intro c hc; exact hc
  | cons f rest ih =>
    intro c hc
    have hw : c ∈ (writeFile env f st).2.headerCodes := by
      rw [writeFile_headerCodes]
      exact List.mem_append_left _ hc
    have hd := writeDirectory_headerCodes_mono env (env.dirEntries f) _ c hw
    rw [writeFiles_cons]
    split_ifs
    · exact ih _ c hd
    · exact hd
    · exact ih _ c hw
    · exact hw

theorem writeFiles_ok (env : LibarchiveEnv) (files : List QString) (st : RewriteState)
    (hcodes : ∀ c ∈ (writeFiles env files st).2.headerCodes, c = ARCHIVE_OK) :
    writeFiles env files st = (true, st.wrote (newEntries env files)) := by
  induction files generalizing st with
  | nil => simp [writeFiles, newEntries, RewriteState.wrote_nil]
  | cons f rest ih =>
    rw [writeFiles_cons] at hcodes ⊢
    have hw : ∀ c ∈ (writeFile env f st).2.headerCodes, c = ARCHIVE_OK := by
      intro c hc
      apply hcodes
      have hd := writeDirectory_headerCodes_mono env (env.dirEntries f) _ c hc
      split_ifs
      · exact writeFiles_headerCodes_mono env rest _ c hd
      · exact hd
      · exact writeFiles_headerCodes_mono env rest _ c hc
      · exact hc
    rw [writeFile_ok env f st hw] at hcodes ⊢
    rw [if_pos rfl] at hcodes ⊢
    by_cases hdir : env.isDir f = true
    · rw [if_pos hdir] at hcodes ⊢
      have hd : ∀ c ∈ (writeDirectory env (env.dirEntries f)
          (st.wrote [entryOfPath env f])).2.headerCodes, c = ARCHIVE_OK := by
        intro c hc
        apply hcodes
        split_ifs
        · exact writeFiles_headerCodes_mono env rest _ c hc
        · exact hc
      rw [writeDirectory_ok env _ _ hd] at hcodes ⊢
      rw [if_pos rfl] at hcodes ⊢
      rw [ih _ hcodes, RewriteState.wrote_wrote, RewriteState.wrote_wrote]
      simp [newEntries, inputPaths, hdir, List.flatMap_cons]
    · rw [if_neg hdir] at hcodes ⊢
      rw [ih _ hcodes, RewriteState.wrote_wrote]
      simp [newEntries, inputPaths, hdir, List.flatMap_cons]

theorem copyOldEntries_headerCodes_mono (env : LibarchiveEnv)
    (hs : List (Int × ArchiveEntry)) (st : RewriteState) :
    ∀ c ∈ st.headerCodes, c ∈ (copyOldEntries env hs st).2.headerCodes := by
  induction hs generalizing st with
  | nil => intro c hc; exact hc
  | cons h rest ih =>
    obtain ⟨rc, entry⟩ := h
    intro c hc
    rw [copyOldEntries]
    dsimp only
    split_ifs
    all_goals first
      | exact hc
      | exact List.mem_append_left _ hc
      | (apply ih
         first
           | exact hc
           | exact List.mem_append_left _ hc)

theorem copyOldEntries_ok (env : LibarchiveEnv) (hs : List (Int × ArchiveEntry))
    (st : RewriteState) (hread : ∀ h ∈ hs, h.1 = ARCHIVE_OK)
    (hcodes : ∀ c ∈ (copyOldEntries env hs st).2.headerCodes, c = ARCHIVE_OK) :
    copyOldEntries env hs st =
      (true, st.copied ((hs.map (fun h => h.2)).filter
        (fun e => decide (e.pathname ∉ st.m_writtenFiles)))) := by
  induction hs generalizing st with
  | nil => simp [copyOldEntries, RewriteState.copied_nil]
  | cons h rest ih =>
    obtain ⟨rc, entry⟩ := h
    have hrc : rc = ARCHIVE_OK := hread (rc, entry) (List.mem_cons_self _ _)
    have hrest : ∀ h ∈ rest, h.1 = ARCHIVE_OK := fun h hh => hread h (List.mem_cons_of_mem _ hh)
    rw [copyOldEntries] at hcodes ⊢
    simp only [hrc, ne_eq, not_true_eq_false, if_false] at hcodes ⊢
    by_cases hmem : entry.pathname ∈ st.m_writtenFiles
    · have hc : st.m_writtenFiles.contains entry.pathname = true := by simpa using hmem
      simp only [hc, if_true] at hcodes ⊢
      rw [ih _ hrest hcodes]
      simp [hmem]
    · have hc : st.m_writtenFiles.contains entry.pathname = false := by simpa using hmem
      simp only [hc, Bool.false_eq_true, if_false] at hcodes ⊢
      have hcode : env.writeHeader st.headerCodes.length entry = ARCHIVE_OK := by
        apply hcodes
        split_ifs
        · exact copyOldEntries_headerCodes_mono _ _ _ _
            (List.mem_append_right _ (List.mem_singleton_self _))
        · exact List.mem_append_right _ (List.mem_singleton_self _)
        · exact copyOldEntries_headerCodes_mono _ _ _ _
            (List.mem_append_right _ (List.mem_singleton_self _))
      simp only [hcode, if_true] at hcodes ⊢
      rw [ih _ hrest hcodes]
      simp [hmem, RewriteState.copied, WrittenRecord.ok]

theorem addFilesWrite_eq (env : LibarchiveEnv) (files : List QString) (filter : WriteFilter)
    (st : RewriteState) :
    addFilesWrite env files filter st =
      if env.writeOpenFd ≠ ARCHIVE_OK then Outcome.failed env st.emitError
      else if (writeFiles env files st).1 = true then
        if env.fileExists = true then
          if (copyOldEntries env env.headers (writeFiles env files st).2).1 = true then
            { ret := true,
              realPath := PathState.committed filter
                (copyOldEntries env env.headers (writeFiles env files st).2).2.records,
              signals := (copyOldEntries env env.headers (writeFiles env files st).2).2.signals,
              headerCodes :=
                (copyOldEntries env env.headers (writeFiles env files st).2).2.headerCodes }
          else
            { ret := false,
              realPath := QFile.remove env (QSaveFile.fileName env) env.initialPath,
              signals := (copyOldEntries env env.headers (writeFiles env files st).2).2.signals,
              headerCodes :=
                (copyOldEntries env env.headers (writeFiles env files st).2).2.headerCodes }
        else
          { ret := true,
            realPath := PathState.committed filter (writeFiles env files st).2.records,
            signals := (writeFiles env files st).2.signals,
            headerCodes := (writeFiles env files st).2.headerCodes }
      else Outcome.failed env (writeFiles env files st).2 := by
  unfold addFilesWrite
  by_cases ho : env.writeOpenFd ≠ ARCHIVE_OK
  · rw [if_pos ho, if_pos ho]
  · rw [if_neg ho, if_neg ho]
    rcases writeFiles env files st with ⟨b, st'⟩
    cases b
    · simp
    · by_cases he : env.fileExists = true
      · simp only [he, if_true]
        rcases copyOldEntries env env.headers st' with ⟨b2, st2⟩
        cases b2 <;> simp
      · simp [he]

theorem addFilesWrite_ok (env : LibarchiveEnv) (files : List QString) (filter : WriteFilter)
    (st : RewriteState) (hopen : env.writeOpenFd = ARCHIVE_OK)
    (hread : env.fileExists = true → ∀ h ∈ env.headers, h.1 = ARCHIVE_OK)
    (hcodes : ∀ c ∈ (addFilesWrite env files filter st).headerCodes, c = ARCHIVE_OK) :
    addFilesWrite env files filter st =
      { ret := true,
        realPath := PathState.committed filter
          (((st.wrote (newEntries env files)).copied
            (env.oldEntries.filter (fun e =>
              decide (e.pathname ∉ (st.wrote (newEntries env files)).m_writtenFiles)))).records),
        signals := st.signals ++ (newEntries env files).map Signal.entry,
        headerCodes :=
          ((st.wrote (newEntries env files)).copied
            (env.oldEntries.filter (fun e =>
              decide (e.pathname ∉ (st.wrote (newEntries env files)).m_writtenFiles)))).headerCodes } := by
  rw [addFilesWrite_eq] at hcodes ⊢
  rw [if_neg (by simp [hopen])] at hcodes ⊢
  have hw : ∀ c ∈ (writeFiles env files st).2.headerCodes, c = ARCHIVE_OK := by
    intro c hc
    apply hcodes
    have hm := copyOldEntries_headerCodes_mono env env.headers _ c hc
    split_ifs
    · exact hm
    · exact hm
    · exact hc
    · exact hc
  rw [writeFiles_ok env files st hw] at hcodes ⊢
  rw [if_pos rfl] at hcodes ⊢
  by_cases he : env.fileExists = true
  · rw [if_pos he] at hcodes ⊢
    have hcp : ∀ c ∈ (copyOldEntries env env.headers
        (st.wrote (newEntries env files))).2.headerCodes, c = ARCHIVE_OK := by
      intro c hc
      apply hcodes
      split_ifs <;> exact hc
    rw [copyOldEntries_ok env env.headers _ (hread he) hcp]
    rw [if_pos rfl]
    simp [LibarchiveEnv.oldEntries, he, RewriteState.copied, RewriteState.wrote]
  · rw [if_neg he]
    simp [LibarchiveEnv.oldEntries, he, RewriteState.copied, RewriteState.wrote]

theorem addFiles_eq_write (env : LibarchiveEnv) (files : List QString) (filter : WriteFilter)
    (hfilter : env.addFilter? = some filter) (hsetup : env.addSetupOk filter) :
    addFiles env files = addFilesWrite env files filter RewriteState.empty := by
  obtain ⟨s1, s2, s3, s4, s5⟩ := hsetup
  unfold LibarchiveEnv.addFilter? at hfilter
  unfold addFiles
  cases he : env.fileExists with
  | false =>
    rw [he] at hfilter
    simp only [Bool.false_eq_true, if_false, Option.some.injEq] at hfilter
    simp [s2, s3, hfilter, s4]
  | true =>
    rw [he] at hfilter
    simp only [if_true] at hfilter
    obtain ⟨r1, r2, r3, r4⟩ := s1 he
    simp [s2, s3, s4, r1, r2, r3, r4, hfilter]

/-- C2. `addFiles` on an old archive whose headers are all read with
`ARCHIVE_OK` (or on no archive, which stands for no old entries), the steps
before the write phase succeeding: if every call of `archive_write_header`
returns `ARCHIVE_OK`, it returns true and commits an archive whose entries are
those written for the inputs (each input, then its directory descendants in
the order of the iterator) followed by the old entries whose name is not in
`m_writtenFiles`, in their order. So no old entry that is kept bears the name
of a written entry, and with no input the entries are the old ones. -/
theorem addFiles_adds_and_replaces (env : LibarchiveEnv) (files : List QString)
    (filter : WriteFilter)
    (hfilter : env.addFilter? = some filter)
    (hsetup : env.addSetupOk filter)
    (hread : env.fileExists = true → ∀ h ∈ env.headers, h.1 = ARCHIVE_OK)
    (hcodes : ∀ c ∈ (addFiles env files).headerCodes, c = ARCHIVE_OK) :
    (addFiles env files).ret = true
    ∧ (addFiles env files).realPath =
        PathState.committed filter
          ((newEntries env files ++
              env.oldEntries.filter (fun e =>
                decide (e.pathname ∉ (newEntries env files).map (fun n => n.pathname)))).map
            WrittenRecord.ok)
    ∧ (∀ e ∈ env.oldEntries.filter (fun e =>
          decide (e.pathname ∉ (newEntries env files).map (fun n => n.pathname))),
        ∀ n ∈ newEntries env files, e.pathname ≠ n.pathname)
    ∧ (addFiles env files).signals = (newEntries env files).map Signal.entry
    ∧ (files = [] →
        (addFiles env files).realPath =
          PathState.committed filter (env.oldEntries.map WrittenRecord.ok)) := by
  have hw := addFiles_eq_write env files filter hfilter hsetup
  rw [hw] at hcodes
  have hok := addFilesWrite_ok env files filter RewriteState.empty hsetup.2.2.2.2 hread hcodes
  have hpath : (addFiles env files).realPath =
      PathState.committed filter
        ((newEntries env files ++
            env.oldEntries.filter (fun e =>
              decide (e.pathname ∉ (newEntries env files).map (fun n => n.pathname)))).map
          WrittenRecord.ok) := by
    rw [hw, hok]
    simp [RewriteState.copied, RewriteState.wrote, RewriteState.empty]
  refine ⟨?_, hpath, ?_, ?_, ?_⟩
  · rw [hw, hok]
  · intro e he n hn heq
    have := (List.mem_filter.mp he).2
    simp only [decide_eq_true_eq] at this
    exact this (List.mem_map.mpr ⟨n, hn, heq.symm⟩)
  · rw [hw, hok]
    simp [RewriteState.empty]
  · intro hf
    rw [hpath, hf]
    simp [newEntries]

/-- C2, at a sample input: adding the file `b` and the directory `d` (which
holds `d/e`) to the archive `a`, `b`, `c` commits the new `b`, `d`, `d/e`
followed by the old `a` and `c`. -/
theorem addFiles_adds_and_replaces_witness :
    (addFiles sampleEnv ["b".toList, "d".toList]).ret = true
    ∧ (addFiles sampleEnv ["b".toList, "d".toList]).realPath =
        PathState.committed WriteFilter.gzip
          [WrittenRecord.ok ⟨"b".toList, 7⟩, WrittenRecord.ok ⟨"d".toList, 7⟩,
           WrittenRecord.ok ⟨"d/e".toList, 7⟩, WrittenRecord.ok ⟨"a".toList, 1⟩,
           WrittenRecord.ok ⟨"c".toList, 3⟩] := by
  have h := addFiles_adds_and_replaces sampleEnv ["b".toList, "d".toList] WriteFilter.gzip
    (by decide) ⟨fun _ => ⟨rfl, rfl, rfl, rfl⟩, rfl, rfl, rfl, rfl⟩ (fun _ => by decide)
    (by decide)
  exact ⟨h.1, h.2.1.trans (by decide)⟩

/-- Every `return false` of `deleteFiles` leaves the archive's path as it
was. -/
theorem deleteFiles_failure_keeps_archive (env : LibarchiveEnv) (files : List QString)
    (h : (deleteFiles env files).ret = false) :
    (deleteFiles env files).realPath = env.initialPath := by
  unfold deleteFiles at h ⊢
  dsimp only at h ⊢
  split_ifs at h ⊢
  all_goals first
    | rfl
    | (split at h
       · rfl
       · split_ifs at h ⊢
         all_goals first
           | rfl
           | (split at h
              · rfl
              · simp at h))

/-- C3, at the input where it fails: the archive `a`, `b`, `c` exists, nothing
is to be added, and `archive_write_header` answers `ARCHIVE_FAILED` for the
first old entry carried forward. `addFiles` returns false, and
`QFile::remove(tempFile.fileName())` has removed the archive itself; on the
same failure `deleteFiles` returns false and leaves the archive in place. -/
theorem addFiles_failure_removes_archive :
    ({ sampleEnv with writeHeader := fun _ _ => ARCHIVE_FAILED } : LibarchiveEnv).initialPath
        = PathState.original
    ∧ (addFiles { sampleEnv with writeHeader := fun _ _ => ARCHIVE_FAILED } []).ret = false
    ∧ (addFiles { sampleEnv with writeHeader := fun _ _ => ARCHIVE_FAILED } []).realPath
        = PathState.absent
    ∧ (deleteFiles { sampleEnv with writeHeader := fun _ _ => ARCHIVE_FAILED } []).ret = false
    ∧ (deleteFiles { sampleEnv with writeHeader := fun _ _ => ARCHIVE_FAILED } []).realPath
        = PathState.original := by
  decide

/-- C4, at the inputs where it fails: for an archive compressed with
`compress`, lzip, lzop or lrzip the `switch` of `deleteFiles` takes its
`default:` branch (unsupported compression) while the `switch` of `addFiles`
adds the matching write filter; for every other filter code the two agree. On
the sample archive with the filter code of `compress`, `deleteFiles` fails with
an error and `addFiles` succeeds. -/
theorem deleteFiles_rejects_filters_addFiles_accepts :
    (deleteFilesFilter ARCHIVE_FILTER_COMPRESS = none
      ∧ addFilesFilter ARCHIVE_FILTER_COMPRESS = some WriteFilter.compress)
    ∧ (deleteFilesFilter ARCHIVE_FILTER_LZIP = none
      ∧ addFilesFilter ARCHIVE_FILTER_LZIP = some WriteFilter.lzip)
    ∧ (deleteFilesFilter ARCHIVE_FILTER_LZOP = none
      ∧ addFilesFilter ARCHIVE_FILTER_LZOP = some WriteFilter.lzop)
    ∧ (deleteFilesFilter ARCHIVE_FILTER_LRZIP = none
      ∧ addFilesFilter ARCHIVE_FILTER_LRZIP = some WriteFilter.lrzip)
    ∧ (∀ code : Int, code ≠ ARCHIVE_FILTER_COMPRESS → code ≠ ARCHIVE_FILTER_LZIP →
        code ≠ ARCHIVE_FILTER_LZOP → code ≠ ARCHIVE_FILTER_LRZIP →
          deleteFilesFilter code = addFilesFilter code)
    ∧ (deleteFiles { sampleEnv with filterCode := ARCHIVE_FILTER_COMPRESS } []).ret = false
    ∧ (deleteFiles { sampleEnv with filterCode := ARCHIVE_FILTER_COMPRESS } []).signals
        = [Signal.error]
    ∧ (addFiles { sampleEnv with filterCode := ARCHIVE_FILTER_COMPRESS } []).ret = true := by
  refine ⟨by decide, by decide, by decide, by decide, ?_, by decide, by decide, by decide⟩
  intro code h1 h2 h3 h4
  unfold deleteFilesFilter addFilesFilter
  simp only [h1, h2, h3, h4, if_false]

/-! ### Soft parse errors of the listing -/

theorem handleLine_shellOutput (hdr : QCString) (pl : QCString → Bool) (st : TocState) :
    (handleLine hdr pl st).shellOutput = st.shellOutput := by
  unfold handleLine
  simp only
  split_ifs <;> rfl

theorem scanBytes_shellOutput (hdr : QCString) (pl : QCString → Bool) (r : List Char)
    (st : TocState) (seg : List Char) :
    (scanBytes hdr pl st seg r).1.shellOutput = st.shellOutput := by
  induction r generalizing st seg with
  | nil => rfl
  | cons c r ih =>
    cases hf : st.m_finished with
    | true => rw [scanBytes_finished _ _ _ _ _ hf]
    | false =>
      by_cases hc : c = '\n'
      · subst hc
        rw [scanBytes_cons_newline _ _ _ _ _ hf, ih, handleLine_shellOutput]
        rfl
      · rw [scanBytes_cons_other _ _ _ _ _ _ hf hc, ih]

theorem handleLine_empty_header (pl : QCString → Bool) (st : TocState) :
    handleLine [] pl st =
      { st with m_buffer := [], log := st.log ++ [LineEvent.mk st.m_buffer true] } := by
  simp [handleLine]

theorem scanBytes_empty_header_flags (pl : QCString → Bool) (r : List Char)
    (st : TocState) (seg : List Char) :
    (scanBytes [] pl st seg r).1.m_header_removed = st.m_header_removed
    ∧ (scanBytes [] pl st seg r).1.m_finished = st.m_finished
    ∧ (scanBytes [] pl st seg r).1.m_error = st.m_error := by
  induction r generalizing st seg with
  | nil => exact ⟨rfl, rfl, rfl⟩
  | cons c r ih =>
    cases hf : st.m_finished with
    | true =>
      rw [scanBytes_finished _ _ _ _ _ hf]
      exact ⟨rfl, hf, rfl⟩
    | false =>
      by_cases hc : c = '\n'
      · subst hc
        rw [scanBytes_cons_newline _ _ _ _ _ hf]
        obtain ⟨h1, h2, h3⟩ := ih (handleLine [] pl (st.appendBuffer seg)) []
        rw [handleLine_empty_header] at h1 h2 h3
        exact ⟨h1, h2.trans hf, h3⟩
      · rw [scanBytes_cons_other _ _ _ _ _ _ hf hc]
        obtain ⟨h1, h2, h3⟩ := ih st (seg ++ [c])
        exact ⟨h1, h2.trans hf, h3⟩

theorem slotReceivedTOC_flags_eq (hdr : QCString) (pl : QCString → Bool) (st : TocState)
    (data : List Char) :
    (slotReceivedTOC hdr pl st data).m_header_removed
        = (scanBytes hdr pl st [] data).1.m_header_removed
    ∧ (slotReceivedTOC hdr pl st data).m_finished
        = (scanBytes hdr pl st [] data).1.m_finished
    ∧ (slotReceivedTOC hdr pl st data).m_error
        = (scanBytes hdr pl st [] data).1.m_error := by
  rw [slotReceivedTOC_eq]
  unfold appendRest TocState.appendShellOutputData TocState.appendBuffer
  simp only
  split_ifs <;> exact ⟨rfl, rfl, rfl⟩

theorem feedChunks_empty_header_flags (pl : QCString → Bool) (chunks : List (List Char))
    (st : TocState) :
    (feedChunks [] pl st chunks).m_header_removed = st.m_header_removed
    ∧ (feedChunks [] pl st chunks).m_finished = st.m_finished
    ∧ (feedChunks [] pl st chunks).m_error = st.m_error := by
  induction chunks generalizing st with
  | nil => exact ⟨rfl, rfl, rfl⟩
  | cons c cs ih =>
    obtain ⟨h1, h2, h3⟩ := ih (slotReceivedTOC [] pl st c)
    obtain ⟨g1, g2, g3⟩ := slotReceivedTOC_flags_eq [] pl st c
    obtain ⟨k1, k2, k3⟩ := scanBytes_empty_header_flags pl c st []
    exact ⟨h1.trans (g1.trans k1), h2.trans (g2.trans k2), h3.trans (g3.trans k3)⟩

theorem isEmpty_of_ne_nil (hdr : QCString) (hne : hdr ≠ []) : hdr.isEmpty = false := by
  cases hdr with
  | nil => exact absurd rfl hne
  | cons a l => rfl

/-- What the segmenter does with a completed line that is dispatched after the
header and fails to parse. -/
theorem handleLine_parse_failure (hdr : QCString) (hne : hdr ≠ []) (pl : QCString → Bool)
    (st : TocState) (hf : st.m_finished = false) (hr : st.m_header_removed = true)
    (hm : ¬ hdr <:+: st.m_buffer) (hfail : pl st.m_buffer = false) :
    handleLine hdr pl st =
      { st with m_buffer := [], m_header_removed := false, m_error := true,
                log := st.log ++ [LineEvent.mk st.m_buffer true] } := by
  simp [handleLine, isEmpty_of_ne_nil hdr hne, hm, hr, hf, hfail]

theorem slotReceivedTOC_first_line (hdr : QCString) (pl : QCString → Bool) (st : TocState)
    (line rest : List Char) (hf : st.m_finished = false) (hline : ∀ c ∈ line, c ≠ '\n') :
    slotReceivedTOC hdr pl st (line ++ '\n' :: rest) =
      { slotReceivedTOC hdr pl (handleLine hdr pl (st.appendBuffer line)) rest with
        shellOutput := st.shellOutput ++ cstr (line ++ '\n' :: rest) } := by
  rw [slotReceivedTOC_eq, slotReceivedTOC_eq,
    scanBytes_no_newline hdr pl line st [] _ hline hf, List.nil_append,
    scanBytes_cons_newline _ _ _ _ _ hf]
  have hso : (appendRest (scanBytes hdr pl (handleLine hdr pl (st.appendBuffer line)) []
      rest)).shellOutput = st.shellOutput := by
    have h1 := scanBytes_shellOutput hdr pl rest (handleLine hdr pl (st.appendBuffer line)) []
    rw [handleLine_shellOutput] at h1
    unfold appendRest
    split_ifs
    · exact h1
    · exact h1
  simp only [TocState.appendShellOutputData, hso]

/-- C11. With a non-empty header marker, a line that is dispatched after the
header was seen and fails to parse reverts `m_header_removed`, sets `m_error`
and leaves `m_finished` unset, and the rest of the chunk and the later chunks
are processed from that state as they would be otherwise: the listing is not
aborted. With an empty header marker no chunk changes any of the three flags,
whatever `processLine` returns. -/
theorem slotReceivedTOC_soft_parse_error (hdr : QCString) (pl : QCString → Bool)
    (st : TocState) :
    (hdr ≠ [] → st.m_finished = false → st.m_header_removed = true →
      ∀ line rest : List Char, (∀ c ∈ line, c ≠ '\n') →
        ¬ hdr <:+: st.m_buffer ++ cstr line → pl (st.m_buffer ++ cstr line) = false →
          slotReceivedTOC hdr pl st (line ++ '\n' :: rest) =
            { slotReceivedTOC hdr pl
                { st with m_buffer := [], m_header_removed := false, m_error := true,
                          log := st.log ++ [LineEvent.mk (st.m_buffer ++ cstr line) true] }
                rest with
              shellOutput := st.shellOutput ++ cstr (line ++ '\n' :: rest) }
          ∧ ∀ later : List (List Char),
              feedChunks hdr pl st ((line ++ '\n' :: rest) :: later) =
                feedChunks hdr pl
                  { slotReceivedTOC hdr pl
                      { st with m_buffer := [], m_header_removed := false, m_error := true,
                                log := st.log ++ [LineEvent.mk (st.m_buffer ++ cstr line) true] }
                      rest with
                    shellOutput := st.shellOutput ++ cstr (line ++ '\n' :: rest) }
                  later)
    ∧ (hdr = [] → ∀ chunks : List (List Char),
        (feedChunks hdr pl st chunks).m_header_removed = st.m_header_removed
        ∧ (feedChunks hdr pl st chunks).m_finished = st.m_finished
        ∧ (feedChunks hdr pl st chunks).m_error = st.m_error) := by
  constructor
  · intro hne hf hr line rest hline hm hfail
    have hstep : slotReceivedTOC hdr pl st (line ++ '\n' :: rest) =
        { slotReceivedTOC hdr pl
            { st with m_buffer := [], m_header_removed := false, m_error := true,
                      log := st.log ++ [LineEvent.mk (st.m_buffer ++ cstr line) true] }
            rest with
          shellOutput := st.shellOutput ++ cstr (line ++ '\n' :: rest) } := by
      rw [slotReceivedTOC_first_line hdr pl st line rest hf hline,
        handleLine_parse_failure hdr hne pl (st.appendBuffer line) hf hr hm hfail]
      rfl
    refine ⟨hstep, fun later => ?_⟩
    show feedChunks hdr pl (slotReceivedTOC hdr pl st (line ++ '\n' :: rest)) later = _
    rw [hstep]
  · intro he chunks
    subst he
    exact feedChunks_empty_header_flags pl chunks st

/-- C11, at a sample input: with the marker `--` seen, the line `bad` fails to
parse; the header flag is reverted, the error flag set, the listing not
finished, and the following lines `x` and `--` are still processed (`--` is
taken as the header again). -/
theorem slotReceivedTOC_soft_parse_error_witness :
    slotReceivedTOC "--".toList (fun l => decide (l ≠ "bad".toList))
        { TocState.initial false with m_header_removed := true } "bad\nx\n--\n".toList =
      { m_buffer := [], m_header_removed := true, m_finished := false, m_error := true,
        shellOutput := "bad\nx\n--\n".toList,
        log := [LineEvent.mk "bad".toList true, LineEvent.mk "x".toList false,
                LineEvent.mk "--".toList false] } :=
  (((slotReceivedTOC_soft_parse_error "--".toList (fun l => decide (l ≠ "bad".toList))
      { TocState.initial false with m_header_removed := true }).1
      (by decide) rfl rfl "bad".toList "x\n--\n".toList (by decide) (by decide)
      (by decide)).1).trans (by decide)

/-- While the header is awaited, lines without the marker are completed but
not dispatched. -/
theorem scanBytes_header_pending (hdr : QCString) (hne : hdr ≠ []) (pl : QCString → Bool)
    (r : List Char) (st : TocState) (seg : List Char)
    (hf : st.m_finished = false) (hr : st.m_header_removed = false)
    (hseg : ∀ c ∈ seg, c ≠ '\x00') (hnul : ∀ c ∈ r, c ≠ '\x00')
    (hfree : ∀ l ∈ completeLines (st.m_buffer ++ seg) r, ¬ hdr <:+: l) :
    (scanBytes hdr pl st seg r).1.log =
        st.log ++ (completeLines (st.m_buffer ++ seg) r).map (fun l => LineEvent.mk l false)
    ∧ (scanBytes hdr pl st seg r).1.m_header_removed = false
    ∧ (scanBytes hdr pl st seg r).1.m_finished = false := by
  induction r generalizing st seg with
  | nil => simp [scanBytes, completeLines, hf, hr]
  | cons c r ih =>
    have hnul' : ∀ x ∈ r, x ≠ '\x00' := fun x hx => hnul x (List.mem_cons_of_mem _ hx)
    by_cases hc : c = '\n'
    · subst hc
      rw [scanBytes_cons_newline _ _ _ _ _ hf]
      have hcs : cstr seg = seg := cstr_of_nul_free seg hseg
      have hm : ¬ hdr <:+: st.m_buffer ++ seg := by
        apply hfree
        simp [completeLines]
      have hstep : handleLine hdr pl (st.appendBuffer seg) =
          { st with m_buffer := [], log := st.log ++ [LineEvent.mk (st.m_buffer ++ seg) false] } := by
        simp [handleLine, isEmpty_of_ne_nil hdr hne, hm, hr, TocState.appendBuffer, hcs]
      rw [hstep]
      have hfree' : ∀ l ∈ completeLines ([] ++ []) r, ¬ hdr <:+: l := by
        intro l hl
        apply hfree
        simp only [completeLines, if_true, List.mem_cons]
        exact Or.inr (by simpa using hl)
      obtain ⟨h1, h2, h3⟩ := ih
        { st with m_buffer := [], log := st.log ++ [LineEvent.mk (st.m_buffer ++ seg) false] }
        [] hf hr (by simp) hnul' hfree'
      refine ⟨?_, h2, h3⟩
      rw [h1]
      simp [completeLines]
    · rw [scanBytes_cons_other _ _ _ _ _ _ hf hc]
      have hseg' : ∀ x ∈ seg ++ [c], x ≠ '\x00' := by
        intro x hx
        rcases List.mem_append.mp hx with h | h
        · exact hseg x h
        · simp only [List.mem_singleton] at h
          exact h ▸ hnul c (List.mem_cons_self _ _)
      have hfree' : ∀ l ∈ completeLines (st.m_buffer ++ (seg ++ [c])) r, ¬ hdr <:+: l := by
        intro l hl
        apply hfree
        simpa [completeLines, hc, List.append_assoc] using hl
      obtain ⟨h1, h2, h3⟩ := ih st (seg ++ [c]) hf hr hseg' hnul' hfree'
      refine ⟨?_, h2, h3⟩
      rw [h1]
      simp [completeLines, hc, List.append_assoc]

/-- C12, refuted as stated: with the marker `--`, the listing `--`, `bad`,
`good`, `--` in which only `bad` fails to parse. The line `good` parses and
lies between the two marker lines, but it is never handed to `processLine`:
the failure of `bad` has reverted the header flag, and the second marker line
is taken for the header. -/
theorem slotReceivedTOC_failure_hides_later_lines :
    (fun l : QCString => decide (l ≠ "bad".toList)) "good".toList = true
    ∧ (feedChunks "--".toList (fun l => decide (l ≠ "bad".toList)) (TocState.initial false)
        ["--\nbad\ngood\n--\n".toList]).log =
      [LineEvent.mk "--".toList false, LineEvent.mk "bad".toList true,
       LineEvent.mk "good".toList false, LineEvent.mk "--".toList false]
    ∧ (feedChunks "--".toList (fun l => decide (l ≠ "bad".toList)) (TocState.initial false)
        ["--\nbad\ngood\n--\n".toList]).m_finished = false := by
  decide

/-- C12, amended. With no header marker a line that fails to parse costs only
that line: every newline-terminated line of an output without NUL bytes is
handed to `processLine`, whatever happened to the lines before it. With a
header marker, a dispatched line that fails to parse reverts the header flag;
from then on the lines that do not hold the marker are completed without being
parsed, and the next line that holds the marker is taken as the header (it
sets the header flag and does not finish the listing). -/
theorem slotReceivedTOC_parse_failure_cost (hdr : QCString) (pl : QCString → Bool)
    (st : TocState) (data : List Char) (hnul : ∀ c ∈ data, c ≠ '\x00')
    (hf : st.m_finished = false) :
    (hdr = [] →
      (slotReceivedTOC hdr pl st data).log =
        st.log ++ (completeLines st.m_buffer data).map (fun l => LineEvent.mk l true))
    ∧ (hdr ≠ [] → st.m_header_removed = true → ¬ hdr <:+: st.m_buffer →
        pl st.m_buffer = false →
          (handleLine hdr pl st).m_header_removed = false
          ∧ (handleLine hdr pl st).m_finished = false
          ∧ (handleLine hdr pl st).log = st.log ++ [LineEvent.mk st.m_buffer true])
    ∧ (hdr ≠ [] → st.m_header_removed = false →
        (∀ l ∈ completeLines st.m_buffer data, ¬ hdr <:+: l) →
          (slotReceivedTOC hdr pl st data).log =
              st.log ++ (completeLines st.m_buffer data).map (fun l => LineEvent.mk l false)
          ∧ (slotReceivedTOC hdr pl st data).m_header_removed = false
          ∧ (slotReceivedTOC hdr pl st data).m_finished = false)
    ∧ (hdr ≠ [] → st.m_header_removed = false → hdr <:+: st.m_buffer →
        (handleLine hdr pl st).m_header_removed = true
        ∧ (handleLine hdr pl st).m_finished = false
        ∧ (handleLine hdr pl st).log = st.log ++ [LineEvent.mk st.m_buffer false]) := by
  refine ⟨?_, ?_, ?_, ?_⟩
  · intro he
    subst he
    rw [slotReceivedTOC_log_eq]
    have := (scanBytes_empty_header pl data st [] hf (by simp) hnul).1
    rw [List.append_nil] at this
    exact this
  · intro hne hr hm hfail
    simp [handleLine, isEmpty_of_ne_nil hdr hne, hm, hr, hf, hfail]
  · intro hne hr hfree
    have := scanBytes_header_pending hdr hne pl data st [] hf hr (by simp) hnul
      (by rw [List.append_nil]; exact hfree)
    rw [List.append_nil] at this
    rw [slotReceivedTOC_log_eq, slotReceivedTOC_m_header_removed_eq,
      slotReceivedTOC_m_finished_eq]
    exact this
  · intro hne hr hm
    simp [handleLine, isEmpty_of_ne_nil hdr hne, hm, hr, hf]

/-- C12 as amended, at sample inputs: with no marker the lines `bad` and
`good` are both dispatched; with the marker `--` awaited, `good` and `fine` are
completed without being dispatched. -/
theorem slotReceivedTOC_parse_failure_cost_witness :
    (slotReceivedTOC [] (fun l => decide (l ≠ "bad".toList)) (TocState.initial false)
        "bad\ngood\n".toList).log
      = [LineEvent.mk "bad".toList true, LineEvent.mk "good".toList true]
    ∧ (slotReceivedTOC "--".toList (fun l => decide (l ≠ "bad".toList))
        (TocState.initial false) "good\nfine\n".toList).log
      = [LineEvent.mk "good".toList false, LineEvent.mk "fine".toList false] :=
  ⟨((slotReceivedTOC_parse_failure_cost [] (fun l => decide (l ≠ "bad".toList))
      (TocState.initial false) "bad\ngood\n".toList (by decide) rfl).1 rfl).trans (by decide),
   (((slotReceivedTOC_parse_failure_cost "--".toList (fun l => decide (l ≠ "bad".toList))
      (TocState.initial false) "good\nfine\n".toList (by decide) rfl).2.2.1
      (by decide) rfl (by decide)).1).trans (by decide)⟩

/-! ### The end of the external tool -/

/-- C13, at the input where it fails: the captured text `error` (and a typical
message holding the word) is not taken for an error, because the keyword
searched for is `eror`; a tool that exits with status 0 after printing `error`
is reported as having succeeded by the extract, add and delete slots. The
function answers true exactly for the texts that hold `eror`. -/
theorem stderrIsError_misses_error :
    stderrIsError "error".toList = false
    ∧ stderrIsError "tar: error: cannot open archive".toList = false
    ∧ slotExtractExited "error".toList false ⟨true, 0⟩ = [ArchEvent.sigExtract true]
    ∧ slotAddExited "error".toList false ⟨true, 0⟩ = [ArchEvent.sigAdd true]
    ∧ slotDeleteExited "error".toList true ⟨true, 0⟩ = [ArchEvent.sigDelete true]
    ∧ stderrIsError "eror".toList = true
    ∧ ∀ text : QString, stderrIsError text = true ↔ "eror".toList <:+: text := by
  refine ⟨by decide, by decide, by decide, by decide, by decide, by decide, ?_⟩
  intro text
  simp [stderrIsError]

/-- C14. `slotExtractExited` emits the single signal `sigExtract(b)` and
`slotAddExited` the single signal `sigAdd(b)`, where `b` holds exactly when
the process exited normally, its exit status is 0 and `stderrIsError()` is
false; with exit status 1 both report failure. -/
theorem slotExtractExited_slotAddExited_success (m_shellErrorData : QString)
    (answerYes : Bool) (_kp : KProcess) :
    (slotExtractExited m_shellErrorData answerYes _kp).filter ArchEvent.isSignal =
        [ArchEvent.sigExtract
          (_kp.normalExit && decide (_kp.exitStatus = 0) && !stderrIsError m_shellErrorData)]
    ∧ (slotAddExited m_shellErrorData answerYes _kp).filter ArchEvent.isSignal =
        [ArchEvent.sigAdd
          (_kp.normalExit && decide (_kp.exitStatus = 0) && !stderrIsError m_shellErrorData)]
    ∧ (slotExtractExited m_shellErrorData answerYes ⟨_kp.normalExit, 1⟩).filter
        ArchEvent.isSignal = [ArchEvent.sigExtract false]
    ∧ (slotAddExited m_shellErrorData answerYes ⟨_kp.normalExit, 1⟩).filter
        ArchEvent.isSignal = [ArchEvent.sigAdd false] := by
  unfold slotExtractExited slotAddExited
  cases _kp.normalExit <;> cases stderrIsError m_shellErrorData <;> cases answerYes <;>
    by_cases h : _kp.exitStatus = 0 <;> simp [h, ArchEvent.isSignal]

/-- C15, refuted as stated: with `m_bNotifyWhenDeleteFails` false, a tool that
did not exit normally, or that exited with status 2, is reported with
`sigDelete(true)`. -/
theorem slotDeleteExited_failure_reported_as_success :
    slotDeleteExited [] false ⟨false, 0⟩ = [ArchEvent.sigDelete true]
    ∧ slotDeleteExited [] false ⟨true, 2⟩ = [ArchEvent.sigDelete true] := by
  decide

/-- C15, amended. `slotDeleteExited` emits the single signal `sigDelete(b)`.
After a normal exit with status 0, `b` holds exactly when `stderrIsError()` is
false. After any other exit, `b` is false when `m_bNotifyWhenDeleteFails` is
set, and true when it is not. -/
theorem slotDeleteExited_signal (m_shellErrorData : QString)
    (m_bNotifyWhenDeleteFails : Bool) (_kp : KProcess) :
    (slotDeleteExited m_shellErrorData m_bNotifyWhenDeleteFails _kp).filter
        ArchEvent.isSignal =
      [ArchEvent.sigDelete
        (if _kp.normalExit = true ∧ _kp.exitStatus = 0 then !stderrIsError m_shellErrorData
         else !m_bNotifyWhenDeleteFails)] := by
  unfold slotDeleteExited
  cases _kp.normalExit <;> cases stderrIsError m_shellErrorData <;>
    cases m_bNotifyWhenDeleteFails <;>
    by_cases h : _kp.exitStatus = 0 <;> simp [h, ArchEvent.isSignal]

/-- C16. `slotOpenExited` reports success exactly when the process exited
normally with exit status 0 or 1: it then emits `sigOpen` with the archive's
file name and the flags Extract, Delete, Add, View, and otherwise `sigOpen`
with a null file name and no flag. In particular a process that did not exit
normally is a failure whatever its status. The captured error text is not an
input of the slot. -/
theorem slotOpenExited_spec (m_filename : QString) (_kp : KProcess) :
    slotOpenExited m_filename _kp =
        (if _kp.normalExit = true ∧ (_kp.exitStatus = 0 ∨ _kp.exitStatus = 1) then
          [ArchEvent.sigOpen true (some m_filename)
            [Capability.Extract, Capability.Delete, Capability.Add, Capability.View]]
         else [ArchEvent.sigOpen false none []])
    ∧ slotOpenExited m_filename ⟨false, _kp.exitStatus⟩ = [ArchEvent.sigOpen false none []]
    ∧ slotOpenExited m_filename ⟨true, 1⟩ =
        [ArchEvent.sigOpen true (some m_filename)
          [Capability.Extract, Capability.Delete, Capability.Add, Capability.View]] := by
  refine ⟨?_, ?_, ?_⟩
  · unfold slotOpenExited
    cases hn : _kp.normalExit
    · simp
    · by_cases h1 : _kp.exitStatus = 1
      · simp [h1]
      · by_cases h0 : _kp.exitStatus = 0
        · simp [h0]
        · have h1' : ¬ (1 = _kp.exitStatus) := fun h => h1 h.symm
          simp [h0, h1, h1']
  · simp [slotOpenExited]
  · simp [slotOpenExited]

/-! ### The filter of a new archive -/

theorem QString.toUpper_right (s : QString) (n : Nat) :
    (s.right n).toUpper = s.toUpper.right n := by
  simp [QString.toUpper, QString.right, List.map_drop]

theorem suffix_exclusive (a b u : QString) (h₁ : ¬ a <:+ b) (h₂ : ¬ b <:+ a)
    (ha : a <:+ u) : ¬ b <:+ u := by
  intro hb
  rcases List.suffix_or_suffix_of_suffix ha hb with h | h
  · exact h₁ h
  · exact h₂ h

/-- The filter of a new archive, read off the upper-cased file name. -/
theorem newFileFilter_eq (filename : QString) :
    newFileFilter filename =
      if "GZ".toList <:+ filename.toUpper then WriteFilter.gzip
      else if "BZ2".toList <:+ filename.toUpper then WriteFilter.bzip2
      else if "XZ".toList <:+ filename.toUpper then WriteFilter.xz
      else if "LZMA".toList <:+ filename.toUpper then WriteFilter.lzma
      else if ".Z".toList <:+ filename.toUpper then WriteFilter.compress
      else if "LZ".toList <:+ filename.toUpper then WriteFilter.lzip
      else if "LZO".toList <:+ filename.toUpper then WriteFilter.lzop
      else if "LRZ".toList <:+ filename.toUpper then WriteFilter.lrzip
      else if "TAR".toList <:+ filename.toUpper then WriteFilter.none
      else WriteFilter.gzip := by
  unfold newFileFilter
  simp only [QString.toUpper_right,
    QString.right_eq_iff_suffix filename.toUpper "GZ".toList 2 rfl,
    QString.right_eq_iff_suffix filename.toUpper "BZ2".toList 3 rfl,
    QString.right_eq_iff_suffix filename.toUpper "XZ".toList 2 rfl,
    QString.right_eq_iff_suffix filename.toUpper "LZMA".toList 4 rfl,
    QString.right_eq_iff_suffix filename.toUpper ".Z".toList 2 rfl,
    QString.right_eq_iff_suffix filename.toUpper "LZ".toList 2 rfl,
    QString.right_eq_iff_suffix filename.toUpper "LZO".toList 3 rfl,
    QString.right_eq_iff_suffix filename.toUpper "LRZ".toList 3 rfl,
    QString.right_eq_iff_suffix filename.toUpper "TAR".toList 3 rfl]

theorem addFiles_new (env : LibarchiveEnv) (files : List QString)
    (hex : env.fileExists = false) :
    addFiles env files =
      if (!env.tempFileOpen) = true then Outcome.failed env RewriteState.empty.emitError
      else if (!env.writeNew) = true then Outcome.failed env RewriteState.empty.emitError
      else if env.addFilter (newFileFilter env.filename) ≠ ARCHIVE_OK then
        Outcome.failed env RewriteState.empty.emitError
      else addFilesWrite env files (newFileFilter env.filename) RewriteState.empty := by
  unfold addFiles
  simp [hex]

/-- C17. The filter `addFiles` gives a new archive depends on the upper-cased
end of the file name only: `GZ` gives gzip, `BZ2` bzip2, `XZ` xz, `LZMA` lzma,
`.Z` compress, `LZ` lzip, `LZO` lzop, `LRZ` lrzip, `TAR` no filter, and a name
with none of these ends gives gzip. Two names that are equal up to letter case
get the same filter, and it is the filter of the archive `addFiles` commits
when there was no archive. -/
theorem newFileFilter_by_suffix (filename : QString) :
    ((filename.right 2).toUpper = "GZ".toList → newFileFilter filename = WriteFilter.gzip)
    ∧ ((filename.right 3).toUpper = "BZ2".toList → newFileFilter filename = WriteFilter.bzip2)
    ∧ ((filename.right 2).toUpper = "XZ".toList → newFileFilter filename = WriteFilter.xz)
    ∧ ((filename.right 4).toUpper = "LZMA".toList → newFileFilter filename = WriteFilter.lzma)
    ∧ ((filename.right 2).toUpper = ".Z".toList → newFileFilter filename = WriteFilter.compress)
    ∧ ((filename.right 2).toUpper = "LZ".toList → newFileFilter filename = WriteFilter.lzip)
    ∧ ((filename.right 3).toUpper = "LZO".toList → newFileFilter filename = WriteFilter.lzop)
    ∧ ((filename.right 3).toUpper = "LRZ".toList → newFileFilter filename = WriteFilter.lrzip)
    ∧ ((filename.right 3).toUpper = "TAR".toList → newFileFilter filename = WriteFilter.none)
    ∧ ((filename.right 2).toUpper ≠ "GZ".toList → (filename.right 3).toUpper ≠ "BZ2".toList →
        (filename.right 2).toUpper ≠ "XZ".toList → (filename.right 4).toUpper ≠ "LZMA".toList →
        (filename.right 2).toUpper ≠ ".Z".toList → (filename.right 2).toUpper ≠ "LZ".toList →
        (filename.right 3).toUpper ≠ "LZO".toList → (filename.right 3).toUpper ≠ "LRZ".toList →
        (filename.right 3).toUpper ≠ "TAR".toList → newFileFilter filename = WriteFilter.gzip)
    ∧ (∀ other : QString, other.toUpper = filename.toUpper →
        newFileFilter other = newFileFilter filename)
    ∧ (∀ (env : LibarchiveEnv) (files : List QString), env.filename = filename →
        env.fileExists = false → (addFiles env files).ret = true →
          ∃ records, (addFiles env files).realPath
            = PathState.committed (newFileFilter filename) records) := by
  have key : ∀ (e : QString) (n : Nat), e.length = n →
      ((filename.right n).toUpper = e ↔ e <:+ filename.toUpper) := by
    intro e n hn
    rw [QString.toUpper_right, QString.right_eq_iff_suffix _ _ _ hn]
  rw [key _ 2 (rfl : "GZ".toList.length = 2), key _ 3 (rfl : "BZ2".toList.length = 3),
    key _ 2 (rfl : "XZ".toList.length = 2), key _ 4 (rfl : "LZMA".toList.length = 4),
    key _ 2 (rfl : ".Z".toList.length = 2), key _ 2 (rfl : "LZ".toList.length = 2),
    key _ 3 (rfl : "LZO".toList.length = 3), key _ 3 (rfl : "LRZ".toList.length = 3),
    key _ 3 (rfl : "TAR".toList.length = 3)]
  have ex : ∀ (a b : QString), ¬ a <:+ b → ¬ b <:+ a →
      a <:+ filename.toUpper → ¬ b <:+ filename.toUpper :=
    fun a b h₁ h₂ => suffix_exclusive a b filename.toUpper h₁ h₂
  refine ⟨?_, ?_, ?_, ?_, ?_, ?_, ?_, ?_, ?_, ?_, ?_, ?_⟩
  · intro h
    rw [newFileFilter_eq, if_pos h]
  · intro h
    rw [newFileFilter_eq, if_neg (ex _ _ (by decide) (by decide) h), if_pos h]
  · intro h
    rw [newFileFilter_eq, if_neg (ex _ _ (by decide) (by decide) h),
      if_neg (ex _ _ (by decide) (by decide) h), if_pos h]
  · intro h
    rw [newFileFilter_eq, if_neg (ex _ _ (by decide) (by decide) h),
      if_neg (ex _ _ (by decide) (by decide) h), if_neg (ex _ _ (by decide) (by decide) h),
      if_pos h]
  · intro h
    rw [newFileFilter_eq, if_neg (ex _ _ (by decide) (by decide) h),
      if_neg (ex _ _ (by decide) (by decide) h), if_neg (ex _ _ (by decide) (by decide) h),
      if_neg (ex _ _ (by decide) (by decide) h), if_pos h]
  · intro h
    rw [newFileFilter_eq, if_neg (ex _ _ (by decide) (by decide) h),
      if_neg (ex _ _ (by decide) (by decide) h), if_neg (ex _ _ (by decide) (by decide) h),
      if_neg (ex _ _ (by decide) (by decide) h), if_neg (ex _ _ (by decide) (by decide) h),
      if_pos h]
  · intro h
    rw [newFileFilter_eq, if_neg (ex _ _ (by decide) (by decide) h),
      if_neg (ex _ _ (by decide) (by decide) h), if_neg (ex _ _ (by decide) (by decide) h),
      if_neg (ex _ _ (by decide) (by decide) h), if_neg (ex _ _ (by decide) (by decide) h),
      if_neg (ex _ _ (by decide) (by decide) h), if_pos h]
  · intro h
    rw [newFileFilter_eq, if_neg (ex _ _ (by decide) (by decide) h),
      if_neg (ex _ _ (by decide) (by decide) h), if_neg (ex _ _ (by decide) (by decide) h),
      if_neg (ex _ _ (by decide) (by decide) h), if_neg (ex _ _ (by decide) (by decide) h),
      if_neg (ex _ _ (by decide) (by decide) h), if_neg (ex _ _ (by decide) (by decide) h),
      if_pos h]
  · intro h
    rw [newFileFilter_eq, if_neg (ex _ _ (by decide) (by decide) h),
      if_neg (ex _ _ (by decide) (by decide) h), if_neg (ex _ _ (by decide) (by decide) h),
      if_neg (ex _ _ (by decide) (by decide) h), if_neg (ex _ _ (by decide) (by decide) h),
      if_neg (ex _ _ (by decide) (by decide) h), if_neg (ex _ _ (by decide) (by decide) h),
      if_neg (ex _ _ (by decide) (by decide) h), if_pos h]
  · intro h1 h2 h3 h4 h5 h6 h7 h8 h9
    rw [newFileFilter_eq, if_neg (mt (key "GZ".toList 2 rfl).mpr h1),
      if_neg (mt (key "BZ2".toList 3 rfl).mpr h2), if_neg (mt (key "XZ".toList 2 rfl).mpr h3),
      if_neg (mt (key "LZMA".toList 4 rfl).mpr h4), if_neg (mt (key ".Z".toList 2 rfl).mpr h5),
      if_neg (mt (key "LZ".toList 2 rfl).mpr h6), if_neg (mt (key "LZO".toList 3 rfl).mpr h7),
      if_neg (mt (key "LRZ".toList 3 rfl).mpr h8), if_neg (mt (key "TAR".toList 3 rfl).mpr h9)]
  · intro other h
    rw [newFileFilter_eq, newFileFilter_eq, h]
  · intro env files hname hex hret
    subst hname
    rw [addFiles_new env files hex] at hret ⊢
    split_ifs at hret ⊢
    · exact absurd hret (by simp [Outcome.failed])
    · exact absurd hret (by simp [Outcome.failed])
    · exact absurd hret (by simp [Outcome.failed])
    · rw [addFilesWrite_eq] at hret ⊢
      simp only [hex, Bool.false_eq_true, if_false] at hret ⊢
      split_ifs at hret ⊢
      · exact absurd hret (by simp [Outcome.failed])
      · exact ⟨_, rfl⟩
      · exact absurd hret (by simp [Outcome.failed])

/-- C17, at sample names: `Backup.Tar.Gz` gets gzip, `backup.tar` no filter
and `backup.zip` the fall-back gzip. -/
theorem newFileFilter_by_suffix_witness :
    newFileFilter "Backup.Tar.Gz".toList = WriteFilter.gzip
    ∧ newFileFilter "backup.tar".toList = WriteFilter.none
    ∧ newFileFilter "backup.zip".toList = WriteFilter.gzip :=
  ⟨(newFileFilter_by_suffix "Backup.Tar.Gz".toList).1 (by decide),
   (newFileFilter_by_suffix "backup.tar".toList).2.2.2.2.2.2.2.2.1 (by decide),
   (newFileFilter_by_suffix "backup.zip".toList).2.2.2.2.2.2.2.2.2.1
     (by decide) (by decide) (by decide) (by decide) (by decide) (by decide) (by decide)
     (by decide) (by decide)⟩

/-! ### The zip plugin -/

theorem zip_stat_index_some (a : ZipArchive) (k : Nat) (h : k < a.length) :
    zip_stat_index (some a) (k : Int) = (a[k]).stat := by
  simp [zip_stat_index, List.get?_eq_getElem?, List.getElem?_eq_getElem h]

theorem LibZipInterface.emitEntryForIndex_eq (st : ZipState) (a : ZipArchive) (k : Nat)
    (ha : st.m_archive = some a) (h : k < a.length) :
    LibZipInterface.emitEntryForIndex st (k : Int) = st.emit (a[k]).signal := by
  unfold LibZipInterface.emitEntryForIndex ZipSlot.signal
  rw [ha, zip_stat_index_some a k h]
  cases (a[k]).stat <;> rfl

theorem LibZipInterface.listLoop_eq (count : Nat) (k : Nat) (st : ZipState) (a : ZipArchive)
    (ha : st.m_archive = some a) (hc : a.length - k ≤ count) :
    LibZipInterface.listLoop count (k : Int) st =
      { st with signals := st.signals ++ listSignals (a.length : Int) k (a.drop k) } := by
  induction count generalizing k st with
  | zero =>
    have : a.drop k = [] := List.drop_eq_nil_of_le (by omega)
    simp [LibZipInterface.listLoop, this, listSignals]
  | succ count ih =>
    rw [LibZipInterface.listLoop]
    by_cases hk : k < a.length
    · have hlt : (k : Int) < zip_get_num_files st.m_archive := by
        rw [ha]
        simp [zip_get_num_files, hk]
      rw [if_pos hlt]
      dsimp only
      rw [LibZipInterface.emitEntryForIndex_eq st a k ha hk]
      have hn : zip_get_num_files (st.emit (a[k]).signal).m_archive = (a.length : Int) := by
        simp [ZipState.emit, ha, zip_get_num_files]
      rw [hn]
      have := ih (k + 1)
        ((st.emit (a[k]).signal).emit (ZipSignal.progress ((k : Int) + 1) (a.length : Int)))
        (by simp [ZipState.emit, ha]) (by omega)
      have hcast : ((k : Int) + 1) = ((k + 1 : Nat) : Int) := by
        push_cast
        rfl
      rw [← hcast] at this
      rw [this, List.drop_eq_getElem_cons hk]
      simp [ZipState.emit, listSignals]
    · have hge : ¬ (k : Int) < zip_get_num_files st.m_archive := by
        rw [ha]
        simp [zip_get_num_files]
        omega
      rw [if_neg hge]
      have : a.drop k = [] := List.drop_eq_nil_of_le (by omega)
      simp [this, listSignals]

theorem listSignals_entries (n : Int) (k : Nat) (a : ZipArchive) (stats : List ZipStat)
    (h : a.map (fun slot => slot.stat) = stats.map some) :
    ZipSignal.entries (listSignals n k a) = stats.map ZipArchiveEntry.ofStat := by
  induction a generalizing k stats with
  | nil =>
    cases stats with
    | nil => rfl
    | cons s stats => simp at h
  | cons slot rest ih =>
    cases stats with
    | nil => simp at h
    | cons s stats =>
      simp only [List.map_cons, List.cons.injEq] at h
      have := ih (k + 1) stats h.2
      simp only [ZipSignal.entries] at this ⊢
      simp [listSignals, ZipSlot.signal, h.1, this]

theorem ZipSignal.entries_append (xs ys : List ZipSignal) :
    ZipSignal.entries (xs ++ ys) = ZipSignal.entries xs ++ ZipSignal.entries ys := by
  simp [ZipSignal.entries]

/-- C20. `list` on an archive that opens with `n` entries whose `zip_stat_index`
calls all succeed returns true and emits, for the indices 0 to `n - 1` in
order, the entry of the index followed by a progress signal, hence `n` entry
events and no error; the entry of an index has the name of the index as
`FileName` and `InternalID`, `IsDirectory` exactly when the name ends with `/`
and `IsPasswordProtected` exactly when the encryption method is not 0. When the
archive cannot be opened `list` returns false and emits an error and no
entry. -/
theorem LibZipInterface.list_spec (env : ZipEnv) (st : ZipState) :
    (∀ (a : ZipArchive) (stats : List ZipStat), env.zipOpen = some a →
        a.map (fun slot => slot.stat) = stats.map some →
          (LibZipInterface.list env st).1 = true
          ∧ (LibZipInterface.list env st).2.signals
              = st.signals ++ listSignals (a.length : Int) 0 a
          ∧ ZipSignal.entries (LibZipInterface.list env st).2.signals
              = ZipSignal.entries st.signals ++ stats.map ZipArchiveEntry.ofStat
          ∧ (stats.map ZipArchiveEntry.ofStat).length = a.length)
    ∧ (∀ stat : ZipStat,
        (ZipArchiveEntry.ofStat stat).FileName = stat.name
        ∧ (ZipArchiveEntry.ofStat stat).InternalID = stat.name
        ∧ ((ZipArchiveEntry.ofStat stat).IsDirectory = true ↔ "/".toList <:+ stat.name)
        ∧ ((ZipArchiveEntry.ofStat stat).IsPasswordProtected = true
            ↔ stat.encryption_method ≠ 0))
    ∧ (env.zipOpen = none →
        (LibZipInterface.list env st).1 = false
        ∧ (LibZipInterface.list env st).2.signals = st.signals ++ [ZipSignal.error]
        ∧ ZipSignal.entries (LibZipInterface.list env st).2.signals
            = ZipSignal.entries st.signals) := by
  refine ⟨?_, ?_, ?_⟩
  · intro a stats hopen hstats
    have hlist : LibZipInterface.list env st =
        (true, LibZipInterface.close
          { st with m_archive := some a,
                    signals := st.signals ++ listSignals (a.length : Int) 0 a }) := by
      unfold LibZipInterface.list LibZipInterface.open
      rw [hopen]
      dsimp only
      have := LibZipInterface.listLoop_eq a.length 0 { st with m_archive := some a } a rfl
        (by omega)
      simp only [zip_get_num_files, Int.toNat_ofNat, Nat.cast_zero, List.drop_zero] at this ⊢
      rw [this]
    have hsig : (LibZipInterface.list env st).2.signals
        = st.signals ++ listSignals (a.length : Int) 0 a := by
      rw [hlist]
      simp [LibZipInterface.close]
    refine ⟨by rw [hlist], hsig, ?_, ?_⟩
    · rw [hsig, ZipSignal.entries_append, listSignals_entries _ _ a stats hstats]
    · have := congrArg List.length hstats
      simpa using this.symm
  · intro stat
    refine ⟨rfl, rfl, ?_, ?_⟩
    · simp only [ZipArchiveEntry.ofStat, decide_eq_true_eq]
      exact QString.right_eq_iff_suffix stat.name "/".toList 1 rfl
    · simp [ZipArchiveEntry.ofStat]
  · intro hopen
    have hlist : LibZipInterface.list env st =
        (false, { st with m_archive := none }.emit ZipSignal.error) := by
      unfold LibZipInterface.list LibZipInterface.open
      rw [hopen]
    rw [hlist]
    refine ⟨rfl, rfl, ?_⟩
    simp [ZipState.emit, ZipSignal.entries]

/-- C20, at a sample input: the archive `a`, `dir/`, `b` (encrypted) is listed
as three entries in this order, `dir/` being a directory and `b` password
protected. -/
theorem LibZipInterface.list_spec_witness :
    (LibZipInterface.list sampleZipEnv ZipState.initial).1 = true
    ∧ ZipSignal.entries (LibZipInterface.list sampleZipEnv ZipState.initial).2.signals =
        [ZipArchiveEntry.ofStat (sampleStat "a".toList 0),
         ZipArchiveEntry.ofStat (sampleStat "dir/".toList 0),
         ZipArchiveEntry.ofStat (sampleStat "b".toList 1)]
    ∧ (ZipArchiveEntry.ofStat (sampleStat "dir/".toList 0)).IsDirectory = true
    ∧ (ZipArchiveEntry.ofStat (sampleStat "b".toList 1)).IsPasswordProtected = true := by
  have h := (LibZipInterface.list_spec sampleZipEnv ZipState.initial).1
    [⟨some (sampleStat "a".toList 0), false⟩, ⟨some (sampleStat "dir/".toList 0), false⟩,
     ⟨some (sampleStat "b".toList 1), false⟩]
    [sampleStat "a".toList 0, sampleStat "dir/".toList 0, sampleStat "b".toList 1] rfl rfl
  exact ⟨h.1, h.2.2.1, by decide, by decide⟩

/-- When every input file can be read, the loop of `addFiles` is never left by
`return false`, whatever `zip_add` returns. -/
theorem LibZipInterface.addLoop_true_of_readable (env : ZipEnv) (count : Int)
    (files : List QString) (processed : Int) (st : ZipState)
    (h : ∀ f ∈ files, env.sourceFile f = true) :
    (LibZipInterface.addLoop env count files processed st).1 = true := by
  induction files generalizing processed st with
  | nil => rfl
  | cons f rest ih =>
    have hf := h f (List.mem_cons_self _ _)
    have hrest : ∀ g ∈ rest, env.sourceFile g = true :=
      fun g hg => h g (List.mem_cons_of_mem _ hg)
    rw [LibZipInterface.addLoop]
    dsimp only
    split_ifs with h1 h2
    all_goals first
      | exact ih _ _ hrest
      | (rw [hf] at h2
         cases h2)

/-- C18, at the input where it fails: the files `bad` and `c` are added to the
sample archive and `zip_add` fails for `bad`. `addFiles` emits the error, goes
on with `emitEntryForIndex(-1)` (a second error), adds `c`, closes the archive
with the new entry and returns true. -/
theorem LibZipInterface.addFiles_continues_after_zip_add_failure :
    (zip_add sampleZipEnv sampleZipEnv.zipOpen "bad".toList "bad".toList).1 = -1
    ∧ (LibZipInterface.addFiles sampleZipEnv ["bad".toList, "c".toList] ZipState.initial).1
        = true
    ∧ (LibZipInterface.addFiles sampleZipEnv ["bad".toList, "c".toList]
        ZipState.initial).2.signals =
        [ZipSignal.error, ZipSignal.error, ZipSignal.progress 1 2,
         ZipSignal.entry (ZipArchiveEntry.ofStat (sampleStat "c".toList 0)),
         ZipSignal.progress 2 2]
    ∧ (LibZipInterface.addFiles sampleZipEnv ["bad".toList, "c".toList]
        ZipState.initial).2.zipClosed =
        [[⟨some (sampleStat "a".toList 0), false⟩, ⟨some (sampleStat "dir/".toList 0), false⟩,
          ⟨some (sampleStat "b".toList 1), false⟩, ⟨some (sampleStat "c".toList 0), false⟩]] := by
  decide

/-- C19, refuted as stated: the names `a` and `zz` are to be deleted from the
open sample archive, which holds `a` but not `zz`. `deleteFiles` returns false,
yet `a` has been marked for deletion with `zip_delete` and announced with
`entryRemoved`. -/
theorem LibZipInterface.deleteFiles_partial_on_failure :
    (LibZipInterface.deleteFiles sampleZipEnv ["a".toList, "zz".toList] sampleZipState).1
        = false
    ∧ (LibZipInterface.deleteFiles sampleZipEnv ["a".toList, "zz".toList]
        sampleZipState).2.signals
        = [ZipSignal.entryRemoved "a".toList, ZipSignal.error]
    ∧ (LibZipInterface.deleteFiles sampleZipEnv ["a".toList, "zz".toList]
        sampleZipState).2.m_archive
        = some [⟨some (sampleStat "a".toList 0), true⟩,
                ⟨some (sampleStat "dir/".toList 0), false⟩,
                ⟨some (sampleStat "b".toList 1), false⟩] := by
  decide

theorem LibZipInterface.deleteLoop_cons (env : ZipEnv) (f : QString) (rest : List QString)
    (st : ZipState) :
    LibZipInterface.deleteLoop env (f :: rest) st =
      if env.nameLocate st.m_archive f < 0 then (false, st.emit ZipSignal.error)
      else
        LibZipInterface.deleteLoop env rest
          (ZipState.emit
            { st with m_archive :=
                st.m_archive.map (fun a => zip_delete a (env.nameLocate st.m_archive f)) }
            (ZipSignal.entryRemoved f)) := rfl

theorem LibZipInterface.deleteLoop_all (env : ZipEnv) (files : List QString) (st : ZipState)
    (h : allLocated env st.m_archive files) :
    LibZipInterface.deleteLoop env files st =
      (true, { st with m_archive := markDeleted env st.m_archive files,
                       signals := st.signals ++ files.map ZipSignal.entryRemoved }) := by
  induction files generalizing st with
  | nil => simp [LibZipInterface.deleteLoop, markDeleted]
  | cons f rest ih =>
    obtain ⟨h1, h2⟩ := h
    rw [LibZipInterface.deleteLoop_cons, if_neg (not_lt.mpr h1), ih _ h2]
    simp [ZipState.emit, markDeleted]

theorem LibZipInterface.deleteLoop_miss (env : ZipEnv) (pre : List QString) (f : QString)
    (post : List QString) (st : ZipState)
    (h : allLocated env st.m_archive pre)
    (hf : env.nameLocate (markDeleted env st.m_archive pre) f < 0) :
    LibZipInterface.deleteLoop env (pre ++ f :: post) st =
      (false, { st with m_archive := markDeleted env st.m_archive pre,
                        signals := st.signals ++ pre.map ZipSignal.entryRemoved
                          ++ [ZipSignal.error] }) := by
  induction pre generalizing st with
  | nil =>
    simp only [markDeleted, List.foldl_nil] at hf
    rw [List.nil_append, LibZipInterface.deleteLoop_cons, if_pos hf]
    simp [ZipState.emit, markDeleted]
  | cons g pre ih =>
    obtain ⟨h1, h2⟩ := h
    rw [List.cons_append, LibZipInterface.deleteLoop_cons, if_neg (not_lt.mpr h1)]
    have := ih (ZipState.emit
        { st with m_archive :=
            st.m_archive.map (fun a => zip_delete a (env.nameLocate st.m_archive g)) }
        (ZipSignal.entryRemoved g)) h2 (by simpa [markDeleted, ZipState.emit] using hf)
    rw [this]
    simp [ZipState.emit, markDeleted]

theorem zip_delete_spec (a : ZipArchive) (index : Int) (h : 0 ≤ index) :
    (zip_delete a index).length = a.length
    ∧ (∀ j : Nat, j ≠ index.toNat → (zip_delete a index)[j]? = a[j]?)
    ∧ (zip_delete a index)[index.toNat]?
        = (a[index.toNat]?).map (fun slot => { slot with deleted := true }) := by
  unfold zip_delete
  rw [if_pos h]
  refine ⟨by simp, ?_, by simp⟩
  intro j hj
  exact List.getElem?_modify_ne _ _ (fun h' => hj h'.symm)

/-- C19, amended. `deleteFiles` takes the requested names in order. At the
first name that `zip_name_locate` does not find it returns false: the names
before it have then been marked for deletion with `zip_delete` and announced
with `entryRemoved`, the names after it have not been looked at, and the
archive has not been closed. When every requested name is found it returns
true, having marked the entry located for each name and no other, emitted
`entryRemoved` once for each name in the order of the request, and closed the
archive. -/
theorem LibZipInterface.deleteFiles_spec (env : ZipEnv) (st : ZipState) :
    (∀ (pre : List QString) (f : QString) (post : List QString),
        allLocated env st.m_archive pre →
        env.nameLocate (markDeleted env st.m_archive pre) f < 0 →
          LibZipInterface.deleteFiles env (pre ++ f :: post) st =
            (false, { st with m_archive := markDeleted env st.m_archive pre,
                              signals := st.signals ++ pre.map ZipSignal.entryRemoved
                                ++ [ZipSignal.error] }))
    ∧ (∀ files : List QString, allLocated env st.m_archive files →
          LibZipInterface.deleteFiles env files st =
            (true, LibZipInterface.close
              { st with m_archive := markDeleted env st.m_archive files,
                        signals := st.signals ++ files.map ZipSignal.entryRemoved }))
    ∧ (∀ (a : ZipArchive) (index : Int), 0 ≤ index →
        (zip_delete a index).length = a.length
        ∧ (∀ j : Nat, j ≠ index.toNat → (zip_delete a index)[j]? = a[j]?)
        ∧ (zip_delete a index)[index.toNat]?
            = (a[index.toNat]?).map (fun slot => { slot with deleted := true })) := by
  refine ⟨?_, ?_, zip_delete_spec⟩
  · intro pre f post h hf
    unfold LibZipInterface.deleteFiles
    rw [LibZipInterface.deleteLoop_miss env pre f post st h hf]
  · intro files h
    unfold LibZipInterface.deleteFiles
    rw [LibZipInterface.deleteLoop_all env files st h]

/-- C19 as amended, at sample inputs: deleting `b` and `a` from the open sample
archive returns true with both marked and announced; deleting `b`, `zz`, `a`
returns false with `b` marked and announced and `a` untouched. -/
theorem LibZipInterface.deleteFiles_spec_witness :
    LibZipInterface.deleteFiles sampleZipEnv ["b".toList, "a".toList] sampleZipState =
      (true, { m_archive := none,
               signals := [ZipSignal.entryRemoved "b".toList, ZipSignal.entryRemoved "a".toList],
               zipClosed := [[⟨some (sampleStat "a".toList 0), true⟩,
                              ⟨some (sampleStat "dir/".toList 0), false⟩,
                              ⟨some (sampleStat "b".toList 1), true⟩]] })
    ∧ LibZipInterface.deleteFiles sampleZipEnv ["b".toList, "zz".toList, "a".toList]
        sampleZipState =
      (false, { m_archive := some [⟨some (sampleStat "a".toList 0), false⟩,
                                   ⟨some (sampleStat "dir/".toList 0), false⟩,
                                   ⟨some (sampleStat "b".toList 1), true⟩],
                signals := [ZipSignal.entryRemoved "b".toList, ZipSignal.error],
                zipClosed := [] }) :=
  ⟨((LibZipInterface.deleteFiles_spec sampleZipEnv sampleZipState).2.1
      ["b".toList, "a".toList] ⟨by decide, by decide, trivial⟩).trans (by decide),
   ((LibZipInterface.deleteFiles_spec sampleZipEnv sampleZipState).1
      ["b".toList] "zz".toList ["a".toList] ⟨by decide, trivial⟩ (by decide)).trans
      (by decide)⟩

/-! ### The carry-forward of old entries -/

theorem readEntries_cons_ok (e : ArchiveEntry) (rest : List (Int × ArchiveEntry)) :
    readEntries ((ARCHIVE_OK, e) :: rest) = e :: readEntries rest := by
  simp [readEntries, List.takeWhile]

theorem readEntries_cons_stop (rc : Int) (e : ArchiveEntry) (rest : List (Int × ArchiveEntry))
    (h : rc ≠ ARCHIVE_OK) : readEntries ((rc, e) :: rest) = [] := by
  simp [readEntries, List.takeWhile, h]

theorem deleteLoop_carry (env : LibarchiveEnv) (files : List QString)
    (hs : List (Int × ArchiveEntry)) (st : RewriteState) :
    ((deleteLoop env files hs st).1 = false ↔
        ∃ r ∈ carryForward env files.contains st.headerCodes.length (readEntries hs),
          r.headerCode = ARCHIVE_FAILED ∨ r.headerCode = ARCHIVE_FATAL)
    ∧ ((deleteLoop env files hs st).1 = true →
        (deleteLoop env files hs st).2.records =
            st.records ++ carryForward env files.contains st.headerCodes.length (readEntries hs)
          ∧ (deleteLoop env files hs st).2.headerCodes =
            st.headerCodes ++
              (carryForward env files.contains st.headerCodes.length (readEntries hs)).map
                (fun r => r.headerCode))
    ∧ ((deleteLoop env files hs st).1 = false →
        ∃ c ∈ (deleteLoop env files hs st).2.headerCodes,
          c = ARCHIVE_FAILED ∨ c = ARCHIVE_FATAL) := by
  induction hs generalizing st with
  | nil => simp [deleteLoop, readEntries, carryForward]
  | cons h rest ih =>
    obtain ⟨rc, entry⟩ := h
    by_cases hrc : rc = ARCHIVE_OK
    · subst hrc
      rw [deleteLoop, readEntries_cons_ok, carryForward]
      simp only [ne_eq, not_true_eq_false, if_false]
      by_cases hc : files.contains entry.pathname = true
      · simp only [hc, if_true]
        exact ih _
      · simp only [hc, Bool.false_eq_true, if_false]
        by_cases hok : env.writeHeader st.headerCodes.length entry = ARCHIVE_OK
        · simp only [hok, if_true, decide_True]
          have := ih { records := st.records ++ [⟨entry, ARCHIVE_OK, true⟩],
                       headerCodes := st.headerCodes ++ [ARCHIVE_OK],
                       signals := st.signals, m_writtenFiles := st.m_writtenFiles }
          simp only [List.length_append, List.length_singleton, List.append_assoc,
            List.singleton_append] at this
          obtain ⟨h1, h2, h3⟩ := this
          refine ⟨?_, ?_, h3⟩
          · rw [h1]
            simp [ARCHIVE_OK, ARCHIVE_FAILED, ARCHIVE_FATAL]
          · intro ht
            simpa using h2 ht
        · simp only [hok, if_false, decide_False]
          by_cases hab : env.writeHeader st.headerCodes.length entry = ARCHIVE_FAILED
              ∨ env.writeHeader st.headerCodes.length entry = ARCHIVE_FATAL
          · simp only [if_pos hab]
            refine ⟨?_, ?_, ?_⟩
            · simp only [true_iff]
              exact ⟨_, List.mem_cons_self _ _, hab⟩
            · intro ht
              cases ht
            · intro _
              exact ⟨_, by simp [RewriteState.emitError], hab⟩
          · simp only [if_neg hab]
            have := ih { records := st.records ++ [⟨entry, env.writeHeader st.headerCodes.length entry, false⟩],
                         headerCodes := st.headerCodes ++ [env.writeHeader st.headerCodes.length entry],
                         signals := st.signals, m_writtenFiles := st.m_writtenFiles }
            simp only [List.length_append, List.length_singleton, List.append_assoc,
              List.singleton_append] at this
            obtain ⟨h1, h2, h3⟩ := this
            refine ⟨?_, ?_, h3⟩
            · rw [h1]
              simp [hab]
            · intro ht
              simpa using h2 ht
    · rw [deleteLoop, readEntries_cons_stop rc entry rest hrc]
      simp [hrc, carryForward]

theorem copyOldEntries_carry (env : LibarchiveEnv)
    (hs : List (Int × ArchiveEntry)) (st : RewriteState) :
    ((copyOldEntries env hs st).1 = false ↔
        ∃ r ∈ carryForward env st.m_writtenFiles.contains st.headerCodes.length (readEntries hs),
          r.headerCode = ARCHIVE_FAILED ∨ r.headerCode = ARCHIVE_FATAL)
    ∧ ((copyOldEntries env hs st).1 = true →
        (copyOldEntries env hs st).2.records =
            st.records ++ carryForward env st.m_writtenFiles.contains st.headerCodes.length (readEntries hs)
          ∧ (copyOldEntries env hs st).2.headerCodes =
            st.headerCodes ++
              (carryForward env st.m_writtenFiles.contains st.headerCodes.length (readEntries hs)).map
                (fun r => r.headerCode))
    ∧ ((copyOldEntries env hs st).1 = false →
        ∃ c ∈ (copyOldEntries env hs st).2.headerCodes,
          c = ARCHIVE_FAILED ∨ c = ARCHIVE_FATAL) := by
  induction hs generalizing st with
  | nil => simp [copyOldEntries, readEntries, carryForward]
  | cons h rest ih =>
    obtain ⟨rc, entry⟩ := h
    by_cases hrc : rc = ARCHIVE_OK
    · subst hrc
      rw [copyOldEntries, readEntries_cons_ok, carryForward]
      simp only [ne_eq, not_true_eq_false, if_false]
      by_cases hc : st.m_writtenFiles.contains entry.pathname = true
      · simp only [hc, if_true]
        exact ih _
      · simp only [hc, Bool.false_eq_true, if_false]
        by_cases hok : env.writeHeader st.headerCodes.length entry = ARCHIVE_OK
        · simp only [hok, if_true, decide_True]
          have := ih { records := st.records ++ [⟨entry, ARCHIVE_OK, true⟩],
                       headerCodes := st.headerCodes ++ [ARCHIVE_OK],
                       signals := st.signals, m_writtenFiles := st.m_writtenFiles }
          simp only [List.length_append, List.length_singleton, List.append_assoc,
            List.singleton_append] at this
          obtain ⟨h1, h2, h3⟩ := this
          refine ⟨?_, ?_, h3⟩
          · rw [h1]
            simp [ARCHIVE_OK, ARCHIVE_FAILED, ARCHIVE_FATAL]
          · intro ht
            simpa using h2 ht
        · simp only [hok, if_false, decide_False]
          by_cases hab : env.writeHeader st.headerCodes.length entry = ARCHIVE_FAILED
              ∨ env.writeHeader st.headerCodes.length entry = ARCHIVE_FATAL
          · simp only [if_pos hab]
            refine ⟨?_, ?_, ?_⟩
            · simp only [true_iff]
              exact ⟨_, List.mem_cons_self _ _, hab⟩
            · intro ht
              cases ht
            · intro _
              exact ⟨_, by simp [RewriteState.emitError], hab⟩
          · simp only [if_neg hab]
            have := ih { records := st.records ++ [⟨entry, env.writeHeader st.headerCodes.length entry, false⟩],
                         headerCodes := st.headerCodes ++ [env.writeHeader st.headerCodes.length entry],
                         signals := st.signals, m_writtenFiles := st.m_writtenFiles }
            simp only [List.length_append, List.length_singleton, List.append_assoc,
              List.singleton_append] at this
            obtain ⟨h1, h2, h3⟩ := this
            refine ⟨?_, ?_, h3⟩
            · rw [h1]
              simp [hab]
            · intro ht
              simpa using h2 ht
    · rw [copyOldEntries, readEntries_cons_stop rc entry rest hrc]
      simp [hrc, carryForward]

theorem writeFile_true_codes (env : LibarchiveEnv) (f : QString) (st : RewriteState)
    (h : (writeFile env f st).1 = true) :
    ∀ c ∈ (writeFile env f st).2.headerCodes, c ∈ st.headerCodes ∨ c = ARCHIVE_OK := by
  rw [writeFile_eq] at h ⊢
  by_cases hc : env.writeHeader st.headerCodes.length (entryOfPath env f) = ARCHIVE_OK
  · rw [if_pos hc]
    intro c hmem
    simp only [List.mem_append, List.mem_singleton] at hmem
    rcases hmem with hmem | hmem
    · exact Or.inl hmem
    · exact Or.inr (hmem.trans hc)
  · rw [if_neg hc] at h
    cases h

theorem writeDirectory_true_codes (env : LibarchiveEnv) (items : List DirItem)
    (st : RewriteState) (h : (writeDirectory env items st).1 = true) :
    ∀ c ∈ (writeDirectory env items st).2.headerCodes, c ∈ st.headerCodes ∨ c = ARCHIVE_OK := by
  induction items generalizing st with
  | nil => intro c hc; exact Or.inl hc
  | cons it rest ih =>
    rw [writeDirectory_cons] at h ⊢
    by_cases h1 : it.fileName = "..".toList ∨ it.fileName = ".".toList
    · rw [if_pos h1] at h ⊢
      exact ih st h
    · rw [if_neg h1] at h ⊢
      by_cases h2 : (writeFile env it.writtenPath st).1 = true
      · rw [if_pos h2] at h ⊢
        intro c hc
        rcases ih _ h c hc with hc | hc
        · exact writeFile_true_codes env _ st h2 c hc
        · exact Or.inr hc
      · rw [if_neg h2] at h
        cases h

theorem writeFiles_true_codes (env : LibarchiveEnv) (files : List QString)
    (st : RewriteState) (h : (writeFiles env files st).1 = true) :
    ∀ c ∈ (writeFiles env files st).2.headerCodes, c ∈ st.headerCodes ∨ c = ARCHIVE_OK := by
  induction files generalizing st with
  | nil => intro c hc; exact Or.inl hc
  | cons f rest ih =>
    rw [writeFiles_cons] at h ⊢
    by_cases h1 : (writeFile env f st).1 = true
    · rw [if_pos h1] at h ⊢
      by_cases h2 : env.isDir f = true
      · rw [if_pos h2] at h ⊢
        by_cases h3 : (writeDirectory env (env.dirEntries f) (writeFile env f st).2).1 = true
        · rw [if_pos h3] at h ⊢
          intro c hc
          rcases ih _ h c hc with hc | hc
          · rcases writeDirectory_true_codes env _ _ h3 c hc with hc | hc
            · exact writeFile_true_codes env _ st h1 c hc
            · exact Or.inr hc
          · exact Or.inr hc
        · rw [if_neg h3] at h
          cases h
      · rw [if_neg h2] at h ⊢
        intro c hc
        rcases ih _ h c hc with hc | hc
        · exact writeFile_true_codes env _ st h1 c hc
        · exact Or.inr hc
    · rw [if_neg h1] at h
      cases h

theorem deleteFiles_eq_loop (env : LibarchiveEnv) (files : List QString) (filter : WriteFilter)
    (hfilter : deleteFilesFilter env.filterCode = some filter)
    (hsetup : env.deleteSetupOk filter) :
    deleteFiles env files =
      if (deleteLoop env files env.headers RewriteState.empty).1 = true then
        { ret := true,
          realPath := PathState.committed filter
            (deleteLoop env files env.headers RewriteState.empty).2.records,
          signals := (deleteLoop env files env.headers RewriteState.empty).2.signals,
          headerCodes := (deleteLoop env files env.headers RewriteState.empty).2.headerCodes }
      else Outcome.failed env (deleteLoop env files env.headers RewriteState.empty).2 := by
  obtain ⟨s1, s2, s3, s4, s5, s6, s7, s8⟩ := hsetup
  unfold deleteFiles
  simp only [s1, s2, s3, s4, s5, s6, s7, s8, hfilter, Bool.not_true, Bool.false_eq_true,
    if_false, ne_eq, not_true_eq_false]
  rcases deleteLoop env files env.headers RewriteState.empty with ⟨b, st⟩
  cases b <;> simp

theorem carryForward_dataCopied (env : LibarchiveEnv) (skip : QString → Bool) (n : Nat)
    (es : List ArchiveEntry) :
    ∀ r ∈ carryForward env skip n es, (r.dataCopied = true ↔ r.headerCode = ARCHIVE_OK) := by
  induction es generalizing n with
  | nil => simp [carryForward]
  | cons e rest ih =>
    rw [carryForward]
    split_ifs
    · exact ih n
    · intro r hr
      rcases List.mem_cons.mp hr with hr | hr
      · subst hr
        simp
      · exact ih _ r hr

theorem carryForward_entries (env : LibarchiveEnv) (skip : QString → Bool) (n : Nat)
    (es : List ArchiveEntry) :
    (carryForward env skip n es).map (fun r => r.entry) =
      es.filter (fun e => !skip e.pathname) := by
  induction es generalizing n with
  | nil => simp [carryForward]
  | cons e rest ih =>
    rw [carryForward]
    by_cases h : skip e.pathname = true
    · simp [h, ih]
    · simp [h, ih]

theorem readEntries_stop (pre post : List (Int × ArchiveEntry)) (rc : Int) (e : ArchiveEntry)
    (hpre : ∀ h ∈ pre, h.1 = ARCHIVE_OK) (hrc : rc ≠ ARCHIVE_OK) :
    readEntries (pre ++ (rc, e) :: post) = pre.map (fun h => h.2) := by
  induction pre with
  | nil => simp [readEntries, List.takeWhile, hrc]
  | cons h rest ih =>
    obtain ⟨c, x⟩ := h
    have hc : c = ARCHIVE_OK := hpre (c, x) (List.mem_cons_self _ _)
    subst hc
    rw [List.cons_append, readEntries_cons_ok, ih (fun h hh => hpre h (List.mem_cons_of_mem _ hh))]
    rfl

/-- C22. Once the writer is open (the steps before the loop succeed and, for
`addFiles`, the write phase returns true), `deleteFiles` and `addFiles` return
false exactly when `archive_write_header` returns `ARCHIVE_FAILED` or
`ARCHIVE_FATAL` for an old entry that is kept; otherwise they return true and
commit the staging archive. The committed archive holds (after the entries
written by `addFiles`) the kept entries among those read before the first
result of `archive_read_next_header` other than `ARCHIVE_OK`, each with the
code its header got, the data copied only where that code is `ARCHIVE_OK`. -/
theorem carryForward_abort_condition (env : LibarchiveEnv) (files : List QString)
    (fd fa : WriteFilter) :
    (deleteFilesFilter env.filterCode = some fd → env.deleteSetupOk fd →
        ((deleteFiles env files).ret = false ↔
            ∃ r ∈ carryForward env files.contains 0 (readEntries env.headers),
              r.headerCode = ARCHIVE_FAILED ∨ r.headerCode = ARCHIVE_FATAL)
        ∧ ((deleteFiles env files).ret = false ↔
            ∃ c ∈ (deleteFiles env files).headerCodes,
              c = ARCHIVE_FAILED ∨ c = ARCHIVE_FATAL)
        ∧ ((deleteFiles env files).ret = true →
            (deleteFiles env files).realPath =
              PathState.committed fd
                (carryForward env files.contains 0 (readEntries env.headers))))
    ∧ (env.addFilter? = some fa → env.addSetupOk fa →
        (writeFiles env files RewriteState.empty).1 = true →
        ((addFiles env files).ret = false ↔
            ∃ r ∈ carryForward env
                (writeFiles env files RewriteState.empty).2.m_writtenFiles.contains
                (writeFiles env files RewriteState.empty).2.headerCodes.length
                (readEntries env.oldHeaders),
              r.headerCode = ARCHIVE_FAILED ∨ r.headerCode = ARCHIVE_FATAL)
        ∧ ((addFiles env files).ret = false ↔
            ∃ c ∈ (addFiles env files).headerCodes,
              c = ARCHIVE_FAILED ∨ c = ARCHIVE_FATAL)
        ∧ ((addFiles env files).ret = true →
            (addFiles env files).realPath =
              PathState.committed fa
                ((writeFiles env files RewriteState.empty).2.records ++
                  carryForward env
                    (writeFiles env files RewriteState.empty).2.m_writtenFiles.contains
                    (writeFiles env files RewriteState.empty).2.headerCodes.length
                    (readEntries env.oldHeaders))))
    ∧ (∀ (skip : QString → Bool) (n : Nat) (es : List ArchiveEntry),
        (∀ r ∈ carryForward env skip n es,
          (r.dataCopied = true ↔ r.headerCode = ARCHIVE_OK))
        ∧ (carryForward env skip n es).map (fun r => r.entry) =
            es.filter (fun e => !skip e.pathname))
    ∧ (∀ (pre post : List (Int × ArchiveEntry)) (rc : Int) (e : ArchiveEntry),
        (∀ h ∈ pre, h.1 = ARCHIVE_OK) → rc ≠ ARCHIVE_OK →
          readEntries (pre ++ (rc, e) :: post) = pre.map (fun h => h.2)) := by
  refine ⟨?_, ?_, fun skip n es =>
    ⟨carryForward_dataCopied env skip n es, carryForward_entries env skip n es⟩,
    fun pre post rc e => readEntries_stop pre post rc e⟩
  · intro hfilter hsetup
    obtain ⟨h1, h2, h3⟩ := deleteLoop_carry env files env.headers RewriteState.empty
    have hu := deleteFiles_eq_loop env files fd hfilter hsetup
    by_cases hb : (deleteLoop env files env.headers RewriteState.empty).1 = true
    · rw [if_pos hb] at hu
      have hnf : ¬ (deleteLoop env files env.headers RewriteState.empty).1 = false := by
        simp [hb]
      obtain ⟨hr, hc⟩ := h2 hb
      have hnone : ¬ ∃ r ∈ carryForward env files.contains 0 (readEntries env.headers),
          r.headerCode = ARCHIVE_FAILED ∨ r.headerCode = ARCHIVE_FATAL := fun hx =>
        hnf (h1.mpr hx)
      rw [hu]
      refine ⟨?_, ?_, ?_⟩
      · simp only [Bool.true_eq_false, false_iff]
        exact hnone
      · simp only [Bool.true_eq_false, false_iff]
        rintro ⟨c, hmem, hfail⟩
        rw [hc] at hmem
        simp only [RewriteState.empty, List.nil_append, List.mem_map] at hmem
        obtain ⟨r, hr1, hr2⟩ := hmem
        exact hnone ⟨r, hr1, by rw [hr2]; exact hfail⟩
      · intro _
        show PathState.committed fd
          (deleteLoop env files env.headers RewriteState.empty).2.records = _
        rw [hr]
        rfl
    · rw [if_neg hb] at hu
      have hf : (deleteLoop env files env.headers RewriteState.empty).1 = false := by
        simpa using hb
      rw [hu]
      refine ⟨?_, ?_, ?_⟩
      · simp only [Outcome.failed, true_iff]
        exact h1.mp hf
      · simp only [Outcome.failed, true_iff]
        exact h3 hf
      · intro ht
        simp [Outcome.failed] at ht
  · intro hfilter hsetup hwrite
    have hopen : env.writeOpenFd = ARCHIVE_OK := hsetup.2.2.2.2
    have hu : addFiles env files = addFilesWrite env files fa RewriteState.empty :=
      addFiles_eq_write env files fa hfilter hsetup
    rw [addFilesWrite_eq, if_neg (by simp [hopen]), if_pos hwrite] at hu
    have hwc : ∀ c ∈ (writeFiles env files RewriteState.empty).2.headerCodes,
        c = ARCHIVE_OK := by
      intro c hc
      rcases writeFiles_true_codes env files _ hwrite c hc with h | h
      · simp [RewriteState.empty] at h
      · exact h
    have hok : ¬ (ARCHIVE_OK = ARCHIVE_FAILED ∨ ARCHIVE_OK = ARCHIVE_FATAL) := by decide
    by_cases he : env.fileExists = true
    · rw [if_pos he] at hu
      have hold : env.oldHeaders = env.headers := by simp [LibarchiveEnv.oldHeaders, he]
      rw [hold]
      obtain ⟨h1, h2, h3⟩ :=
        copyOldEntries_carry env env.headers (writeFiles env files RewriteState.empty).2
      by_cases hb : (copyOldEntries env env.headers
          (writeFiles env files RewriteState.empty).2).1 = true
      · rw [if_pos hb] at hu
        have hnf : ¬ (copyOldEntries env env.headers
            (writeFiles env files RewriteState.empty).2).1 = false := by
          simp [hb]
        obtain ⟨hr, hc⟩ := h2 hb
        have hnone := fun hx => hnf (h1.mpr hx)
        rw [hu]
        refine ⟨?_, ?_, ?_⟩
        · simp only [Bool.true_eq_false, false_iff]
          exact hnone
        · simp only [Bool.true_eq_false, false_iff]
          rintro ⟨c, hmem, hfail⟩
          rw [hc] at hmem
          rcases List.mem_append.mp hmem with hmem | hmem
          · rw [hwc c hmem] at hfail
            exact hok hfail
          · obtain ⟨r, hr1, hr2⟩ := List.mem_map.mp hmem
            exact hnone ⟨r, hr1, by rw [hr2]; exact hfail⟩
        · intro _
          simp only [hr]
      · rw [if_neg hb] at hu
        have hf : (copyOldEntries env env.headers
            (writeFiles env files RewriteState.empty).2).1 = false := by
          simpa using hb
        rw [hu]
        refine ⟨?_, ?_, ?_⟩
        · simp only [true_iff]
          exact h1.mp hf
        · simp only [true_iff]
          exact h3 hf
        · intro ht
          simp at ht
    · rw [if_neg he] at hu
      have hold : env.oldHeaders = [] := by simp [LibarchiveEnv.oldHeaders, he]
      rw [hold, hu]
      refine ⟨?_, ?_, ?_⟩
      · simp [readEntries, carryForward]
      · simp only [Bool.true_eq_false, false_iff]
        rintro ⟨c, hmem, hfail⟩
        rw [hwc c hmem] at hfail
        exact hok hfail
      · intro _
        simp [readEntries, carryForward]

/-- C22, at a sample input: on the archive `a`, `b`, `c`, `d` whose third
header cannot be read, the writer answering `ARCHIVE_WARN` to the header of
`b`, both operations return true; the committed archive holds `a`, then `b`
without its data, and neither `c` nor `d`. -/
theorem carryForward_abort_condition_witness :
    ((deleteFiles carryEnv []).ret = true
      ∧ (deleteFiles carryEnv []).realPath =
          PathState.committed WriteFilter.gzip
            [⟨⟨"a".toList, 1⟩, ARCHIVE_OK, true⟩, ⟨⟨"b".toList, 2⟩, ARCHIVE_WARN, false⟩])
    ∧ ((addFiles carryEnv ["c".toList]).ret = true
      ∧ (addFiles carryEnv ["c".toList]).realPath =
          PathState.committed WriteFilter.gzip
            [⟨⟨"c".toList, 7⟩, ARCHIVE_OK, true⟩, ⟨⟨"a".toList, 1⟩, ARCHIVE_OK, true⟩,
             ⟨⟨"b".toList, 2⟩, ARCHIVE_WARN, false⟩]) := by
  have h := carryForward_abort_condition carryEnv [] WriteFilter.gzip WriteFilter.gzip
  have h2 := carryForward_abort_condition carryEnv ["c".toList] WriteFilter.gzip
    WriteFilter.gzip
  have hd := h.1 (by decide) ⟨rfl, rfl, rfl, rfl, rfl, rfl, rfl, rfl⟩
  have ha := h2.2.1 (by decide) ⟨fun _ => ⟨rfl, rfl, rfl, rfl⟩, rfl, rfl, rfl, rfl⟩ (by decide)
  have hdt : (deleteFiles carryEnv []).ret = true := by decide
  have hat : (addFiles carryEnv ["c".toList]).ret = true := by decide
  exact ⟨⟨hdt, (hd.2.2 hdt).trans (by decide)⟩, ⟨hat, (ha.2.2 hat).trans (by decide)⟩⟩

/-! ### Index safety of the column array -/

theorem extractColumns_trace (line : QCString) (cols : List ArchColumns) (st : ScanState) :
    (extractColumns line cols st).2 =
      { pos := traceEnd st.pos (matchTrace line cols st.pos),
        columns := recordMatches line (matchTrace line cols st.pos) st.columns } := by
  induction cols generalizing st with
  | nil => simp [extractColumns, matchTrace, traceEnd, recordMatches]
  | cons c rest ih =>
    rw [extractColumns, matchTrace]
    cases h : c.pattern line st.pos with
    | none =>
      by_cases ho : c.optional = true
      · simp only [ho, if_true]
        exact ih st
      · simp [ho, traceEnd, recordMatches]
    | some m =>
      obtain ⟨strpos, len⟩ := m
      by_cases hl : (len : Int) > c.maxLength
      · by_cases ho : c.optional = true
        · simp only [hl, ho, if_true]
          exact ih st
        · simp [hl, ho, traceEnd, recordMatches]
      · simp only [hl, if_false]
        rw [ih]
        simp [traceEnd, recordMatches]

theorem matchTrace_colRef (line : QCString) (cols : List ArchColumns) (pos : Nat) :
    ∀ m ∈ matchTrace line cols pos, ∃ c ∈ cols, c.colRef = m.colRef := by
  induction cols generalizing pos with
  | nil => simp [matchTrace]
  | cons c rest ih =>
    intro m hm
    rw [matchTrace] at hm
    have hrest : ∀ p, m ∈ matchTrace line rest p → ∃ c' ∈ c :: rest, c'.colRef = m.colRef := by
      intro p hp
      obtain ⟨c', h1, h2⟩ := ih p m hp
      exact ⟨c', List.mem_cons_of_mem _ h1, h2⟩
    cases h : c.pattern line pos with
    | none =>
      rw [h] at hm
      by_cases ho : c.optional = true
      · simp only [ho, if_true] at hm
        exact hrest _ hm
      · simp [ho] at hm
    | some mm =>
      obtain ⟨strpos, len⟩ := mm
      rw [h] at hm
      by_cases hl : (len : Int) > c.maxLength
      · by_cases ho : c.optional = true
        · simp only [hl, ho, if_true] at hm
          exact hrest _ hm
        · simp [hl, ho] at hm
      · simp only [hl, if_false] at hm
        rcases List.mem_cons.mp hm with hm | hm
        · exact ⟨c, List.mem_cons_self _ _, by rw [hm]⟩
        · exact hrest _ hm

theorem ColumnArray.inBounds_iff (i : Int) :
    ColumnArray.inBounds i = true ↔ 0 ≤ i ∧ i < 11 := by
  simp [ColumnArray.inBounds]

theorem ColumnArray.set_slots_length (a : ColumnArray) (i : Int) (v : QString) :
    (a.set i v).slots.length = a.slots.length := by
  unfold ColumnArray.set
  split_ifs <;> simp

theorem ColumnArray.set_outOfBounds (a : ColumnArray) (i : Int) (v : QString)
    (hi : ColumnArray.inBounds i = true) : (a.set i v).outOfBounds = a.outOfBounds := by
  simp [ColumnArray.set, hi]

theorem ColumnArray.touch_eq (a : ColumnArray) (i : Int)
    (hi : ColumnArray.inBounds i = true) : a.touch i = a := by
  simp [ColumnArray.touch, hi]

theorem ColumnArray.get_set_ne (a : ColumnArray) (i j : Int) (v : QString) (hij : i ≠ j) :
    (a.set i v).get j = a.get j := by
  unfold ColumnArray.set ColumnArray.get
  by_cases hi : ColumnArray.inBounds i = true
  · by_cases hj : ColumnArray.inBounds j = true
    · have h1 := (ColumnArray.inBounds_iff i).mp hi
      have h2 := (ColumnArray.inBounds_iff j).mp hj
      have hne : i.toNat ≠ j.toNat := by omega
      simp [hi, hj, List.getD_eq_getElem?_getD, List.getElem?_set_ne hne]
    · simp [hi, hj]
  · simp [hi]

theorem recordMatches_slots_length (line : QCString) (ms : List FieldMatch) (a : ColumnArray) :
    (recordMatches line ms a).slots.length = a.slots.length := by
  induction ms generalizing a with
  | nil => rfl
  | cons m rest ih =>
    simp only [recordMatches, List.foldl_cons] at ih ⊢
    rw [ih, ColumnArray.set_slots_length]

theorem recordMatches_outOfBounds (line : QCString) (ms : List FieldMatch) (a : ColumnArray)
    (h : ∀ m ∈ ms, ColumnArray.inBounds m.colRef = true) :
    (recordMatches line ms a).outOfBounds = a.outOfBounds := by
  induction ms generalizing a with
  | nil => rfl
  | cons m rest ih =>
    simp only [recordMatches, List.foldl_cons] at ih ⊢
    rw [ih _ (fun x hx => h x (List.mem_cons_of_mem _ hx)),
      ColumnArray.set_outOfBounds _ _ _ (h m (List.mem_cons_self _ _))]

theorem recordMatches_get_of_not_mem (line : QCString) (ms : List FieldMatch)
    (a : ColumnArray) (i : Int) (h : ∀ m ∈ ms, m.colRef ≠ i) :
    (recordMatches line ms a).get i = a.get i := by
  induction ms generalizing a with
  | nil => rfl
  | cons m rest ih =>
    simp only [recordMatches, List.foldl_cons] at ih ⊢
    rw [ih _ (fun x hx => h x (List.mem_cons_of_mem _ hx)),
      ColumnArray.get_set_ne _ _ _ _ (h m (List.mem_cons_self _ _))]

theorem ColumnArray.new_get (i : Int) : ColumnArray.new.get i = [] := by
  unfold ColumnArray.get ColumnArray.new
  split_ifs with h
  · have h1 := (ColumnArray.inBounds_iff i).mp h
    have : i.toNat < 11 := by omega
    simp only [List.getD_eq_getElem?_getD]
    interval_cases hn : i.toNat <;> rfl
  · rfl

theorem collectColumns_length (numCols : Int) (columns : ColumnArray) :
    (collectColumns numCols columns).1.length = numCols.toNat := by
  simp [collectColumns]

theorem collectColumns_getElem? (numCols : Int) (columns : ColumnArray) (i : Nat)
    (hi : i < numCols.toNat) :
    (collectColumns numCols columns).1[i]? = some (columns.get (i : Int)) := by
  simp [collectColumns, List.getElem?_map, List.getElem?_range hi]

theorem collectColumns_outOfBounds (numCols : Int) (columns : ColumnArray)
    (h : numCols ≤ 11) : (collectColumns numCols columns).2 = columns := by
  unfold collectColumns
  have key : ∀ (l : List Nat) (a : ColumnArray), (∀ i ∈ l, i < 11) →
      l.foldl (fun a i => a.touch (i : Int)) a = a := by
    intro l
    induction l with
    | nil => intro a _; rfl
    | cons x rest ih =>
      intro a hl
      have hx : x < 11 := hl x (List.mem_cons_self _ _)
      rw [List.foldl_cons, ColumnArray.touch_eq a x
        ((ColumnArray.inBounds_iff _).mpr ⟨by omega, by omega⟩)]
      exact ih a (fun i hi => hl i (List.mem_cons_of_mem _ hi))
  apply key
  intro i hi
  have := List.mem_range.mp hi
  omega

theorem ColumnArray.touch_slots (a : ColumnArray) (i : Int) : (a.touch i).slots = a.slots := by
  unfold ColumnArray.touch
  split_ifs <;> rfl

theorem ColumnArray.touch_get (a : ColumnArray) (i j : Int) : (a.touch i).get j = a.get j := by
  unfold ColumnArray.get
  rw [ColumnArray.touch_slots]

theorem ColumnArray.set_touch_slots (a b : ColumnArray) (i : Int) (v : QString)
    (h : a.slots = b.slots) : (a.set i v).slots = (b.set i v).slots := by
  unfold ColumnArray.set
  split_ifs <;> simp [h]

theorem ColumnArray.get_congr (a b : ColumnArray) (j : Int) (h : a.slots = b.slots) :
    a.get j = b.get j := by
  unfold ColumnArray.get
  rw [h]

theorem composeTimestamp_slots (cfg : ArchConfig) (lib : ArkUtils) (columns : ColumnArray) :
    (composeTimestamp cfg lib columns).slots =
      if cfg.m_dateCol ≥ 0 then
        (columns.set cfg.m_dateCol (timestampOf cfg lib columns)).slots
      else columns.slots := by
  unfold composeTimestamp
  by_cases hd : cfg.m_dateCol ≥ 0
  · rw [if_pos hd, if_pos hd]
    dsimp only
    have hts : ∀ (a b : ColumnArray), a.slots = columns.slots → b.slots = columns.slots →
        lib.arg (lib.arg (lib.arg (lib.arg "%1-%2-%3 %4".toList (yearOf cfg lib columns))
          (if cfg.m_repairMonth ≥ 0 then lib.number (lib.getMonth (a.get cfg.m_repairMonth))
            else a.get cfg.m_fixMonth)) (b.get cfg.m_fixDay)) (b.get cfg.m_fixTime)
        = timestampOf cfg lib columns := by
      intro a b ha hb
      unfold timestampOf monthOf
      rw [ColumnArray.get_congr a columns _ ha, ColumnArray.get_congr a columns _ ha,
        ColumnArray.get_congr b columns _ hb, ColumnArray.get_congr b columns _ hb]
    have h1 : ∀ x : ColumnArray, x.slots = columns.slots →
        (if cfg.m_repairMonth ≥ 0 then x.touch cfg.m_repairMonth
          else x.touch cfg.m_fixMonth).slots = columns.slots := by
      intro x hx
      split_ifs <;> rw [ColumnArray.touch_slots, hx]
    have h0 : (if cfg.m_repairYear ≥ 0 then columns.touch cfg.m_repairYear
        else columns.touch cfg.m_fixYear).slots = columns.slots := by
      split_ifs <;> rw [ColumnArray.touch_slots]
    show (ColumnArray.set _ cfg.m_dateCol (lib.arg (lib.arg (lib.arg (lib.arg _
      (if cfg.m_repairYear ≥ 0 then lib.fixYear (columns.get cfg.m_repairYear)
        else columns.get cfg.m_fixYear)) _) _) _)).slots = _
    rw [show (if cfg.m_repairYear ≥ 0 then lib.fixYear (columns.get cfg.m_repairYear)
        else columns.get cfg.m_fixYear) = yearOf cfg lib columns from rfl]
    rw [hts _ _ h0 (h1 _ h0)]
    apply ColumnArray.set_touch_slots
    rw [ColumnArray.touch_slots, ColumnArray.touch_slots, h1 _ h0]
  · rw [if_neg hd, if_neg hd]

theorem composeTimestamp_outOfBounds (cfg : ArchConfig) (lib : ArkUtils)
    (columns : ColumnArray)
    (hdate : cfg.m_dateCol ≥ 0 →
      cfg.m_dateCol < 11 ∧ (0 ≤ cfg.m_fixDay ∧ cfg.m_fixDay < 11)
        ∧ (0 ≤ cfg.m_fixTime ∧ cfg.m_fixTime < 11)
        ∧ ((0 ≤ cfg.m_repairYear ∧ cfg.m_repairYear < 11 ∧ cfg.m_fixYear = -1)
            ∨ (cfg.m_repairYear = -1 ∧ 0 ≤ cfg.m_fixYear ∧ cfg.m_fixYear < 11))
        ∧ ((0 ≤ cfg.m_repairMonth ∧ cfg.m_repairMonth < 11 ∧ cfg.m_fixMonth = -1)
            ∨ (cfg.m_repairMonth = -1 ∧ 0 ≤ cfg.m_fixMonth ∧ cfg.m_fixMonth < 11))) :
    (composeTimestamp cfg lib columns).outOfBounds = columns.outOfBounds := by
  unfold composeTimestamp
  by_cases hd : cfg.m_dateCol ≥ 0
  · obtain ⟨h1, h2, h3, h4, h5⟩ := hdate hd
    rw [if_pos hd]
    dsimp only
    rw [ColumnArray.set_outOfBounds _ _ _ ((ColumnArray.inBounds_iff _).mpr ⟨hd, h1⟩),
      ColumnArray.touch_eq _ _ ((ColumnArray.inBounds_iff _).mpr h3),
      ColumnArray.touch_eq _ _ ((ColumnArray.inBounds_iff _).mpr h2)]
    have hy : (if cfg.m_repairYear ≥ 0 then columns.touch cfg.m_repairYear
        else columns.touch cfg.m_fixYear) = columns := by
      rcases h4 with ⟨a, b, -⟩ | ⟨a, b, c⟩
      · rw [if_pos a, ColumnArray.touch_eq _ _ ((ColumnArray.inBounds_iff _).mpr ⟨a, b⟩)]
      · rw [if_neg (by omega), ColumnArray.touch_eq _ _ ((ColumnArray.inBounds_iff _).mpr ⟨b, c⟩)]
    rw [hy]
    rcases h5 with ⟨a, b, -⟩ | ⟨a, b, c⟩
    · rw [if_pos a, ColumnArray.touch_eq _ _ ((ColumnArray.inBounds_iff _).mpr ⟨a, b⟩)]
    · rw [if_neg (by omega), ColumnArray.touch_eq _ _ ((ColumnArray.inBounds_iff _).mpr ⟨b, c⟩)]
  · rw [if_neg hd]

theorem processLine_eq (cfg : ArchConfig) (lib : ArkUtils) (line : QCString) :
    processLine cfg lib line =
      if (extractColumns line cfg.m_archCols { pos := 0, columns := ColumnArray.new }).1 = true
      then
        { ret := true,
          listingAdd := [(collectColumns cfg.m_numCols (composeTimestamp cfg lib
            (recordMatches line (matchTrace line cfg.m_archCols 0) ColumnArray.new))).1],
          outOfBounds := (collectColumns cfg.m_numCols (composeTimestamp cfg lib
            (recordMatches line (matchTrace line cfg.m_archCols 0)
              ColumnArray.new))).2.outOfBounds }
      else
        { ret := false, listingAdd := [],
          outOfBounds :=
            (recordMatches line (matchTrace line cfg.m_archCols 0) ColumnArray.new).outOfBounds }
    := by
  have ht := extractColumns_trace line cfg.m_archCols { pos := 0, columns := ColumnArray.new }
  unfold processLine
  rcases h : extractColumns line cfg.m_archCols { pos := 0, columns := ColumnArray.new } with
    ⟨b, s⟩
  rw [h] at ht
  simp only at ht
  cases b
  · simp [ht]
  · simp [ht]

theorem composeTimestamp_get (cfg : ArchConfig) (lib : ArkUtils) (columns : ColumnArray)
    (j : Int) (hlen : columns.slots.length = 11) :
    (composeTimestamp cfg lib columns).get j =
      if cfg.m_dateCol ≥ 0 ∧ cfg.m_dateCol < 11 ∧ j = cfg.m_dateCol then
        timestampOf cfg lib columns
      else columns.get j := by
  have hs := composeTimestamp_slots cfg lib columns
  by_cases hd : cfg.m_dateCol ≥ 0
  · rw [if_pos hd] at hs
    rw [ColumnArray.get_congr _ _ j hs]
    by_cases hj : j = cfg.m_dateCol
    · by_cases hb : cfg.m_dateCol < 11
      · rw [if_pos ⟨hd, hb, hj⟩, hj,
          ColumnArray.get_set _ _ _ ((ColumnArray.inBounds_iff _).mpr ⟨hd, hb⟩) hlen]
      · rw [if_neg (fun h => hb h.2.1), hj]
        have hnb : ColumnArray.inBounds cfg.m_dateCol = false := by
          rw [Bool.eq_false_iff, Ne, ColumnArray.inBounds_iff]
          omega
        simp [ColumnArray.get, hnb]
    · rw [if_neg (fun h => hj h.2.2), ColumnArray.get_set_ne _ _ _ _ (Ne.symm hj)]
  · rw [if_neg hd] at hs
    rw [ColumnArray.get_congr _ _ j hs, if_neg (fun h => hd h.1)]

/-- C24. If every extractor's `colRef` is in `[0, 11)`, `m_numCols <= 11` and,
when `m_dateCol >= 0`, `m_dateCol`, `m_fixDay` and `m_fixTime` are in `[0, 11)`
and, for the year and for the month, one of the repair index and the raw index
is in `[0, 11)` and the other is `-1`, then `processLine` uses no index
outside `columns[11]`, whether it accepts the line or not. When it accepts the
line it sends one list to the listing; the list has `m_numCols` strings (none
when `m_numCols` is negative), and a slot that no match was assigned to and
that is not the date column holds the empty string. -/
theorem processLine_index_safety (cfg : ArchConfig) (lib : ArkUtils) (line : QCString)
    (hcols : ∀ c ∈ cfg.m_archCols, 0 ≤ c.colRef ∧ c.colRef < 11)
    (hnum : cfg.m_numCols ≤ 11)
    (hdate : cfg.m_dateCol ≥ 0 →
      cfg.m_dateCol < 11 ∧ (0 ≤ cfg.m_fixDay ∧ cfg.m_fixDay < 11)
        ∧ (0 ≤ cfg.m_fixTime ∧ cfg.m_fixTime < 11)
        ∧ ((0 ≤ cfg.m_repairYear ∧ cfg.m_repairYear < 11 ∧ cfg.m_fixYear = -1)
            ∨ (cfg.m_repairYear = -1 ∧ 0 ≤ cfg.m_fixYear ∧ cfg.m_fixYear < 11))
        ∧ ((0 ≤ cfg.m_repairMonth ∧ cfg.m_repairMonth < 11 ∧ cfg.m_fixMonth = -1)
            ∨ (cfg.m_repairMonth = -1 ∧ 0 ≤ cfg.m_fixMonth ∧ cfg.m_fixMonth < 11))) :
    (processLine cfg lib line).outOfBounds = false
    ∧ ((processLine cfg lib line).ret = true →
        ∃ list, (processLine cfg lib line).listingAdd = [list]
          ∧ list.length = cfg.m_numCols.toNat
          ∧ (0 ≤ cfg.m_numCols → (list.length : Int) = cfg.m_numCols)
          ∧ ∀ i : Nat, i < list.length →
              (∀ m ∈ matchTrace line cfg.m_archCols 0, m.colRef ≠ (i : Int)) →
              cfg.m_dateCol ≠ (i : Int) → list[i]? = some []) := by
  have hin : ∀ m ∈ matchTrace line cfg.m_archCols 0, ColumnArray.inBounds m.colRef = true := by
    intro m hm
    obtain ⟨c, hc, hcm⟩ := matchTrace_colRef line cfg.m_archCols 0 m hm
    rw [← hcm]
    exact (ColumnArray.inBounds_iff _).mpr (hcols c hc)
  have hrec : (recordMatches line (matchTrace line cfg.m_archCols 0)
      ColumnArray.new).outOfBounds = false :=
    recordMatches_outOfBounds line _ _ hin
  have hlen : (recordMatches line (matchTrace line cfg.m_archCols 0)
      ColumnArray.new).slots.length = 11 := by
    rw [recordMatches_slots_length]
    rfl
  rw [processLine_eq]
  by_cases hb : (extractColumns line cfg.m_archCols
      { pos := 0, columns := ColumnArray.new }).1 = true
  · rw [if_pos hb]
    refine ⟨?_, fun _ => ⟨_, rfl, collectColumns_length _ _, ?_, ?_⟩⟩
    · show (collectColumns _ _).2.outOfBounds = false
      rw [collectColumns_outOfBounds _ _ hnum, composeTimestamp_outOfBounds cfg lib _ hdate,
        hrec]
    · intro h0
      rw [collectColumns_length]
      exact Int.toNat_of_nonneg h0
    · intro i hi hm hdc
      rw [collectColumns_length] at hi
      rw [collectColumns_getElem? _ _ i hi, composeTimestamp_get cfg lib _ _ hlen,
        if_neg (fun h => hdc h.2.2.symm), recordMatches_get_of_not_mem line _ _ _ hm,
        ColumnArray.new_get]
  · rw [if_neg hb]
    exact ⟨hrec, fun h => by simp at h⟩

/-! ### The time stamp -/

theorem lowestMarker_append (p t : List Char) (hp : '%' ∉ p) :
    lowestMarker (p ++ t) = lowestMarker t := by
  induction p with
  | nil => rfl
  | cons c rest ih =>
    have hc : c ≠ '%' := fun h => hp (by simp [h])
    have hr : '%' ∉ rest := fun h => hp (List.mem_cons_of_mem _ h)
    rw [List.cons_append, lowestMarker, if_neg hc, ih hr]

theorem replaceMarkers_append (n : Nat) (a p t : List Char) (hp : '%' ∉ p) :
    replaceMarkers n a 0 (p ++ t) = p ++ replaceMarkers n a 0 t := by
  induction p with
  | nil => rfl
  | cons c rest ih =>
    have hc : c ≠ '%' := fun h => hp (by simp [h])
    have hr : '%' ∉ rest := fun h => hp (List.mem_cons_of_mem _ h)
    rw [List.cons_append, replaceMarkers, if_neg hc, ih hr, List.cons_append]

theorem QString.arg_append (p t a : List Char) (hp : '%' ∉ p) :
    QString.arg (p ++ t) a = p ++ QString.arg t a := by
  unfold QString.arg
  rw [lowestMarker_append p t hp]
  cases h : lowestMarker t with
  | none => rfl
  | some n => exact replaceMarkers_append n a p t hp

theorem QString.arg_step1 (a : List Char) :
    QString.arg "%1-%2-%3 %4".toList a = a ++ "-%2-%3 %4".toList := by
  rfl

theorem QString.arg_step2 (a : List Char) :
    QString.arg "-%2-%3 %4".toList a = "-".toList ++ a ++ "-%3 %4".toList := by
  rfl

theorem QString.arg_step3 (a : List Char) :
    QString.arg "-%3 %4".toList a = "-".toList ++ a ++ " %4".toList := by
  rfl

theorem QString.arg_step4 (a : List Char) :
    QString.arg " %4".toList a = " ".toList ++ a := by
  show _ = ' ' :: a
  unfold QString.arg
  simp [lowestMarker, replaceMarkers, markerAfterPercent, markerDigits, digitValue]

theorem QString.arg_timestamp (year month day time : List Char)
    (hy : '%' ∉ year) (hm : '%' ∉ month) (hd : '%' ∉ day) :
    QString.arg (QString.arg (QString.arg (QString.arg "%1-%2-%3 %4".toList year) month) day)
        time
      = year ++ "-".toList ++ month ++ "-".toList ++ day ++ " ".toList ++ time := by
  have h2 : '%' ∉ year ++ "-".toList ++ month := by
    simp only [List.mem_append, not_or]
    exact ⟨⟨hy, by decide⟩, hm⟩
  have h3 : '%' ∉ year ++ "-".toList ++ month ++ "-".toList ++ day := by
    simp only [List.mem_append, not_or]
    exact ⟨⟨⟨⟨hy, by decide⟩, hm⟩, by decide⟩, hd⟩
  rw [QString.arg_step1, QString.arg_append year _ month hy, QString.arg_step2]
  rw [show year ++ ("-".toList ++ month ++ "-%3 %4".toList)
      = (year ++ "-".toList ++ month) ++ "-%3 %4".toList by simp]
  rw [QString.arg_append _ _ day h2, QString.arg_step3]
  rw [show year ++ "-".toList ++ month ++ ("-".toList ++ day ++ " %4".toList)
      = (year ++ "-".toList ++ month ++ "-".toList ++ day) ++ " %4".toList by simp]
  rw [QString.arg_append _ _ time h3, QString.arg_step4]
  simp

/-! ### Time stamps and match positions on sample lines -/

theorem nonSpaceRun_searchesFrom : QRegExp.searchesFrom nonSpaceRun := by
  intro line pos strpos len h
  unfold nonSpaceRun at h
  dsimp only at h
  split_ifs at h
  simp only [Option.some.injEq, Prod.mk.injEq] at h
  omega

theorem digitRun_searchesFrom : QRegExp.searchesFrom digitRun := by
  intro line pos strpos len h
  unfold digitRun at h
  split_ifs at h
  simp only [Option.some.injEq, Prod.mk.injEq] at h
  omega

theorem scannedColumns_eq (cfg : ArchConfig) (line : QCString) :
    scannedColumns cfg line =
      recordMatches line (matchTrace line cfg.m_archCols 0) ColumnArray.new := by
  unfold scannedColumns
  rw [extractColumns_trace]

theorem matchTrace_from_pos (line : QCString) (cols : List ArchColumns) (pos : Nat)
    (h : ∀ c ∈ cols, QRegExp.searchesFrom c.pattern) :
    (∀ m ∈ matchTrace line cols pos, pos ≤ m.strpos)
    ∧ List.Pairwise (fun a b : FieldMatch => a.strpos + a.len ≤ b.strpos)
        (matchTrace line cols pos) := by
  induction cols generalizing pos with
  | nil => simp [matchTrace]
  | cons c rest ih =>
    have hrest : ∀ c ∈ rest, QRegExp.searchesFrom c.pattern :=
      fun x hx => h x (List.mem_cons_of_mem _ hx)
    rw [matchTrace]
    cases hp : c.pattern line pos with
    | none =>
      by_cases ho : c.optional = true
      · simp only [ho, if_true]
        exact ih pos hrest
      · simp [ho]
    | some mm =>
      obtain ⟨strpos, len⟩ := mm
      have hge : pos ≤ strpos := h c (List.mem_cons_self _ _) line pos strpos len hp
      by_cases hl : (len : Int) > c.maxLength
      · by_cases ho : c.optional = true
        · simp only [hl, ho, if_true]
          exact ih pos hrest
        · simp [hl, ho]
      · simp only [hl, if_false]
        obtain ⟨h1, h2⟩ := ih (strpos + len) hrest
        refine ⟨?_, ?_⟩
        · intro m hm
          rcases List.mem_cons.mp hm with hm | hm
          · rw [hm]
            exact hge
          · have := h1 m hm
            omega
        · exact List.Pairwise.cons (fun m hm => h1 m hm) h2

theorem digitChar_ne_percent (n : Nat) (h : n < 10) : Nat.digitChar n ≠ '%' := by
  interval_cases n <;> decide

theorem toDigitsCore_no_percent (fuel n : Nat) (acc : List Char) (hacc : '%' ∉ acc) :
    '%' ∉ Nat.toDigitsCore 10 fuel n acc := by
  induction fuel generalizing n acc with
  | zero => simpa [Nat.toDigitsCore] using hacc
  | succ k ih =>
    have hd : '%' ∉ Nat.digitChar (n % 10) :: acc := by
      intro hc
      rcases List.mem_cons.mp hc with hc | hc
      · exact digitChar_ne_percent (n % 10) (Nat.mod_lt _ (by decide)) hc.symm
      · exact hacc hc
    rw [Nat.toDigitsCore]
    split_ifs
    · exact hd
    · exact ih _ _ hd

theorem QString.number_no_percent (n : Int) : '%' ∉ QString.number n := by
  unfold QString.number Nat.toDigits
  split_ifs
  · intro hc
    rcases List.mem_cons.mp hc with hc | hc
    · exact absurd hc (by decide)
    · exact toDigitsCore_no_percent _ _ [] (by simp) hc
  · exact toDigitsCore_no_percent _ _ [] (by simp)

theorem processLine_listingAdd (cfg : ArchConfig) (lib : ArkUtils) (line : QCString)
    (hret : (processLine cfg lib line).ret = true) :
    (processLine cfg lib line).listingAdd =
      [(List.range cfg.m_numCols.toNat).map (fun (i : Nat) =>
        (composeTimestamp cfg lib (scannedColumns cfg line)).get (i : Int))] := by
  rw [scannedColumns_eq]
  rw [processLine_eq] at hret ⊢
  by_cases hb : (extractColumns line cfg.m_archCols
      { pos := 0, columns := ColumnArray.new }).1 = true
  · rw [if_pos hb]
    rfl
  · rw [if_neg hb] at hret
    simp at hret

theorem scannedColumns_length (cfg : ArchConfig) (line : QCString) :
    (scannedColumns cfg line).slots.length = 11 := by
  rw [scannedColumns_eq, recordMatches_slots_length]
  rfl

/-- C21, amended. On a line `processLine` accepts, `arg` being Qt's
`QString::arg`: when `m_dateCol < 0` no column is rewritten, the list sent to
the listing holds the slots as the loop left them. When `m_dateCol` is in
`[0, 11)` and the year, month and day strings contain no `%`, slot `m_dateCol`
of the list holds `year-month-day time` and the other slots are as the loop
left them; the year is `fixYear(columns[m_repairYear])` if `m_repairYear >= 0`
and `columns[m_fixYear]` otherwise, the month is the number
`getMonth(columns[m_repairMonth])` if `m_repairMonth >= 0` and
`columns[m_fixMonth]` otherwise, the day is `columns[m_fixDay]` and the time
`columns[m_fixTime]`, none of them validated. A number in decimal contains no
`%`. -/
theorem processLine_timestamp (cfg : ArchConfig) (lib : ArkUtils) (line : QCString)
    (harg : lib.arg = QString.arg)
    (hret : (processLine cfg lib line).ret = true) :
    (cfg.m_dateCol < 0 →
        (processLine cfg lib line).listingAdd =
          [(List.range cfg.m_numCols.toNat).map (fun (i : Nat) =>
            (scannedColumns cfg line).get (i : Int))])
    ∧ (0 ≤ cfg.m_dateCol → cfg.m_dateCol < 11 →
        '%' ∉ yearOf cfg lib (scannedColumns cfg line) →
        '%' ∉ monthOf cfg lib (scannedColumns cfg line) →
        '%' ∉ (scannedColumns cfg line).get cfg.m_fixDay →
        (processLine cfg lib line).listingAdd =
          [(List.range cfg.m_numCols.toNat).map (fun (i : Nat) =>
            if (i : Int) = cfg.m_dateCol then
              yearOf cfg lib (scannedColumns cfg line) ++ "-".toList
                ++ monthOf cfg lib (scannedColumns cfg line) ++ "-".toList
                ++ (scannedColumns cfg line).get cfg.m_fixDay ++ " ".toList
                ++ (scannedColumns cfg line).get cfg.m_fixTime
            else (scannedColumns cfg line).get (i : Int))])
    ∧ yearOf cfg lib (scannedColumns cfg line) =
        (if cfg.m_repairYear ≥ 0 then
          lib.fixYear ((scannedColumns cfg line).get cfg.m_repairYear)
         else (scannedColumns cfg line).get cfg.m_fixYear)
    ∧ monthOf cfg lib (scannedColumns cfg line) =
        (if cfg.m_repairMonth ≥ 0 then
          lib.number (lib.getMonth ((scannedColumns cfg line).get cfg.m_repairMonth))
         else (scannedColumns cfg line).get cfg.m_fixMonth)
    ∧ (∀ n : Int, '%' ∉ QString.number n) := by
  have hl := processLine_listingAdd cfg lib line hret
  have hlen := scannedColumns_length cfg line
  refine ⟨?_, ?_, rfl, rfl, QString.number_no_percent⟩
  · intro hd
    rw [hl]
    congr 1
    apply List.map_congr_left
    intro i _
    rw [composeTimestamp_get cfg lib _ _ hlen, if_neg (fun h => by omega)]
  · intro hd hb hy hm hday
    rw [hl]
    congr 1
    apply List.map_congr_left
    intro i _
    rw [composeTimestamp_get cfg lib _ _ hlen]
    by_cases hi : (i : Int) = cfg.m_dateCol
    · rw [if_pos ⟨hd, hb, hi⟩, if_pos hi]
      unfold timestampOf
      rw [harg]
      exact QString.arg_timestamp _ _ _ _ hy hm hday
    · rw [if_neg (fun h => hi h.2.2), if_neg hi]

/-- C21 as amended, at a sample input: the line of `ls -l` gets the time stamp
`2024-1-15 10:30` in the column of the month, with the raw day `15`. -/
theorem processLine_timestamp_witness :
    (processLine sampleConfig sampleLib sampleLine).listingAdd =
      [["-rw-r--r--".toList, "1".toList, "user".toList, "group".toList, "1234".toList,
        "2024-1-15 10:30".toList, "15".toList, "10:30".toList, "file.txt".toList]] :=
  ((processLine_timestamp sampleConfig sampleLib sampleLine rfl (by decide)).2.1
    (by decide) (by decide) (by decide) (by decide) (by decide)).trans (by decide)

/-- C21, refuted as stated: the year column holds `%2`, which
is a place marker of `QString::arg`. The month `01` replaces both the marker
of the format and the one that came with the year, and the time stamp is
`01-01-15 10:30` in place of `%2-01-15 10:30`. -/
theorem processLine_timestamp_place_marker :
    processLine rawDateConfig sampleLib "%2 01 15 10:30".toList =
        { ret := true,
          listingAdd := [["%2".toList, "01".toList, "15".toList, "10:30".toList,
            "01-01-15 10:30".toList]],
          outOfBounds := false }
    ∧ (scannedColumns rawDateConfig "%2 01 15 10:30".toList).slots.take 4 =
        ["%2".toList, "01".toList, "15".toList, "10:30".toList]
    ∧ "01-01-15 10:30".toList ≠
        "%2".toList ++ "-".toList ++ "01".toList ++ "-".toList ++ "15".toList ++ " ".toList
          ++ "10:30".toList := by
  decide

/-- C24, at a sample input: the sample configuration meets the conditions, and
the line of `ls -l` is parsed into nine strings without any index outside the
array. -/
theorem processLine_index_safety_witness :
    (processLine sampleConfig sampleLib sampleLine).outOfBounds = false
    ∧ ∃ list, (processLine sampleConfig sampleLib sampleLine).listingAdd = [list]
        ∧ list.length = 9 := by
  have h := processLine_index_safety sampleConfig sampleLib sampleLine (by decide) (by decide)
    (by decide)
  obtain ⟨list, h1, h2, -⟩ := h.2 (by decide)
  exact ⟨h.1, list, h1, h2⟩

/-- C23, amended. If every pattern returns a position at or after the
offset it is given, as `QRegExp::search` does, then the matches `processLine`
records begin each at or after the end of every earlier one, so the recorded
substrings do not overlap and lie in the line in the order of the extractors.
Their start positions never decrease, and the start position increases after
every match that is not empty. The matches are those written to the array. -/
theorem matchTrace_ordered (cfg : ArchConfig) (line : QCString)
    (hsearch : ∀ c ∈ cfg.m_archCols, QRegExp.searchesFrom c.pattern) :
    List.Pairwise (fun a b : FieldMatch => a.strpos + a.len ≤ b.strpos)
        (matchTrace line cfg.m_archCols 0)
    ∧ List.Pairwise (fun a b : FieldMatch => a.strpos ≤ b.strpos)
        (matchTrace line cfg.m_archCols 0)
    ∧ List.Pairwise (fun a b : FieldMatch => 0 < a.len → a.strpos < b.strpos)
        (matchTrace line cfg.m_archCols 0)
    ∧ (extractColumns line cfg.m_archCols { pos := 0, columns := ColumnArray.new }).2 =
        { pos := traceEnd 0 (matchTrace line cfg.m_archCols 0),
          columns := recordMatches line (matchTrace line cfg.m_archCols 0) ColumnArray.new }
    := by
  have h := (matchTrace_from_pos line cfg.m_archCols 0 hsearch).2
  refine ⟨h, h.imp ?_, h.imp ?_, extractColumns_trace line cfg.m_archCols _⟩
  · intro a b hab
    omega
  · intro a b hab hpos
    omega

/-- C23 as amended, at a sample input: the nine fields of the line of `ls -l` are
matched at increasing positions. -/
theorem matchTrace_ordered_witness :
    List.Pairwise (fun a b : FieldMatch => 0 < a.len → a.strpos < b.strpos)
        (matchTrace sampleLine sampleConfig.m_archCols 0)
    ∧ (matchTrace sampleLine sampleConfig.m_archCols 0).map (fun m => (m.strpos, m.len)) =
        [(0, 10), (12, 1), (14, 4), (19, 5), (29, 4), (34, 3), (38, 2), (41, 5), (47, 8)] :=
  ⟨(matchTrace_ordered sampleConfig sampleLine (by
      intro c hc
      have hp : c.pattern = nonSpaceRun := by
        simp only [sampleConfig, List.mem_cons, List.mem_singleton, List.not_mem_nil,
          or_false] at hc
        rcases hc with h | h | h | h | h | h | h | h | h <;> rw [h]
      rw [hp]
      exact nonSpaceRun_searchesFrom)).2.2.1, by decide⟩

/-- C23, refuted as stated: two numeric fields that may be
empty, on the line `ab`. Both patterns search from the offset they are given,
the line is accepted, and both matches are empty matches at position 0: the
start positions are not strictly increasing. -/
theorem matchTrace_not_strictly_increasing :
    (∀ c ∈ digitsConfig.m_archCols, QRegExp.searchesFrom c.pattern)
    ∧ (processLine digitsConfig sampleLib "ab".toList).ret = true
    ∧ matchTrace "ab".toList digitsConfig.m_archCols 0 = [⟨0, 0, 0⟩, ⟨1, 0, 0⟩]
    ∧ ¬ List.Pairwise (fun a b : FieldMatch => a.strpos < b.strpos)
        (matchTrace "ab".toList digitsConfig.m_archCols 0) := by
  refine ⟨?_, by decide, by decide, by decide⟩
  intro c hc
  have hp : c.pattern = digitRun := by
    simp only [digitsConfig, List.mem_cons, List.mem_singleton, List.not_mem_nil,
      or_false] at hc
    rcases hc with h | h <;> rw [h]
  rw [hp]
  exact digitRun_searchesFrom

end Ark
